import Mathlib

/-!
# Verification development for the `banks` Dovecot plugin

Shallow embedding of `find.c`, `body.c` and `mail.c` (directory
`src/dovecot_plugin`).  The libgit2 object database is represented by plain
data: a repository is the list of commits that `git_revwalk_next` delivers
from `HEAD` (newest first), every commit carries its flattened tree.
-/

namespace Banks

/-! ## Repository backend (libgit2) data -/

/-- Object name (`git_oid`): the 160-bit hash read as a number.  `memcmp` on two
object names is equality of these numbers. -/
abbrev git_oid := Nat

/-- Raw bytes (blob contents, rendered text). -/
abbrev Bytes := List Nat

/-- Bytes of an ASCII string literal. -/
def bytes_of (s : String) : Bytes := s.toList.map Char.toNat

/-- Object type of a tree entry (`git_otype`, the two kinds a tree can hold here). -/
inductive git_otype where
  | GIT_OBJ_TREE
  | GIT_OBJ_BLOB
  deriving DecidableEq, Repr

/-- One entry as handed to a `git_tree_walk` callback: the directory part `root`
(empty, or ending in a slash), the entry `name`, the object name and its type. -/
structure git_tree_entry where
  root : String
  name : String
  id : git_oid
  type : git_otype
  deriving DecidableEq, Repr

/-- Full path of an entry, as `find_blob` builds it with `"%s%s"`. -/
def git_tree_entry.path (e : git_tree_entry) : String := e.root ++ e.name

/-- A snapshot: all entries of the tree in the pre-order of
`git_tree_walk(..., GIT_TREEWALK_PRE, ...)`. -/
abbrev git_tree := List git_tree_entry

/-- A commit: its id, its author timestamp (`git_commit_time`) and its tree. -/
structure git_commit where
  id : git_oid
  time : Int
  tree : git_tree
  deriving DecidableEq, Repr

/-- A repository: `commits` is the sequence produced by `git_revwalk_next` after
`git_revwalk_push(HEAD)` with `GIT_SORT_TOPOLOGICAL`, so its first element is the
head commit; it is empty when `git_repository_head` fails (unborn `HEAD`).
`odb` holds the blobs that `git_blob_lookup` can find.  Read errors of libgit2 on
objects that exist are not represented. -/
structure git_repository where
  commits : List git_commit
  odb : List (git_oid × Bytes)

/-- `git_tree_entry_bypath`: the entry with the given full path, if any. -/
def git_tree_entry_bypath (tree : git_tree) (path : String) : Option git_tree_entry :=
  tree.find? (fun e => e.path == path)

/-- `git_blob_lookup`. -/
def git_blob_lookup (repo : git_repository) (id : git_oid) : Option Bytes :=
  (repo.odb.find? (fun p => p.1 == id)).map Prod.snd

/-! ## find.c -/

/-- `git_tree_walk` driving `find_blob`: the callback stops the walk at the first
entry whose id equals `blobid` and records `root ++ name`; `none` is
`fb_ctx.path == NULL`. -/
def find_blob : git_tree → git_oid → Option String
  | [], _ => none
  | e :: rest, blobid => if e.id = blobid then some e.path else find_blob rest blobid

/-- The `while ((ret = git_revwalk_next(...)) == 0)` loop of `find_versions`: each
commit is passed to the callback with the id found at `path` (or `none`, the
C `NULL`); a negative return of the callback ends the loop. -/
def revwalk_loop {σ : Type} (cb : git_commit → Option git_oid → σ → Int × σ)
    (path : String) : List git_commit → σ → σ
  | [], data => data
  | commit :: rest, data =>
    let r := cb commit ((git_tree_entry_bypath commit.tree path).map (fun e => e.id)) data
    if r.1 < 0 then r.2 else revwalk_loop cb path rest r.2

/-- `find_versions`: returns the C return code (`0` or `-1`) and the callback data
after the call. -/
def find_versions {σ : Type} (repo : git_repository) (blobid : git_oid)
    (cb : git_commit → Option git_oid → σ → Int × σ) (data : σ) : Int × σ :=
  match repo.commits with
  | [] => (-1, data)
  | head_commit :: _ =>
    match find_blob head_commit.tree blobid with
    | none => (-1, data)
    | some path => (0, revwalk_loop cb path repo.commits data)

/-! ## body.c: building the revision list -/

/-- `struct commit_and_blob` (without the construction-time `next` link, which is
the list order below).  `exists_` is the C field `exists`; `blob` is `none`
until `fetch_blobs` loads it. -/
structure commit_and_blob where
  commit : git_commit
  blobid : git_oid
  exists_ : Bool
  blob : Option Bytes
  deriving DecidableEq, Repr

/-- `struct body_versions_context`: `entries` is the linked list from `first`
following `next`; `latest` is its last element. -/
structure body_versions_context where
  count : Nat
  entries : List commit_and_blob
  deriving DecidableEq, Repr

/-- The entry `ctx->latest` (`none` for `NULL`). -/
def body_versions_context.latest (ctx : body_versions_context) : Option commit_and_blob :=
  ctx.entries.getLast?

/-- Link a freshly allocated entry after `latest` and count it
(`ctx->latest = entry; *prevp = entry; ctx->count++`). -/
def body_versions_context.link (ctx : body_versions_context) (entry : commit_and_blob) :
    body_versions_context :=
  { count := ctx.count + 1, entries := ctx.entries ++ [entry] }

/-- Overwrite the commit of `latest` (`entry->commit = commit`). -/
def body_versions_context.set_commit (ctx : body_versions_context) (commit : git_commit) :
    body_versions_context :=
  match ctx.entries.getLast? with
  | none => ctx
  | some e => { ctx with entries := ctx.entries.dropLast ++ [{ e with commit := commit }] }

/-- `body_version`, the callback given to `find_versions` by `commit_seq_body_new`.
A new entry comes from `t_new`, hence zero-filled: `blobid = 0`, `exists = 0`,
`blob = NULL` unless assigned. -/
def body_version (commit : git_commit) (blobid : Option git_oid)
    (ctx : body_versions_context) : Int × body_versions_context :=
  match blobid with
  | none =>
    match ctx.latest with
    | none => (0, ctx.link { commit := commit, blobid := 0, exists_ := false, blob := none })
    | some entry =>
      if entry.exists_ then
        (0, ctx.link { commit := commit, blobid := 0, exists_ := false, blob := none })
      else
        (0, ctx.set_commit commit)
  | some id =>
    match ctx.latest with
    | none => (0, ctx.link { commit := commit, blobid := id, exists_ := true, blob := none })
    | some entry =>
      if entry.exists_ && entry.blobid == id then
        (0, ctx.set_commit commit)
      else
        (0, ctx.link { commit := commit, blobid := id, exists_ := true, blob := none })

/-- `struct commit_seq_body`: `n_revisions` is the length of `revisions`;
`part_headers` and `diffs` are `none` (`NULL`) until generated. -/
structure commit_seq_body where
  revisions : List commit_and_blob
  part_headers : Option (List Bytes)
  diffs : Option (List Bytes)
  deriving DecidableEq, Repr

/-- Number of revisions of a document. -/
def commit_seq_body.n_revisions (b : commit_seq_body) : Nat := b.revisions.length

/-- The part of `commit_seq_body_new` after the walk: `omit_last` when the latest
entry does not exist, `n_revisions = count - omit_last`, and the copy loop that
skips the last entry when `omit_last` is set; the array `revisions` has
`n_revisions` slots. -/
def commit_seq_body_of_ctx (bv_ctx : body_versions_context) : commit_seq_body :=
  let omit_last : Bool :=
    match bv_ctx.latest with
    | none => false
    | some latest => !latest.exists_
  let n_revisions := bv_ctx.count - (if omit_last then 1 else 0)
  { revisions := ((if omit_last then bv_ctx.entries.dropLast else bv_ctx.entries).take n_revisions),
    part_headers := none,
    diffs := none }

/-- `commit_seq_body_new`: `none` is the `NULL` returned when `find_versions`
fails. -/
def commit_seq_body_new (repo : git_repository) (blobid : git_oid) : Option commit_seq_body :=
  let r := find_versions repo blobid body_version { count := 0, entries := [] }
  if r.1 < 0 then none else some (commit_seq_body_of_ctx r.2)

/-! ## Revision lists as the specification describes them -/

/-- A Revision of the specification: a commit and a content id or "absent". -/
abbrev Revision := git_commit × Option git_oid

/-- State recorded by an entry: its content id, or `none` when it does not exist. -/
def commit_and_blob.state (e : commit_and_blob) : Option git_oid :=
  if e.exists_ then some e.blobid else none

/-- The entry `body_version` allocates for a Revision. -/
def revision_entry (r : Revision) : commit_and_blob :=
  { commit := r.1, blobid := r.2.getD 0, exists_ := r.2.isSome, blob := none }

/-- The (commit, state) pairs the walk delivers for `path`, newest first. -/
def walk_states (path : String) (commits : List git_commit) : List Revision :=
  commits.map (fun c => (c, (git_tree_entry_bypath c.tree path).map (fun e => e.id)))

/-- The loop of `find_versions` over an explicit sequence of (commit, state)
pairs: the callback sees them in order until it returns a negative value. -/
def callback_loop {σ : Type} (cb : git_commit → Option git_oid → σ → Int × σ) :
    List Revision → σ → σ
  | [], data => data
  | x :: rest, data =>
    let r := cb x.1 x.2 data
    if r.1 < 0 then r.2 else callback_loop cb rest r.2

/-- Feeding a sequence of (commit, state) pairs to `body_version`, in order,
starting from the zeroed context of `commit_seq_body_new`. -/
def body_versions (seq : List Revision) : body_versions_context :=
  callback_loop body_version seq { count := 0, entries := [] }

/-- Maximal runs of equal states, in order: the specification's grouping of a
newest-first sequence. -/
def runs : List Revision → List (List Revision)
  | [] => []
  | x :: rest =>
    match runs rest with
    | [] => [[x]]
    | [] :: rs => [x] :: rs
    | (y :: r) :: rs => if x.2 = y.2 then (x :: y :: r) :: rs else [x] :: (y :: r) :: rs

/-- Run-length compression: one Revision per maximal run, namely the last
(oldest) pair of the run. -/
def run_length_compress (seq : List Revision) : List Revision :=
  (runs seq).filterMap List.getLast?

/-- Boundary policy: drop the final Revision when its state is absent. -/
def strip_absent_oldest (l : List Revision) : List Revision :=
  match l.getLast? with
  | some (_, none) => l.dropLast
  | _ => l

/-! ## mail.c: first-occurrence query -/

/-- `struct bank_mail_index_record`. -/
structure bank_mail_index_record where
  blobid : git_oid
  deriving DecidableEq, Repr

/-- The fields of `struct bank_mail` used by `get_commit`: the index record
(C field `rec`) and the cached commit (`none` for `NULL`). -/
structure bank_mail where
  rec_ : bank_mail_index_record
  commit : Option git_commit
  deriving DecidableEq, Repr

/-- `get_commit_helper`: stop at the first commit where the path is missing,
otherwise remember this commit. -/
def get_commit_helper (commit : git_commit) (blobid : Option git_oid)
    (bmail : bank_mail) : Int × bank_mail :=
  match blobid with
  | none => (-1, bmail)
  | some _ => (0, { bmail with commit := some commit })

/-- `get_commit`: return code and the `bank_mail` afterwards. -/
def get_commit (bmail : bank_mail) (repo : git_repository) : Int × bank_mail :=
  if bmail.commit.isSome then (0, bmail)
  else
    let r := find_versions repo bmail.rec_.blobid get_commit_helper bmail
    if r.1 < 0 then (-1, r.2)
    else if r.2.commit.isNone then (-1, r.2)
    else (0, r.2)

/-- Two entries record the same state: both absent, or both present with the same
content id. -/
def same_state (a b : commit_and_blob) : Prop :=
  (a.exists_ = false ∧ b.exists_ = false) ∨
    (a.exists_ = true ∧ b.exists_ = true ∧ a.blobid = b.blobid)

/-- A five-commit sample walk, newest first: content 11, absent, content 22 twice,
absent. -/
def sample_walk : List Revision :=
  [(⟨104, 400, []⟩, some 11), (⟨103, 300, []⟩, none), (⟨102, 200, []⟩, some 22),
   (⟨101, 100, []⟩, some 22), (⟨100, 50, []⟩, none)]

/-! ## Sample histories -/

/-- Tree holding `ledger/a.json` with the given content id (`tree_id` names the
`ledger` directory object). -/
def ledger_tree (tree_id blob_id : git_oid) : git_tree :=
  [⟨"", "ledger", tree_id, git_otype.GIT_OBJ_TREE⟩,
   ⟨"ledger/", "a.json", blob_id, git_otype.GIT_OBJ_BLOB⟩]

/-- Commit number `n` (1 to 7) of the ledger scenario; its id is `n`, its time
`1000 * n`.  Content `B1` has id 11, content `B2` has id 22. -/
def ledger_commit (n : Nat) : git_commit :=
  { id := n, time := 1000 * n,
    tree := if n ≤ 2 then ledger_tree 501 11 else if n ≤ 6 then ledger_tree 502 22 else [] }

/-- The ledger scenario walked from head `C7`: the file holds `B1` at `C1`, `C2`,
`B2` at `C3` to `C6`, and is deleted at `C7`. -/
def ledger_repo : git_repository :=
  { commits := [7, 6, 5, 4, 3, 2, 1].map ledger_commit, odb := [(11, [49]), (22, [50])] }

/-- The same history with head `C6`, where the file still exists. -/
def ledger_repo_C6 : git_repository :=
  { commits := [6, 5, 4, 3, 2, 1].map ledger_commit, odb := [(11, [49]), (22, [50])] }

/-- The RevisionList the ledger scenario names: `[(C7, absent), (C3, B2), (C1, B1)]`. -/
def ledger_revisions : List Revision :=
  [(ledger_commit 7, none), (ledger_commit 3, some 22), (ledger_commit 1, some 11)]

/-- A commit whose tree is the single file `a.json` with the given content id, or
empty. -/
def file_commit (n : Nat) (content : Option git_oid) : git_commit :=
  { id := n, time := 1000 * n,
    tree := match content with
      | none => []
      | some id => [⟨"", "a.json", id, git_otype.GIT_OBJ_BLOB⟩] }

/-- History (newest first) in which `a.json` holds content 11, was missing one
commit earlier, and held content 11 before that. -/
def gap_repo : git_repository :=
  { commits := [file_commit 3 (some 11), file_commit 2 none, file_commit 1 (some 11)],
    odb := [(11, [49])] }

/-- History (newest first) in which `a.json` holds content 11 at head and content
22 in the two older commits. -/
def changed_repo : git_repository :=
  { commits := [file_commit 3 (some 11), file_commit 2 (some 22), file_commit 1 (some 22)],
    odb := [(11, [49]), (22, [50])] }

/-- The path exists in a (commit, state) pair. -/
def present (x : Revision) : Bool := x.2.isSome

/-- In a walk sequence, once the path is absent it stays absent: after the leading
commits in which the path exists, every older commit has it absent. -/
def absent_stays_absent (seq : List Revision) : Prop :=
  ∀ x ∈ seq.dropWhile present, x.2 = none

/-- The path exists in the tree of a commit. -/
def path_present (path : String) (c : git_commit) : Bool :=
  (git_tree_entry_bypath c.tree path).isSome

/-! ## body.c: part headers -/

/-- `GIT_OID_HEXSZ`. -/
def GIT_OID_HEXSZ : Nat := 40

/-- `part_header_size`: `sizeof("\ncommit ")-1 + GIT_OID_HEXSZ + sizeof("\nDate: ")-1 + 20 +
sizeof("\n\n")-1`. -/
def part_header_size : Nat :=
  (bytes_of "\ncommit ").length + GIT_OID_HEXSZ + (bytes_of "\nDate: ").length + 20 +
    (bytes_of "\n\n").length

/-- One lowercase hexadecimal digit. -/
def hex_digit (d : Nat) : Nat := if d < 10 then 48 + d else 87 + d

/-- `git_oid_fmt`: the 20 bytes of the object name as 40 hexadecimal digits. -/
def git_oid_fmt (id : git_oid) : Bytes :=
  (List.range GIT_OID_HEXSZ).map (fun i => hex_digit (id / 16 ^ (GIT_OID_HEXSZ - 1 - i) % 16))

/-- `struct tm`, the fields `strftime` reads for the date template. -/
structure tm where
  tm_year : Int
  tm_mon : Int
  tm_mday : Int
  tm_hour : Int
  tm_min : Int
  tm_sec : Int
  deriving DecidableEq, Repr

/-- `gmtime_r`: broken-down UTC time of a count of seconds since the epoch
(proleptic Gregorian calendar; `tm_year` counts from 1900, `tm_mon` from 0).
`none` is the `NULL` the C function returns (with `EOVERFLOW`) when the year minus
1900 does not fit the `int` field `tm_year`. -/
def gmtime_r (t : Int) : Option tm :=
  let days := t / 86400
  let secs := t % 86400
  let z := days + 719468
  let era := z / 146097
  let doe := z % 146097
  let yoe := (doe - doe / 1460 + doe / 36524 - doe / 146096) / 365
  let doy := doe - (365 * yoe + yoe / 4 - yoe / 100)
  let mp := (5 * doy + 2) / 153
  let d := doy - (153 * mp + 2) / 5 + 1
  let m := if mp < 10 then mp + 3 else mp - 9
  let y := yoe + era * 400 + (if m ≤ 2 then 1 else 0)
  if -2147483648 ≤ y - 1900 ∧ y - 1900 ≤ 2147483647 then
    some { tm_year := y - 1900, tm_mon := m - 1, tm_mday := d,
           tm_hour := secs / 3600, tm_min := secs % 3600 / 60, tm_sec := secs % 60 }
  else none

/-- Decimal digits of a natural number, as `printf("%d")` writes them. -/
def decimal (n : Nat) : Bytes := (Nat.toDigits 10 n).map Char.toNat

/-- A conversion such as `%m`, `%d`, `%H`: two decimal digits, zero padded. -/
def two_digits (n : Int) : Bytes := [48 + (n.toNat / 10 % 10), 48 + (n.toNat % 10)]

/-- The conversion `%Y`: the year as a decimal number, with a minus sign for years
before year 0, not padded. -/
def year_digits (year : Int) : Bytes :=
  if year < 0 then 45 :: decimal (-year).toNat else decimal year.toNat

/-- `strftime` with `part_header_date_template`, `"%Y-%m-%d %H:%M:%SZ"`.  The
destination `date[40]` always has room for the result in the range of `int`
years. -/
def strftime_date (t : tm) : Bytes :=
  year_digits (t.tm_year + 1900) ++ [45] ++ two_digits (t.tm_mon + 1) ++ [45] ++
    two_digits t.tm_mday ++ [32] ++ two_digits t.tm_hour ++ [58] ++ two_digits t.tm_min ++
    [58] ++ two_digits t.tm_sec ++ [90]

/-- What `sprintf(b->part_headers[i], part_header_template, oid_text, date)` writes
(without the terminating NUL) for a revision anchored at `commit`, `date` being
what `strftime` made of `gmtime_r(&when, &tm)`.  `none`: `gmtime_r` returned `NULL`,
which `generate_body` hands to `strftime` unchecked; the process does not survive
the read through the null pointer. -/
def render_part_header (commit : git_commit) : Option Bytes :=
  match gmtime_r commit.time with
  | none => none
  | some t =>
    some (bytes_of "\ncommit " ++ git_oid_fmt commit.id ++ bytes_of "\nDate: " ++
      strftime_date t ++ bytes_of "\n\n")

/-! ## body.c: diffs, sizes and the stream -/

/-- `deleted_marker`. -/
def deleted_marker : Bytes := bytes_of "<deleted>\n"

/-- `sizeof(deleted_marker)`: `deleted_marker` is declared `const char *`, so this
is the size of a pointer, 8 on the LP64 platforms the plugin is built for. -/
def sizeof_deleted_marker : Nat := 8

/-- What libgit2 reports to the callbacks of `git_diff_blobs`, in call order: the
file callback, a hunk with its header text, or a line with its two line numbers
(`-1` when the line is missing on that side) and its content. -/
inductive diff_event where
  | file
  | hunk (header : Bytes)
  | line (old_lineno new_lineno : Int) (content : Bytes)
  deriving DecidableEq, Repr

/-- `diff_file`: appends the fixed pseudo file header to the payload. -/
def diff_file (payload : Bytes) : Bytes :=
  payload ++ bytes_of "\ndiff below above\n--- below\n+++ above\n"

/-- `diff_hunk`: appends the hunk header. -/
def diff_hunk (header : Bytes) (payload : Bytes) : Bytes := payload ++ header

/-- `diff_line`: appends the marker character and the line content. -/
def diff_line (old_lineno new_lineno : Int) (content : Bytes) (payload : Bytes) : Bytes :=
  (payload ++ [if old_lineno = -1 then 43 else if new_lineno = -1 then 45 else 32]) ++ content

/-- `git_diff_blobs(old_blob, NULL, new_blob, NULL, NULL, diff_file, NULL, diff_hunk,
diff_line, payload)`: `differ` stands for the diff engine of libgit2 and yields the
callback events for the two sides (a `NULL` blob is `none`). -/
def git_diff_blobs (differ : Option Bytes → Option Bytes → List diff_event)
    (old_blob new_blob : Option Bytes) (payload : Bytes) : Bytes :=
  (differ old_blob new_blob).foldl (fun acc ev =>
    match ev with
    | diff_event.file => diff_file acc
    | diff_event.hunk header => diff_hunk header acc
    | diff_event.line o n content => diff_line o n content acc) payload

/-- The field `b->revisions[i].blob`. -/
def commit_seq_body.blob_at (b : commit_seq_body) (i : Nat) : Option Bytes :=
  (b.revisions.get? i).bind (fun r => r.blob)

/-- `generate_diffs`: nothing when the diffs are cached or there are fewer than two
revisions; otherwise diff `i` compares revision `i+1` (old side) with revision `i`
(new side). -/
def generate_diffs (differ : Option Bytes → Option Bytes → List diff_event)
    (b : commit_seq_body) : commit_seq_body :=
  if b.diffs.isSome then b
  else if b.n_revisions < 2 then b
  else
    { b with diffs := some ((List.range (b.n_revisions - 1)).map (fun i =>
        git_diff_blobs differ (b.blob_at (i + 1)) (b.blob_at i) [])) }

/-- The loop of `fetch_blobs` over the revisions: return code and the revisions
afterwards (the loop stops at the first failed lookup). -/
def fetch_blobs_loop (repo : git_repository) : List commit_and_blob → Int × List commit_and_blob
  | [] => (0, [])
  | r :: rest =>
    if !r.exists_ then
      let t := fetch_blobs_loop repo rest
      (t.1, r :: t.2)
    else
      match r.blob with
      | some _ =>
        let t := fetch_blobs_loop repo rest
        (t.1, r :: t.2)
      | none =>
        match git_blob_lookup repo r.blobid with
        | none => (-1, r :: rest)
        | some blob =>
          let t := fetch_blobs_loop repo rest
          (t.1, { r with blob := some blob } :: t.2)

/-- `fetch_blobs`. -/
def fetch_blobs (b : commit_seq_body) (repo : git_repository) : Int × commit_seq_body :=
  let t := fetch_blobs_loop repo b.revisions
  (t.1, { b with revisions := t.2 })

/-- `payload_size` of one revision in `body_size`: `git_blob_rawsize` of the blob, or
`sizeof(deleted_marker) - 1`. -/
def payload_size (r : commit_and_blob) : Nat :=
  if r.exists_ then (r.blob.getD []).length else sizeof_deleted_marker - 1

/-- First loop of `body_size`, from index `i` on. -/
def body_size_loop : List commit_and_blob → Nat → Nat → Nat
  | [], _, sum => sum
  | r :: rest, i, sum =>
    body_size_loop rest (i + 1) (sum + (part_header_size + payload_size r - (if i = 0 then 1 else 0)))

/-- `str_len(b->diffs[i])`. -/
def commit_seq_body.diff_at (b : commit_seq_body) (i : Nat) : Bytes :=
  (b.diffs.getD []).getD i []

/-- `body_size`: the returned `ssize_t` (`-1` on failure) and the document with its
caches afterwards. -/
def body_size (differ : Option Bytes → Option Bytes → List diff_event)
    (b : commit_seq_body) (repo : git_repository) : Int × commit_seq_body :=
  let f := fetch_blobs b repo
  if f.1 < 0 then (-1, f.2)
  else
    let sum := body_size_loop f.2.revisions 0 0
    let b2 := generate_diffs differ f.2
    let sum2 := (List.range (b2.n_revisions - 1)).foldl (fun acc i => acc + (b2.diff_at i).length) sum
    ((sum2 : Int), b2)

/-- The buffer `b->part_headers[i]` after `sprintf`: `part_header_size + 1` bytes
from `p_new` (zero filled) with the rendered header written at its start.  Bytes
written past the end of the buffer are not represented. -/
def part_header_buffer (commit : git_commit) : Option Bytes :=
  match render_part_header commit with
  | none => none
  | some text =>
    some ((text ++ List.replicate (part_header_size + 1) 0).take (part_header_size + 1))

/-- The `for` loop of `generate_body` that fills `b->part_headers`: one buffer per
revision, in order; `none` when `gmtime_r` fails for one of the commit times. -/
def part_headers_loop : List commit_and_blob → Option (List Bytes)
  | [] => some []
  | r :: rest =>
    (part_header_buffer r.commit).bind (fun buffer =>
      (part_headers_loop rest).map (fun buffers => buffer :: buffers))

/-- `generate_body`: return code and the document afterwards; `none` when the
process does not survive the header loop (`gmtime_r` returned `NULL` for a commit
time). -/
def generate_body (differ : Option Bytes → Option Bytes → List diff_event)
    (b : commit_seq_body) (repo : git_repository) : Option (Int × commit_seq_body) :=
  if b.part_headers.isSome then some (0, b)
  else
    let f := fetch_blobs b repo
    if f.1 < 0 then some (-1, f.2)
    else
      match part_headers_loop f.2.revisions with
      | none => none
      | some buffers =>
        let b2 : commit_seq_body :=
          { revisions := f.2.revisions, part_headers := some buffers, diffs := f.2.diffs }
        some (0, generate_diffs differ b2)

/-- `i_stream_create_from_data(data + offset, size)` on a byte buffer. -/
def i_stream_create_from_data (data : Bytes) (offset size : Nat) : Bytes :=
  (data.drop offset).take size

/-- The buffer `b->part_headers[part]`. -/
def commit_seq_body.part_header_at (b : commit_seq_body) (part : Nat) : Bytes :=
  (b.part_headers.getD []).getD part []

/-- The number of slots `body_stream` allocates for `parts`. -/
def body_stream_alloc (b : commit_seq_body) (header : Option Bytes) : Nat :=
  (if header.isNone then 0 else 1) + (b.n_revisions * 2) +
    (if b.n_revisions = 0 then 0 else b.n_revisions - 1) + 1

/-- The `for (part = 0; part < b->n_revisions; part++)` loop of `body_stream` from
index `part` on: `parts` are the streams stored so far (`i` is their number). -/
def body_stream_loop (b : commit_seq_body) :
    List commit_and_blob → Nat → Nat → List Bytes → List Bytes
  | [], _, _, parts => parts
  | r :: rest, part, offset, parts =>
    let parts1 := parts ++
      [i_stream_create_from_data (b.part_header_at part) offset (part_header_size - offset)]
    let parts2 := parts1 ++
      [if r.exists_ then i_stream_create_from_data (r.blob.getD []) 0 (r.blob.getD []).length
       else i_stream_create_from_data deleted_marker 0 (sizeof_deleted_marker - 1)]
    let parts3 :=
      if (part : Int) < (b.n_revisions : Int) - 1 then
        parts2 ++ [i_stream_create_from_data (b.diff_at part) 0 (b.diff_at part).length]
      else parts2
    body_stream_loop b rest (part + 1) 0 parts3

/-- `body_stream`: the streams stored in `parts` before the `NULL` terminator, in
order; `i_stream_create_concat` reads them one after the other. -/
def body_stream (b : commit_seq_body) (header : Option Bytes) : List Bytes :=
  match header with
  | none => body_stream_loop b b.revisions 0 1 []
  | some h => body_stream_loop b b.revisions 0 0 [h]

/-- All bytes read from the stream returned by `body_stream`. -/
def body_stream_bytes (b : commit_seq_body) (header : Option Bytes) : Bytes :=
  (body_stream b header).flatten

/-- `bank_mail_get_physical_size` for a mail whose document is `body` and whose
generated header string is `header_str`: `none` is the `-1` return, otherwise the
value stored in `size_r`. -/
def bank_mail_get_physical_size (differ : Option Bytes → Option Bytes → List diff_event)
    (body : commit_seq_body) (repo : git_repository) (header_str : Bytes) : Option Int :=
  let bsize := body_size differ body repo
  if bsize.1 < 0 then none else some (header_str.length + 1 + bsize.1)

/-- Sum of the diff lengths that belong to the revisions `part`, ..., `part + len - 1`
of a document: diff `i` exists only when `i < n_revisions - 1`. -/
def diff_sum (b : commit_seq_body) (part len : Nat) : Nat :=
  ((List.range' part len).map (fun i : Nat =>
    if (i : Int) < (b.n_revisions : Int) - 1 then (b.diff_at i).length else 0)).sum

/-- Sum of `part_header_size + payload_size` over some revisions. -/
def parts_sum (l : List commit_and_blob) : Nat :=
  (l.map (fun r => part_header_size + payload_size r)).sum

/-- Every existing revision has its blob loaded. -/
def fetched (l : List commit_and_blob) : Prop :=
  ∀ r ∈ l, r.exists_ = true → r.blob.isSome = true

/-- The sum `body_size` computes from the revisions and the cached diffs. -/
def document_size (b : commit_seq_body) : Nat :=
  body_size_loop b.revisions 0 0 +
    ((List.range (b.n_revisions - 1)).map (fun i => (b.diff_at i).length)).sum

/-- The part headers are those `generate_body` stores for the revisions. -/
def headers_ok (b : commit_seq_body) : Prop :=
  b.part_headers.isSome = true ∧ b.part_headers = part_headers_loop b.revisions

/-- The document `commit_seq_body_new` hands out for a list of revisions: nothing is
cached yet. -/
def new_document (revs : List commit_and_blob) : commit_seq_body :=
  { revisions := revs, part_headers := none, diffs := none }

/-- A stand-in diff engine for the examples: one file event, one hunk, the old
side as a removed line and the new side as an added line. -/
def sample_differ : Option Bytes → Option Bytes → List diff_event :=
  fun old_blob new_blob =>
    [diff_event.file, diff_event.hunk (bytes_of "@@ -1 +1 @@\n"),
     diff_event.line 1 (-1) (old_blob.getD []), diff_event.line (-1) 1 (new_blob.getD [])]

/-- Three revisions over the ledger history: deleted at `C7`, content `B2` from
`C3`, content `B1` from `C1`. -/
def sample_revisions : List commit_and_blob := ledger_revisions.map revision_entry

/-! ## The order of the document parts, as the specification lists them -/

/-- The revision header part of revision `i`: the header buffer without its leading
newline for the very first part of the document, whole otherwise. -/
def revision_header_part (b : commit_seq_body) (header : Option Bytes) (i : Nat) : Bytes :=
  let offset := if i = 0 ∧ header = none then 1 else 0
  ((b.part_header_at i).drop offset).take (part_header_size - offset)

/-- The content-or-placeholder part of revision `i`. -/
def revision_content_part (b : commit_seq_body) (i : Nat) : Bytes :=
  match b.revisions.get? i with
  | none => []
  | some r =>
    if r.exists_ then r.blob.getD [] else deleted_marker.take (sizeof_deleted_marker - 1)

/-- Whole-document order: the external header if supplied, then for each revision
from newest (0) to oldest its header, its content or placeholder and, except for
the oldest, the diff to the next older revision. -/
def document_parts (b : commit_seq_body) (header : Option Bytes) : List Bytes :=
  header.toList ++ (List.range b.n_revisions).flatMap (fun i =>
    [revision_header_part b header i, revision_content_part b i] ++
      (if i + 1 < b.n_revisions then [b.diff_at i] else []))

/-! ## Diff rendering and sample document -/

/-- A revision of the walk after `fetch_blobs`: the entry `body_version` made, with
the blob of an existing revision loaded from the object database. -/
def fetched_entry (repo : git_repository) (x : Revision) : commit_and_blob :=
  { commit := x.1, blobid := x.2.getD 0, exists_ := x.2.isSome,
    blob := x.2.bind (git_blob_lookup repo) }

/-- The document `commit_seq_body_new` hands out for content 22 in the ledger
history with head `C6`: content `B2` from `C3`, content `B1` from `C1`. -/
def ledger_document : commit_seq_body :=
  new_document [revision_entry (ledger_commit 3, some 22), revision_entry (ledger_commit 1, some 11)]

/-- The sample revisions after `generate_body`: blobs loaded, headers and diffs
generated. -/
def sample_document : commit_seq_body :=
  match generate_body sample_differ (new_document sample_revisions) ledger_repo with
  | some r => r.2
  | none => new_document sample_revisions

/-! ## repo.c: the persisted index -/

/-- `struct bank_mail_index_header`. -/
structure bank_mail_index_header where
  sync_commitid : git_oid
  deriving DecidableEq, Repr

/-- `sizeof(struct bank_mail_index_header)`: one `git_oid` of 20 bytes. -/
def sizeof_bank_mail_index_header : Nat := 20

/-- One message of the mail index: its uid and its record in the `bank` extension. -/
structure index_message where
  uid : Nat
  ext : bank_mail_index_record
  deriving DecidableEq, Repr

/-- What repo.c reads from the mail index through the sync view: the header fields
`uid_validity` and `next_uid`, the messages (message `mseq` is element `mseq - 1`),
and the header of the `bank` extension with its stored size (0 when it was never
written). -/
structure mail_index where
  uid_validity : Nat
  next_uid : Nat
  messages : List index_message
  hdr_ext_size : Nat
  hdr_ext : bank_mail_index_header
  deriving DecidableEq, Repr

/-- The changes repo.c collects in a `struct mail_index_transaction`: the
`uid_validity` written with `mail_index_update_header`, the sequence numbers passed
to `mail_index_expunge`, the messages added with `mail_index_append` and
`mail_index_update_ext` (in call order), and the extension header written with
`mail_index_update_header_ext`. -/
structure mail_index_transaction where
  uid_validity : Option Nat
  expunges : List Nat
  appends : List index_message
  hdr_ext : Option bank_mail_index_header
  deriving DecidableEq, Repr

/-- The transaction handed out by `mail_index_sync_begin`. -/
def empty_transaction : mail_index_transaction :=
  { uid_validity := none, expunges := [], appends := [], hdr_ext := none }

/-- Committing a transaction (`mail_index_sync_commit`): expunged sequence numbers
disappear, appended messages follow the kept ones, `next_uid` moves past every
appended uid, and written header fields replace the stored ones. -/
def mail_index_commit (index : mail_index) (trans : mail_index_transaction) : mail_index :=
  { uid_validity := trans.uid_validity.getD index.uid_validity,
    next_uid := trans.appends.foldl (fun n m => max n (m.uid + 1)) index.next_uid,
    messages :=
      ((index.messages.enum.filter (fun p => !trans.expunges.contains (p.1 + 1))).map Prod.snd) ++
        trans.appends,
    hdr_ext_size :=
      if trans.hdr_ext.isSome then sizeof_bank_mail_index_header else index.hdr_ext_size,
    hdr_ext := trans.hdr_ext.getD index.hdr_ext }

/-- The fields of `struct bank_mailbox` repo.c uses. -/
structure bank_mailbox where
  repo : git_repository
  dirpath : String

/-! ## repo.c: scanning the head directory -/

/-- `struct blob_and_time`. -/
structure blob_and_time where
  blobid : git_oid
  timestamp : Int
  deriving DecidableEq, Repr

/-- `blob_hash`: the first four bytes of the object name, lowest byte first. -/
def blob_hash (oid : git_oid) : Nat :=
  (oid / 256 ^ 19 % 256) + (oid / 256 ^ 18 % 256) * 2 ^ 8 + (oid / 256 ^ 17 % 256) * 2 ^ 16 +
    (oid / 256 ^ 16 % 256) * 2 ^ 24

/-- `blob_cmp`: `memcmp` of two object names, `0` exactly when they are equal. -/
def blob_cmp (a b : git_oid) : Int := if a < b then -1 else if b < a then 1 else 0

/-- `bytime`, the comparison `qsort` is called with. -/
def bytime (a b : blob_and_time) : Int :=
  if a.timestamp < b.timestamp then -1 else if a.timestamp > b.timestamp then 1 else 0

/-- The table `files` of `repo_scan`: its nodes in insertion order.  Every node is
a `blob_and_time` whose `blobid` is the key; `blob_hash` only selects the bucket. -/
abbrev hash_table := List blob_and_time

/-- `hash_table_lookup` with `blob_cmp` as key comparison. -/
def hash_table_lookup (files : hash_table) (key : git_oid) : Option blob_and_time :=
  files.find? (fun x => blob_cmp x.blobid key == 0)

/-- Modelled from the spec: `hash_table_insert` belongs to Dovecot (lib/hash.c), which
is not part of this repository.  The specification has the scan collect "the set
of Content identifiers" in an "associative container keyed by content
identifier", with the content id as "the index key, not path": a key that is not
in the table gets a new node, and for a key that is already there the table
keeps its one node, which takes the new value.  (A release of the library that
instead asserts that an inserted key is new would stop the process at that
point.) -/
def hash_table_insert (files : hash_table) (value : blob_and_time) : hash_table :=
  match hash_table_lookup files value.blobid with
  | some _ => files.map (fun x => if blob_cmp x.blobid value.blobid == 0 then value else x)
  | none => files ++ [value]

/-- `hash_table_remove` of a key that is in the table. -/
def hash_table_remove (files : hash_table) (key : git_oid) : hash_table :=
  files.filter (fun x => !(blob_cmp x.blobid key == 0))

/-- What `repo_scan` takes from outside this repository.  `payload_date` is
`parse_blob` followed by `blob_get_date` on the bytes of a blob (`none` when the
JSON parser, the field lookup or `sscanf` fails); `iterate` is the order in which
`hash_table_iterate` visits the nodes; `qsort` is the C library sort called with
`bytime`. -/
structure scan_env where
  payload_date : Bytes → Option Int
  iterate : hash_table → List blob_and_time
  qsort : List blob_and_time → List blob_and_time

/-- The contract of the library functions in a `scan_env`: iterating visits every
node once, and `qsort` permutes its input into an order in which no element
compares greater than a later one. -/
def scan_env.lawful (env : scan_env) : Prop :=
  (∀ files, (env.iterate files).Perm files) ∧
  (∀ l, (env.qsort l).Perm l) ∧
  (∀ l, (env.qsort l).Pairwise (fun a b => bytime a b ≤ 0))

/-- The entries of the tree object the entry `dirpath` names: the direct children of
that directory, in tree order (`git_tree_lookup` with `git_tree_entry_byindex`). -/
def git_tree_lookup_entries (tree : git_tree) (dirpath : String) : List git_tree_entry :=
  tree.filter (fun e => e.root == dirpath ++ "/")

/-- First loop of `repo_scan`: `hash_table_insert` for every blob entry, keyed by its
content id, with a zeroed timestamp (`p_new`); entries of another type are
skipped. -/
def scan_insert_loop : List git_tree_entry → hash_table → hash_table
  | [], files => files
  | e :: rest, files =>
    if e.type ≠ git_otype.GIT_OBJ_BLOB then scan_insert_loop rest files
    else scan_insert_loop rest (hash_table_insert files { blobid := e.id, timestamp := 0 })

/-- Second loop of `repo_scan`, from sequence number `mseq` on: a message whose
content id is not in the table is expunged, otherwise its node is removed. -/
def scan_messages_loop (messages : List index_message) (mseq : Nat) (files : hash_table)
    (trans : mail_index_transaction) : hash_table × mail_index_transaction :=
  match messages with
  | [] => (files, trans)
  | m :: rest =>
    match hash_table_lookup files m.ext.blobid with
    | none =>
      scan_messages_loop rest (mseq + 1) files
        { uid_validity := trans.uid_validity, expunges := trans.expunges ++ [mseq],
          appends := trans.appends, hdr_ext := trans.hdr_ext }
    | some _ =>
      scan_messages_loop rest (mseq + 1) (hash_table_remove files m.ext.blobid) trans

/-- Body of the iteration loop of `repo_scan` (with `SORT_ON_SYNC`): the timestamp
of a node is replaced when the blob can be loaded and its date extracted. -/
def scan_timestamp (env : scan_env) (repo : git_repository) (e : blob_and_time) :
    blob_and_time :=
  match (git_blob_lookup repo e.blobid).bind env.payload_date with
  | none => e
  | some t => { blobid := e.blobid, timestamp := t }

/-- Last loop of `repo_scan`: one appended message per list element, `uid` being a
`uint32_t` that is incremented each time. -/
def scan_append_loop (file_entry_list : List blob_and_time) (uid : Nat)
    (trans : mail_index_transaction) : mail_index_transaction :=
  match file_entry_list with
  | [] => trans
  | e :: rest =>
    scan_append_loop rest ((uid + 1) % 2 ^ 32)
      { uid_validity := trans.uid_validity, expunges := trans.expunges,
        appends := trans.appends ++ [{ uid := uid, ext := { blobid := e.blobid } }],
        hdr_ext := trans.hdr_ext }

/-- `repo_scan`: the return code and the transaction afterwards. -/
def repo_scan (env : scan_env) (mbox : bank_mailbox) (head_commitid : git_oid)
    (trans : mail_index_transaction) (sync_view : mail_index) (next_uid : Nat) :
    Int × mail_index_transaction :=
  match mbox.repo.commits.find? (fun c => c.id == head_commitid) with
  | none => (-1, trans)
  | some head_commit =>
    match git_tree_entry_bypath head_commit.tree mbox.dirpath with
    | none => (-1, trans)
    | some entry =>
      if entry.type ≠ git_otype.GIT_OBJ_TREE then (-1, trans)
      else
        let files := scan_insert_loop (git_tree_lookup_entries head_commit.tree mbox.dirpath) []
        let r := scan_messages_loop sync_view.messages 1 files trans
        if r.1.length = 0 then (0, r.2)
        else
          let file_entry_list := (env.iterate r.1).map (scan_timestamp env mbox.repo)
          (0, scan_append_loop (env.qsort file_entry_list) next_uid r.2)

/-! ## repo.c: synchronisation -/

/-- What `repo_sync` takes from outside this repository besides the scan
environment: the results of `mail_index_sync_begin` and `mail_index_sync_commit`,
and the clock `ioloop_time`. -/
structure sync_env where
  scan : scan_env
  sync_begin_ret : Int
  sync_commit_ret : Int
  ioloop_time : Int

/-- Outcome of `repo_sync`: its return code, whether `need_scan` was set, the
transaction it built, and the persisted index afterwards. -/
structure sync_result where
  ret : Int
  need_scan : Bool
  trans : mail_index_transaction
  index : mail_index
  deriving DecidableEq, Repr

/-- `repo_get_head`: the id of the head commit, `none` when `git_repository_head`
fails. -/
def repo_get_head (mbox : bank_mailbox) : Option git_oid :=
  mbox.repo.commits.head?.map (fun c => c.id)

/-- End of `repo_sync`: `mail_index_sync_commit` and the return code. -/
def sync_commit (env : sync_env) (index : mail_index) (need_scan : Bool)
    (trans : mail_index_transaction) : sync_result :=
  if env.sync_commit_ret < 0 then
    { ret := -1, need_scan := need_scan, trans := trans, index := index }
  else
    { ret := 0, need_scan := need_scan, trans := trans, index := mail_index_commit index trans }

/-- `repo_sync`: the outcome of one synchronisation of the index with the head of
the repository. -/
def repo_sync (env : sync_env) (mbox : bank_mailbox) (index : mail_index) : sync_result :=
  if env.sync_begin_ret ≤ 0 then
    { ret := env.sync_begin_ret, need_scan := false, trans := empty_transaction, index := index }
  else
    match repo_get_head mbox with
    | none => { ret := -1, need_scan := false, trans := empty_transaction, index := index }
    | some head_commitid =>
      let trans1 : mail_index_transaction :=
        if index.uid_validity = 0 then
          { uid_validity := some (env.ioloop_time % 2 ^ 32).toNat, expunges := [], appends := [],
            hdr_ext := none }
        else empty_transaction
      let need_scan : Bool :=
        if index.uid_validity = 0 then true
        else
          (index.hdr_ext_size != sizeof_bank_mail_index_header) ||
            (index.hdr_ext.sync_commitid != head_commitid)
      if need_scan then
        let r := repo_scan env.scan mbox head_commitid trans1 index index.next_uid
        sync_commit env index true
          { uid_validity := r.2.uid_validity, expunges := r.2.expunges,
            appends := r.2.appends, hdr_ext := some { sync_commitid := head_commitid } }
      else sync_commit env index false trans1

/-! ## The head directory and the sort keys, as the specification names them -/

/-- The listing `repo_scan` reads: the direct entries of the directory `dirpath` in
the tree of the commit `head_commitid`; `none` when one of the reads fails (no such
commit, no entry at `dirpath`, or an entry that is not a tree). -/
def head_directory (mbox : bank_mailbox) (head_commitid : git_oid) :
    Option (List git_tree_entry) :=
  match mbox.repo.commits.find? (fun c => c.id == head_commitid) with
  | none => none
  | some head_commit =>
    match git_tree_entry_bypath head_commit.tree mbox.dirpath with
    | none => none
    | some entry =>
      if entry.type ≠ git_otype.GIT_OBJ_TREE then none
      else some (git_tree_lookup_entries head_commit.tree mbox.dirpath)

/-- Content ids of the direct file (blob) entries of a listing, in listing order. -/
def directory_blob_ids (entries : List git_tree_entry) : List git_oid :=
  (entries.filter (fun e => e.type = git_otype.GIT_OBJ_BLOB)).map (fun e => e.id)

/-- Sort key of a content id: the timestamp extracted from the payload, or the
zero left by `p_new` when the blob cannot be loaded or has no date. -/
def sort_key (env : scan_env) (repo : git_repository) (id : git_oid) : Int :=
  ((git_blob_lookup repo id).bind env.payload_date).getD 0

/-- Content ids of the messages of an index, in sequence order. -/
def message_ids (messages : List index_message) : List git_oid :=
  messages.map (fun m => m.ext.blobid)

/-- Sequence numbers (counted from `mseq`) of the messages whose content id is not
among `keys`. -/
def stale_sequences (messages : List index_message) (mseq : Nat) (keys : List git_oid) :
    List Nat :=
  ((messages.enumFrom mseq).filter (fun p => decide (p.2.ext.blobid ∉ keys))).map Prod.fst

/-- A list of content ids with one more id taken in: nothing changes when the id is
already there. -/
def insert_id (seen : List git_oid) (id : git_oid) : List git_oid :=
  if id ∈ seen then seen else seen ++ [id]

/-- The set of content ids of a list: every id once, at the place of its first
occurrence. -/
def distinct_ids (ids : List git_oid) : List git_oid := ids.foldl insert_id []

/-- The set of content ids present as direct file entries of a listing. -/
def directory_contents (entries : List git_tree_entry) : List git_oid :=
  distinct_ids (directory_blob_ids entries)

/-- Content ids of the listing that no message of the index carries: the newly
appeared content, each id once. -/
def new_content_ids (entries : List git_tree_entry) (messages : List index_message) :
    List git_oid :=
  (directory_contents entries).filter (fun id => decide (id ∉ message_ids messages))

/-- The list `repo_scan` appends from, for the given new content ids: the nodes in
iteration order with their timestamps filled in, then sorted. -/
def scan_sorted (env : scan_env) (mbox : bank_mailbox) (ids : List git_oid) :
    List blob_and_time :=
  env.qsort ((env.iterate (ids.map (fun id => ({ blobid := id, timestamp := 0 } : blob_and_time)))).map
    (scan_timestamp env mbox.repo))

/-- The messages appended for a sorted list: uids counted up from `next_uid`. -/
def appended_messages (next_uid : Nat) (sorted : List blob_and_time) : List index_message :=
  List.zipWith (fun u e => ({ uid := u, ext := { blobid := e.blobid } } : index_message))
    (List.range' next_uid sorted.length) sorted

/-! ## Sample mailboxes -/

/-- A scan environment for the examples: the date of a payload is its first byte,
the table is iterated in reverse insertion order, and `qsort` is an insertion
sort. -/
def sample_scan_env : scan_env :=
  { payload_date := fun payload => payload.head?.map (fun x => (x : Int)),
    iterate := fun files => files.reverse,
    qsort := fun l => l.insertionSort (fun a b => a.timestamp ≤ b.timestamp) }

/-- A synchronisation environment in which the index calls succeed. -/
def sample_sync_env : sync_env :=
  { scan := sample_scan_env, sync_begin_ret := 1, sync_commit_ret := 0,
    ioloop_time := 1700000000 }

/-- Head tree with directory `ledger`: files `a.json` (content 22), `b.json`
(content 11), `c.json` (content 33, which has no blob in the object database), and
a sub-directory `sub` with one file. -/
def directory_tree : git_tree :=
  [⟨"", "ledger", 600, git_otype.GIT_OBJ_TREE⟩,
   ⟨"ledger/", "a.json", 22, git_otype.GIT_OBJ_BLOB⟩,
   ⟨"ledger/", "b.json", 11, git_otype.GIT_OBJ_BLOB⟩,
   ⟨"ledger/", "c.json", 33, git_otype.GIT_OBJ_BLOB⟩,
   ⟨"ledger/", "sub", 601, git_otype.GIT_OBJ_TREE⟩,
   ⟨"ledger/sub/", "d.json", 44, git_otype.GIT_OBJ_BLOB⟩]

/-- Mailbox on a one-commit repository (head id 9) holding `directory_tree`. -/
def directory_mbox : bank_mailbox :=
  { repo := { commits := [⟨9, 9000, directory_tree⟩], odb := [(11, [49]), (22, [50])] },
    dirpath := "ledger" }

/-- An index that was never synchronised. -/
def fresh_index : mail_index :=
  { uid_validity := 0, next_uid := 1, messages := [], hdr_ext_size := 0,
    hdr_ext := { sync_commitid := 0 } }

/-- An index with one message for content 11, synchronised at commit 8. -/
def one_message_index : mail_index :=
  { uid_validity := 5, next_uid := 2, messages := [{ uid := 1, ext := { blobid := 11 } }],
    hdr_ext_size := 20, hdr_ext := { sync_commitid := 8 } }

/-- Mailbox whose head commit (`C7` of the ledger history) has no directory
`ledger` any more. -/
def stale_mbox : bank_mailbox := { repo := ledger_repo, dirpath := "ledger" }

/-- An index synchronised at commit `C6` with two messages. -/
def stale_index : mail_index :=
  { uid_validity := 5, next_uid := 3,
    messages := [{ uid := 1, ext := { blobid := 11 } }, { uid := 2, ext := { blobid := 22 } }],
    hdr_ext_size := 20, hdr_ext := { sync_commitid := 6 } }

/-- Mailbox whose directory holds two files with the same content 22. -/
def duplicate_mbox : bank_mailbox :=
  { repo :=
      { commits := [⟨9, 9000,
          [⟨"", "ledger", 600, git_otype.GIT_OBJ_TREE⟩,
           ⟨"ledger/", "a.json", 22, git_otype.GIT_OBJ_BLOB⟩,
           ⟨"ledger/", "b.json", 22, git_otype.GIT_OBJ_BLOB⟩]⟩],
        odb := [(22, [50])] },
    dirpath := "ledger" }

/-- The direct entries of `ledger` in `directory_tree`. -/
def directory_entries : List git_tree_entry :=
  [⟨"ledger/", "a.json", 22, git_otype.GIT_OBJ_BLOB⟩,
   ⟨"ledger/", "b.json", 11, git_otype.GIT_OBJ_BLOB⟩,
   ⟨"ledger/", "c.json", 33, git_otype.GIT_OBJ_BLOB⟩,
   ⟨"ledger/", "sub", 601, git_otype.GIT_OBJ_TREE⟩]

/-! ## Sample inputs: one content under two names, and a content that comes back -/

/-- A mailbox whose head directory `ledger` holds `x.json` and `y.json`, two files
of one content (id 55), beside `z.json` of content 66. -/
def twin_mbox : bank_mailbox :=
  { repo :=
      { commits := [⟨4, 4000,
          [⟨"", "ledger", 700, git_otype.GIT_OBJ_TREE⟩,
           ⟨"ledger/", "x.json", 55, git_otype.GIT_OBJ_BLOB⟩,
           ⟨"ledger/", "y.json", 55, git_otype.GIT_OBJ_BLOB⟩,
           ⟨"ledger/", "z.json", 66, git_otype.GIT_OBJ_BLOB⟩]⟩],
        odb := [(55, [49]), (66, [50])] },
    dirpath := "ledger" }

/-- History (newest first) in which `a.json` holds content 11 at head, content 22
one commit earlier, and content 11 again in the oldest commit. -/
def reintroduced_repo : git_repository :=
  { commits := [file_commit 3 (some 11), file_commit 2 (some 22), file_commit 1 (some 11)],
    odb := [(11, [49]), (22, [50])] }

/-! ## Sample inputs at the limits of the 32-bit counters -/

/-- An index with one message for content 11 whose next uid is the largest
`uint32_t`. -/
def last_uid_index : mail_index :=
  { uid_validity := 5, next_uid := 4294967295,
    messages := [{ uid := 1, ext := { blobid := 11 } }],
    hdr_ext_size := 20, hdr_ext := { sync_commitid := 8 } }

/-- A synchronisation environment whose clock reads `2 ^ 32` seconds, a value whose
low 32 bits are zero. -/
def wrapped_clock_env : sync_env :=
  { scan := sample_scan_env, sync_begin_ret := 1, sync_commit_ret := 0,
    ioloop_time := 4294967296 }

/-- An index with three messages: content 11, which is a file of `directory_tree`,
content 99, which is nowhere in it, and 601, the id of its sub-directory `sub`. -/
def mixed_index : mail_index :=
  { uid_validity := 5, next_uid := 4,
    messages := [{ uid := 1, ext := { blobid := 11 } }, { uid := 2, ext := { blobid := 99 } },
      { uid := 3, ext := { blobid := 601 } }],
    hdr_ext_size := 20, hdr_ext := { sync_commitid := 8 } }

/-! # Theorems -/

/-! ## The walk loop and the coalescing fold -/

theorem revwalk_loop_eq_callback_loop {σ : Type}
    (cb : git_commit → Option git_oid → σ → Int × σ) (path : String)
    (commits : List git_commit) (data : σ) :
    revwalk_loop cb path commits data = callback_loop cb (walk_states path commits) data := by
  induction commits generalizing data with
  | nil => rfl
  | cons c rest ih =>
    simp only [revwalk_loop, walk_states, List.map_cons, callback_loop]
    split
    · rfl
    · exact ih _

theorem runs_cons_shape (x : Revision) (rest : List Revision) :
    ∃ r rs, runs (x :: rest) = (x :: r) :: rs := by
  simp only [runs]
  split
  · exact ⟨[], [], rfl⟩
  · exact ⟨[], _, rfl⟩
  · split
    · exact ⟨_, _, rfl⟩
    · exact ⟨[], _, rfl⟩

theorem run_length_compress_cons_cons (x y : Revision) (rest : List Revision) :
    run_length_compress (x :: y :: rest) =
      if x.2 = y.2 then run_length_compress (y :: rest)
      else x :: run_length_compress (y :: rest) := by
  obtain ⟨r, rs, h⟩ := runs_cons_shape y rest
  have hx : runs (x :: y :: rest) =
      if x.2 = y.2 then (x :: y :: r) :: rs else [x] :: (y :: r) :: rs := by
    rw [runs, h]
  unfold run_length_compress
  rw [hx, h]
  split <;> simp [List.filterMap_cons, List.getLast?_cons_cons]

theorem run_length_compress_singleton (x : Revision) : run_length_compress [x] = [x] := by
  simp [run_length_compress, runs]

theorem run_length_compress_head (y : Revision) (rest : List Revision) :
    ∃ c tl, run_length_compress (y :: rest) = (c, y.2) :: tl := by
  induction rest generalizing y with
  | nil => exact ⟨y.1, [], by rw [run_length_compress_singleton]⟩
  | cons z rest ih =>
    rw [run_length_compress_cons_cons]
    split
    · rename_i h
      obtain ⟨c, tl, hc⟩ := ih z
      exact ⟨c, tl, by rw [hc, h]⟩
    · exact ⟨y.1, _, rfl⟩

theorem run_length_compress_chain (seq : List Revision) :
    List.Chain' (fun a b : Revision => a.2 ≠ b.2) (run_length_compress seq) := by
  induction seq with
  | nil => simp [run_length_compress, runs]
  | cons x rest ih =>
    cases rest with
    | nil => simp [run_length_compress_singleton]
    | cons y rest =>
      rw [run_length_compress_cons_cons]
      split
      · exact ih
      · rename_i h
        obtain ⟨c, tl, hc⟩ := run_length_compress_head y rest
        rw [hc] at ih ⊢
        exact List.Chain'.cons h ih

theorem body_version_fst (c : git_commit) (s : Option git_oid) (ctx : body_versions_context) :
    (body_version c s ctx).1 = 0 := by
  unfold body_version
  split <;> split <;> try split
  all_goals rfl

theorem body_version_step (pre : List commit_and_blob) (n : Nat) (x y : Revision) :
    (body_version y.1 y.2 { count := n, entries := pre ++ [revision_entry x] }).2 =
      if x.2 = y.2 then { count := n, entries := pre ++ [revision_entry y] }
      else { count := n + 1, entries := (pre ++ [revision_entry x]) ++ [revision_entry y] } := by
  obtain ⟨cx, sx⟩ := x
  obtain ⟨cy, sy⟩ := y
  cases sx <;> cases sy <;>
    simp [body_version, body_versions_context.latest, body_versions_context.link,
      body_versions_context.set_commit, revision_entry, List.getLast?_append,
      List.dropLast_concat]
  rename_i a b
  by_cases h : a = b
  · simp [h, List.dropLast_concat]
  · simp [h]

theorem callback_loop_body_version (seq : List Revision) :
    ∀ (pre : List commit_and_blob) (x : Revision),
      callback_loop body_version seq
          { count := pre.length + 1, entries := pre ++ [revision_entry x] } =
        { count := pre.length + (run_length_compress (x :: seq)).length,
          entries := pre ++ (run_length_compress (x :: seq)).map revision_entry } := by
  induction seq with
  | nil =>
    intro pre x
    simp [callback_loop, run_length_compress_singleton]
  | cons y rest ih =>
    intro pre x
    have h0 : ¬ (body_version y.1 y.2
        { count := pre.length + 1, entries := pre ++ [revision_entry x] }).1 < 0 := by
      rw [body_version_fst]; decide
    simp only [callback_loop, h0, if_false]
    rw [body_version_step, run_length_compress_cons_cons]
    by_cases h : x.2 = y.2
    · simp only [h, if_true]
      exact ih pre y
    · simp only [h, if_false]
      have := ih (pre ++ [revision_entry x]) y
      simp only [List.length_append, List.length_singleton] at this
      rw [this]
      simp [List.length_cons, Nat.add_assoc, Nat.add_comm 1]

theorem body_versions_eq (seq : List Revision) :
    body_versions seq =
      { count := (run_length_compress seq).length,
        entries := (run_length_compress seq).map revision_entry } := by
  cases seq with
  | nil => simp [body_versions, callback_loop, run_length_compress, runs]
  | cons x rest =>
    have h1 : (body_version x.1 x.2 { count := 0, entries := [] }).2 =
        { count := 0 + 1, entries := [] ++ [revision_entry x] } := by
      obtain ⟨cx, sx⟩ := x
      cases sx <;>
        simp [body_version, body_versions_context.latest, body_versions_context.link,
          revision_entry]
    have h0 : ¬ (body_version x.1 x.2 { count := 0, entries := [] }).1 < 0 := by
      rw [body_version_fst]; decide
    unfold body_versions
    simp only [callback_loop, h0, if_false]
    rw [h1]
    have := callback_loop_body_version rest [] x
    simpa using this

theorem commit_seq_body_of_ctx_eq (l : List Revision) :
    commit_seq_body_of_ctx { count := l.length, entries := l.map revision_entry } =
      { revisions := (strip_absent_oldest l).map revision_entry,
        part_headers := none, diffs := none } := by
  rcases List.eq_nil_or_concat l with h | ⟨L, b, h⟩
  · subst h
    simp [commit_seq_body_of_ctx, body_versions_context.latest, strip_absent_oldest]
  · subst h
    obtain ⟨c, st⟩ := b
    cases st <;>
      simp [commit_seq_body_of_ctx, body_versions_context.latest, strip_absent_oldest,
        revision_entry, List.getLast?_append, List.dropLast_concat, List.take_append_eq_append_take]

theorem revisions_of_sequence (seq : List Revision) :
    (commit_seq_body_of_ctx (body_versions seq)).revisions =
      (strip_absent_oldest (run_length_compress seq)).map revision_entry := by
  rw [body_versions_eq, commit_seq_body_of_ctx_eq]

theorem commit_seq_body_new_eq (repo : git_repository) (blobid : git_oid) :
    commit_seq_body_new repo blobid =
      match repo.commits with
      | [] => none
      | head_commit :: _ =>
        match find_blob head_commit.tree blobid with
        | none => none
        | some path =>
          some { revisions := (strip_absent_oldest
                    (run_length_compress (walk_states path repo.commits))).map revision_entry,
                 part_headers := none, diffs := none } := by
  unfold commit_seq_body_new find_versions
  cases hc : repo.commits with
  | nil => simp
  | cons h rest =>
    simp only []
    cases hp : find_blob h.tree blobid with
    | none => simp
    | some path =>
      simp only []
      rw [revwalk_loop_eq_callback_loop]
      have := body_versions_eq (walk_states path (h :: rest))
      unfold body_versions at this
      rw [this, commit_seq_body_of_ctx_eq]
      simp

theorem strip_absent_oldest_chain {R : Revision → Revision → Prop} (l : List Revision)
    (h : List.Chain' R l) : List.Chain' R (strip_absent_oldest l) := by
  unfold strip_absent_oldest
  split
  · exact h.prefix (List.dropLast_prefix l)
  · exact h

theorem strip_absent_oldest_last (l : List Revision)
    (h : List.Chain' (fun a b : Revision => a.2 ≠ b.2) l) (r : Revision)
    (hr : (strip_absent_oldest l).getLast? = some r) : r.2.isSome = true := by
  rcases List.eq_nil_or_concat l with h0 | ⟨L, b, h0⟩
  · subst h0
    simp [strip_absent_oldest] at hr
  · subst h0
    obtain ⟨c, st⟩ := b
    cases st with
    | some id =>
      simp [strip_absent_oldest, List.getLast?_append] at hr
      subst hr
      rfl
    | none =>
      simp [strip_absent_oldest, List.getLast?_append, List.dropLast_concat] at hr
      rw [List.concat_eq_append, List.chain'_append] at h
      have h3 := h.2.2 r (by simp [hr]) (c, none) (by simp)
      cases hs : r.2 with
      | none => exact absurd hs h3
      | some _ => rfl

theorem revision_entry_not_same_state (a b : Revision) (h : a.2 ≠ b.2) :
    ¬ same_state (revision_entry a) (revision_entry b) := by
  obtain ⟨ca, sa⟩ := a
  obtain ⟨cb, sb⟩ := b
  cases sa <;> cases sb <;> simp_all [same_state, revision_entry]

theorem revisions_chain (l : List Revision)
    (h : List.Chain' (fun a b : Revision => a.2 ≠ b.2) l) :
    List.Chain' (fun a b => ¬ same_state a b) (l.map revision_entry) := by
  rw [List.chain'_map]
  exact h.imp (fun {a b} hab => revision_entry_not_same_state a b hab)

theorem revisions_last_exists (l : List Revision)
    (h : List.Chain' (fun a b : Revision => a.2 ≠ b.2) l) (e : commit_and_blob)
    (he : ((strip_absent_oldest l).map revision_entry).getLast? = some e) :
    e.exists_ = true := by
  rw [List.getLast?_map] at he
  cases hl : (strip_absent_oldest l).getLast? with
  | none => rw [hl] at he; simp at he
  | some r =>
    rw [hl] at he
    simp at he
    subst he
    exact strip_absent_oldest_last l h r hl

theorem runs_partition (seq : List Revision) :
    (runs seq).flatten = seq ∧
    (∀ r ∈ runs seq, r ≠ [] ∧ ∀ a ∈ r, ∀ b ∈ r, a.2 = b.2) ∧
    List.Chain' (fun r1 r2 : List Revision => ∀ a ∈ r1, ∀ b ∈ r2, a.2 ≠ b.2) (runs seq) := by
  induction seq with
  | nil => simp [runs]
  | cons x rest ih =>
    obtain ⟨hj, hu, hc⟩ := ih
    cases hr : runs rest with
    | nil =>
      rw [hr] at hj
      simp at hj
      subst hj
      refine ⟨by simp [runs], ?_, by simp [runs]⟩
      intro r1 hr1
      simp [runs] at hr1
      subst hr1
      refine ⟨by simp, ?_⟩
      intro a ha b hb
      simp at ha hb
      rw [ha, hb]
    | cons r0 rs =>
      rw [hr] at hj hu hc
      cases r0 with
      | nil => exact absurd rfl (hu [] (by simp)).1
      | cons y r =>
        have hy := (hu (y :: r) (by simp)).2
        by_cases hxy : x.2 = y.2
        · simp only [runs, hr, hxy, if_true]
          refine ⟨by simpa using hj, ?_, ?_⟩
          · intro r1 hr1
            rcases List.mem_cons.1 hr1 with h | h
            · subst h
              refine ⟨by simp, ?_⟩
              have hall : ∀ a ∈ x :: y :: r, a.2 = y.2 := by
                intro a ha
                rcases List.mem_cons.1 ha with h | h
                · rw [h, hxy]
                · exact hy a h y (by simp)
              intro a ha b hb
              rw [hall a ha, hall b hb]
            · exact hu r1 (List.mem_cons_of_mem _ h)
          · cases rs with
            | nil => simp
            | cons r2 rs =>
              rw [List.chain'_cons] at hc ⊢
              refine ⟨?_, hc.2⟩
              intro a ha b hb
              rcases List.mem_cons.1 ha with h | h
              · rw [h, hxy]; exact hc.1 y (by simp) b hb
              · exact hc.1 a h b hb
        · simp only [runs, hr, hxy, if_false]
          refine ⟨by simpa using hj, ?_, ?_⟩
          · intro r1 hr1
            rcases List.mem_cons.1 hr1 with h | h
            · subst h
              simp
            · exact hu r1 h
          · rw [List.chain'_cons]
            refine ⟨?_, hc⟩
            intro a ha b hb
            simp at ha
            subst ha
            rw [hy b hb y (by simp)]
            exact hxy

/-! ## Claims about the revision list -/

/-- C1: for every newest-first sequence of (commit, state) pairs given to
`body_version`, the revisions built by `commit_seq_body_new` are the run-length
compression of the sequence (one entry per maximal run of equal states, holding
the state and the last, oldest, commit of the run) with the final entry dropped
when it is absent; `runs` really splits the sequence into maximal runs. -/
theorem C1_revisions_are_run_length_compression :
    (∀ seq : List Revision,
      (commit_seq_body_of_ctx (body_versions seq)).revisions =
        (strip_absent_oldest (run_length_compress seq)).map revision_entry) ∧
    (∀ (repo : git_repository) (blobid : git_oid),
      (commit_seq_body_new repo blobid).map commit_seq_body.revisions =
        match repo.commits with
        | [] => none
        | head_commit :: _ =>
          (find_blob head_commit.tree blobid).map (fun path =>
            (strip_absent_oldest
              (run_length_compress (walk_states path repo.commits))).map revision_entry)) ∧
    (∀ seq : List Revision,
      (runs seq).flatten = seq ∧
      (∀ r ∈ runs seq, r ≠ [] ∧ ∀ a ∈ r, ∀ b ∈ r, a.2 = b.2) ∧
      List.Chain' (fun r1 r2 : List Revision => ∀ a ∈ r1, ∀ b ∈ r2, a.2 ≠ b.2) (runs seq)) := by
  refine ⟨revisions_of_sequence, ?_, runs_partition⟩
  intro repo blobid
  rw [commit_seq_body_new_eq]
  cases repo.commits with
  | nil => rfl
  | cons h rest =>
    simp only []
    cases find_blob h.tree blobid <;> rfl

/-- C1 at the sample walk: the five delivered pairs collapse to three revisions. -/
theorem C1_witness :
    (commit_seq_body_of_ctx (body_versions sample_walk)).revisions =
      (strip_absent_oldest (run_length_compress sample_walk)).map revision_entry :=
  C1_revisions_are_run_length_compression.1 sample_walk

/-- C2: for every walk sequence, no two adjacent revisions of the list built by
`commit_seq_body_new` record the same state (both absent, or both present with
the same content id). -/
theorem C2_adjacent_revisions_differ :
    (∀ seq : List Revision,
      List.Chain' (fun a b => ¬ same_state a b)
        (commit_seq_body_of_ctx (body_versions seq)).revisions) ∧
    (∀ (repo : git_repository) (blobid : git_oid),
      match commit_seq_body_new repo blobid with
      | none => True
      | some b => List.Chain' (fun a b => ¬ same_state a b) b.revisions) := by
  have key : ∀ seq : List Revision, List.Chain' (fun a b => ¬ same_state a b)
      ((strip_absent_oldest (run_length_compress seq)).map revision_entry) := fun seq =>
    revisions_chain _ (strip_absent_oldest_chain _ (run_length_compress_chain seq))
  refine ⟨fun seq => ?_, fun repo blobid => ?_⟩
  · rw [revisions_of_sequence]
    exact key seq
  · rw [commit_seq_body_new_eq]
    cases repo.commits with
    | nil => trivial
    | cons h rest =>
      simp only []
      cases find_blob h.tree blobid with
      | none => trivial
      | some path => exact key _

/-- C2 at the sample walk. -/
theorem C2_witness :
    List.Chain' (fun a b => ¬ same_state a b)
      (commit_seq_body_of_ctx (body_versions sample_walk)).revisions :=
  C2_adjacent_revisions_differ.1 sample_walk

/-- C4: for every walk sequence, the last (oldest) entry of the list built by
`commit_seq_body_new`, when there is one, exists (its state is not absent). -/
theorem C4_oldest_revision_exists :
    (∀ (seq : List Revision) (e : commit_and_blob),
      (commit_seq_body_of_ctx (body_versions seq)).revisions.getLast? = some e →
        e.exists_ = true) ∧
    (∀ (repo : git_repository) (blobid : git_oid) (b : commit_seq_body) (e : commit_and_blob),
      commit_seq_body_new repo blobid = some b → b.revisions.getLast? = some e →
        e.exists_ = true) := by
  refine ⟨fun seq e he => ?_, fun repo blobid b e hb he => ?_⟩
  · rw [revisions_of_sequence] at he
    exact revisions_last_exists _ (run_length_compress_chain seq) e he
  · rw [commit_seq_body_new_eq] at hb
    cases hc : repo.commits with
    | nil => rw [hc] at hb; simp at hb
    | cons h rest =>
      rw [hc] at hb
      simp only [] at hb
      cases hp : find_blob h.tree blobid with
      | none => rw [hp] at hb; simp at hb
      | some path =>
        rw [hp] at hb
        simp only [Option.some.injEq] at hb
        subst hb
        exact revisions_last_exists _ (run_length_compress_chain _) e he

/-- C4 at the sample walk: the oldest kept revision is the one of content 22 at
commit 101. -/
theorem C4_witness :
    (commit_seq_body_of_ctx (body_versions sample_walk)).revisions.getLast? =
        some ⟨⟨101, 100, []⟩, 22, true, none⟩ ∧
      (⟨⟨101, 100, []⟩, 22, true, none⟩ : commit_and_blob).exists_ = true :=
  ⟨by decide, C4_oldest_revision_exists.1 sample_walk ⟨⟨101, 100, []⟩, 22, true, none⟩ (by decide)⟩

/-! ## The walk started from a content id present at head -/

theorem find_blob_of_mem (tree : git_tree) (blobid : git_oid)
    (h : ∃ e ∈ tree, e.id = blobid) :
    ∃ e ∈ tree, e.id = blobid ∧ find_blob tree blobid = some e.path := by
  induction tree with
  | nil => simp at h
  | cons e rest ih =>
    by_cases he : e.id = blobid
    · exact ⟨e, by simp, he, by simp [find_blob, he]⟩
    · have h2 : ∃ e ∈ rest, e.id = blobid := by
        obtain ⟨e2, hm, hid⟩ := h
        rcases List.mem_cons.1 hm with h3 | h3
        · subst h3; exact absurd hid he
        · exact ⟨e2, h3, hid⟩
      obtain ⟨e2, hm, hid, hf⟩ := ih h2
      exact ⟨e2, List.mem_cons_of_mem _ hm, hid, by simp [find_blob, he, hf]⟩

theorem git_tree_entry_bypath_of_mem (tree : git_tree) (e : git_tree_entry) (he : e ∈ tree)
    (hnd : (tree.map git_tree_entry.path).Nodup) :
    git_tree_entry_bypath tree e.path = some e := by
  unfold git_tree_entry_bypath
  cases hf : tree.find? (fun x => x.path == e.path) with
  | none =>
    rw [List.find?_eq_none] at hf
    have := hf e he
    simp at this
  | some e2 =>
    have hm := List.mem_of_find?_eq_some hf
    have hp := List.find?_some hf
    simp only [beq_iff_eq] at hp
    rw [List.inj_on_of_nodup_map hnd hm he hp]

theorem strip_absent_oldest_cons_some (c : git_commit) (id : git_oid) (tl : List Revision) :
    ∃ tl2, strip_absent_oldest ((c, some id) :: tl) = (c, some id) :: tl2 := by
  unfold strip_absent_oldest
  split
  · rename_i h
    cases tl with
    | nil => simp at h
    | cons y tl => exact ⟨(y :: tl).dropLast, by simp [List.dropLast]⟩
  · exact ⟨tl, rfl⟩

/-- C3: when the target content id is the id of some entry of the head snapshot
(a well-formed tree, no two entries with the same path), `commit_seq_body_new`
succeeds with a non-empty revision list whose first entry exists and carries
exactly the target content id. -/
theorem C3_walk_starts_at_target (repo : git_repository) (blobid : git_oid)
    (head_commit : git_commit) (rest : List git_commit)
    (hc : repo.commits = head_commit :: rest)
    (hwf : (head_commit.tree.map git_tree_entry.path).Nodup)
    (hin : ∃ e ∈ head_commit.tree, e.id = blobid) :
    ∃ b first tl, commit_seq_body_new repo blobid = some b ∧ b.revisions = first :: tl ∧
      first.exists_ = true ∧ first.blobid = blobid := by
  obtain ⟨e, hm, hid, hf⟩ := find_blob_of_mem _ _ hin
  have hb := git_tree_entry_bypath_of_mem _ e hm hwf
  rw [commit_seq_body_new_eq, hc]
  simp only [hf]
  obtain ⟨c, tl, hr⟩ := run_length_compress_head
    (head_commit, (git_tree_entry_bypath head_commit.tree e.path).map (fun x => x.id))
    (walk_states e.path rest)
  have hw : walk_states e.path (head_commit :: rest) =
      (head_commit, (git_tree_entry_bypath head_commit.tree e.path).map (fun x => x.id)) ::
        walk_states e.path rest := rfl
  rw [hw, hr, hb]
  simp only [Option.map_some', hid]
  obtain ⟨tl2, hs⟩ := strip_absent_oldest_cons_some c blobid tl
  rw [hs]
  exact ⟨_, _, _, rfl, rfl, rfl, rfl⟩

/-- C3 at the ledger history with head `C6`, for content `B2` (id 22). -/
theorem C3_witness :
    ∃ b first tl, commit_seq_body_new ledger_repo_C6 22 = some b ∧ b.revisions = first :: tl ∧
      first.exists_ = true ∧ first.blobid = 22 :=
  C3_walk_starts_at_target ledger_repo_C6 22 (ledger_commit 6)
    ([5, 4, 3, 2, 1].map ledger_commit) rfl (by decide)
    ⟨⟨"ledger/", "a.json", 22, git_otype.GIT_OBJ_BLOB⟩, by decide, rfl⟩

/-! ## The ledger scenario -/

/-- C5, as stated, fails: from head `C7`, where `ledger/a.json` is deleted, no
target content id makes `commit_seq_body_new` return the list
`[(C7, absent), (C3, B2), (C1, B1)]`. -/
theorem C5_counterexample :
    ¬ ∃ blobid b, commit_seq_body_new ledger_repo blobid = some b ∧
        b.revisions = ledger_revisions.map revision_entry := by
  rintro ⟨blobid, b, h, -⟩
  have hn : commit_seq_body_new ledger_repo blobid = none := by
    simp [commit_seq_body_new, find_versions, ledger_repo, ledger_commit, find_blob]
  rw [hn] at h
  exact Option.noConfusion h

/-- C5 amended: the coalescing fold applied to the seven (commit, state) pairs of
`ledger/a.json` (newest first) gives exactly `[(C7, absent), (C3, B2), (C1, B1)]`;
`commit_seq_body_new` from head `C7` returns nothing for `B1` and for `B2`, and
from head `C6` with target `B2` it returns `[(C3, B2), (C1, B1)]`. -/
theorem C5_ledger_scenario :
    (commit_seq_body_of_ctx
        (body_versions (walk_states "ledger/a.json" ledger_repo.commits))).revisions =
      ledger_revisions.map revision_entry ∧
    commit_seq_body_new ledger_repo 11 = none ∧
    commit_seq_body_new ledger_repo 22 = none ∧
    (commit_seq_body_new ledger_repo_C6 22).map commit_seq_body.revisions =
      some ([(ledger_commit 3, some 22), (ledger_commit 1, some 11)].map revision_entry) := by
  refine ⟨by decide, by decide, by decide, by decide⟩

/-! ## First-occurrence query (`get_commit`) -/

theorem callback_loop_get_commit_helper (seq : List Revision) (bmail : bank_mail) :
    callback_loop get_commit_helper seq bmail =
      { bmail with
        commit := ((seq.takeWhile present).getLast?.map Prod.fst).or bmail.commit } := by
  induction seq generalizing bmail with
  | nil => cases bmail; rfl
  | cons x rest ih =>
    obtain ⟨c, st⟩ := x
    cases st with
    | none =>
      cases bmail
      simp [callback_loop, get_commit_helper, present]
    | some id =>
      have hp : present (c, some id) = true := rfl
      simp only [callback_loop, get_commit_helper]
      rw [if_neg (by decide), ih, List.takeWhile_cons_of_pos hp, List.getLast?_cons]
      cases (List.takeWhile present rest).getLast? <;> simp

theorem strip_absent_oldest_cons (x : Revision) (l : List Revision) (h : l ≠ []) :
    strip_absent_oldest (x :: l) = x :: strip_absent_oldest l := by
  cases l with
  | nil => exact absurd rfl h
  | cons y tl =>
    unfold strip_absent_oldest
    rw [List.getLast?_cons_cons]
    split <;> rename_i h1
    · simp [h1]
    · rfl

theorem revisions_last_eq_last_present (seq : List Revision) :
    (strip_absent_oldest (run_length_compress seq)).getLast? =
      (seq.filter present).getLast? := by
  induction seq with
  | nil => simp [run_length_compress, runs, strip_absent_oldest]
  | cons x rest ih =>
    cases rest with
    | nil =>
      obtain ⟨c, st⟩ := x
      cases st <;> simp [run_length_compress_singleton, strip_absent_oldest, present]
    | cons y rest =>
      obtain ⟨c2, tl, hL⟩ := run_length_compress_head y rest
      have hne : run_length_compress (y :: rest) ≠ [] := by rw [hL]; simp
      rw [run_length_compress_cons_cons]
      by_cases hxy : x.2 = y.2
      · simp only [hxy, if_true]
        rw [ih]
        by_cases hx : present x = true
        · have hy : present y = true := by
            simpa [present, hxy] using hx
          simp [List.filter_cons, hx, hy, List.getLast?_cons_cons]
        · simp [List.filter_cons, hx]
      · simp only [hxy, if_false]
        rw [strip_absent_oldest_cons x _ hne, List.getLast?_cons, ih]
        by_cases hx : present x = true
        · rw [List.filter_cons_of_pos hx, List.getLast?_cons]
        · have hy : present y = true := by
            obtain ⟨cx, sx⟩ := x
            obtain ⟨cy, sy⟩ := y
            cases sx <;> cases sy <;> simp_all [present]
          rw [List.filter_cons_of_neg hx]
          simp [List.filter_cons, hy, List.getLast?_cons]

theorem takeWhile_present_eq_filter (seq : List Revision) (h : absent_stays_absent seq) :
    seq.takeWhile present = seq.filter present := by
  have h1 : (seq.takeWhile present).filter present = seq.takeWhile present :=
    List.filter_eq_self.2 (fun a ha => List.mem_takeWhile_imp ha)
  have h2 : (seq.dropWhile present).filter present = [] := by
    rw [List.filter_eq_nil_iff]
    intro a ha
    simp [present, h a ha]
  conv_rhs => rw [← List.takeWhile_append_dropWhile present seq]
  rw [List.filter_append, h1, h2, List.append_nil]

theorem walk_states_takeWhile_present (path : String) (commits : List git_commit) :
    ((walk_states path commits).takeWhile present).getLast?.map Prod.fst =
      (commits.takeWhile (path_present path)).getLast? := by
  have hf : (present ∘ fun c : git_commit =>
      (c, (git_tree_entry_bypath c.tree path).map (fun e => e.id))) = path_present path := by
    funext c
    simp [present, path_present]
  unfold walk_states
  rw [List.takeWhile_map, hf, List.getLast?_map, Option.map_map]
  cases (List.takeWhile (path_present path) commits).getLast? <;> rfl

theorem get_commit_eq (repo : git_repository) (bmail : bank_mail) (head_commit : git_commit)
    (rest : List git_commit) (path : String) (hc : repo.commits = head_commit :: rest)
    (hp : find_blob head_commit.tree bmail.rec_.blobid = some path)
    (h0 : bmail.commit = none) :
    get_commit bmail repo =
      (if ((repo.commits.takeWhile (path_present path)).getLast?).isNone then -1 else 0,
        { bmail with commit := (repo.commits.takeWhile (path_present path)).getLast? }) := by
  unfold get_commit find_versions
  rw [hc]
  simp only [h0, hp, Option.isSome_none, Bool.false_eq_true, if_false]
  rw [revwalk_loop_eq_callback_loop, callback_loop_get_commit_helper, h0, Option.or_none,
    walk_states_takeWhile_present]
  rw [if_neg (by decide)]
  cases ((head_commit :: rest).takeWhile (path_present path)).getLast? <;> simp

/-- C6, as stated, fails: in `gap_repo` the file exists at head, is missing one
commit earlier and exists again before that; `get_commit` returns the head commit
(number 3) while the last entry of the revision list carries commit number 1. -/
theorem C6_counterexample :
    (get_commit ⟨⟨11⟩, none⟩ gap_repo).2.commit = some (file_commit 3 (some 11)) ∧
    (commit_seq_body_new gap_repo 11).map
        (fun b => b.revisions.getLast?.map commit_and_blob.commit) =
      some (some (file_commit 1 (some 11))) ∧
    ¬ ((get_commit ⟨⟨11⟩, none⟩ gap_repo).2.commit =
        ((commit_seq_body_new gap_repo 11).bind
          (fun b => b.revisions.getLast?)).map commit_and_blob.commit) := by
  refine ⟨by decide, by decide, by decide⟩

/-- C6 amended: for every walk sequence in which the path, once absent, stays
absent in all older commits, and on which the revision list is non-empty,
`get_commit` (starting without a cached commit) succeeds and returns the commit
of the last (oldest) entry of the revision list. -/
theorem C6_first_occurrence_is_oldest_revision :
    (∀ (seq : List Revision) (bmail : bank_mail) (e : commit_and_blob),
      bmail.commit = none → absent_stays_absent seq →
      (commit_seq_body_of_ctx (body_versions seq)).revisions.getLast? = some e →
      (callback_loop get_commit_helper seq bmail).commit = some e.commit) ∧
    (∀ (repo : git_repository) (bmail : bank_mail) (head_commit : git_commit)
      (rest : List git_commit) (path : String) (b : commit_seq_body) (e : commit_and_blob),
      repo.commits = head_commit :: rest →
      find_blob head_commit.tree bmail.rec_.blobid = some path →
      bmail.commit = none →
      absent_stays_absent (walk_states path repo.commits) →
      commit_seq_body_new repo bmail.rec_.blobid = some b →
      b.revisions.getLast? = some e →
      get_commit bmail repo = (0, { bmail with commit := some e.commit })) := by
  have key : ∀ (seq : List Revision) (e : commit_and_blob), absent_stays_absent seq →
      ((strip_absent_oldest (run_length_compress seq)).map revision_entry).getLast? = some e →
      ((seq.takeWhile present).getLast?.map Prod.fst) = some e.commit := by
    intro seq e hm he
    rw [List.getLast?_map, revisions_last_eq_last_present,
      ← takeWhile_present_eq_filter seq hm] at he
    cases hl : (seq.takeWhile present).getLast? with
    | none => rw [hl] at he; simp at he
    | some r =>
      rw [hl] at he
      simp only [Option.map_some', Option.some.injEq] at he
      subst he
      rfl
  refine ⟨?_, ?_⟩
  · intro seq bmail e h0 hm he
    rw [revisions_of_sequence] at he
    rw [callback_loop_get_commit_helper]
    simp only [key seq e hm he, Option.or_some]
  · intro repo bmail head_commit rest path b e hc hp h0 hm hb he
    rw [commit_seq_body_new_eq, hc] at hb
    simp only [hp, Option.some.injEq] at hb
    subst hb
    rw [← hc] at he
    have hk := key _ e hm he
    rw [walk_states_takeWhile_present] at hk
    rw [get_commit_eq repo bmail head_commit rest path hc hp h0, hk]
    simp

/-- C6 amended, at the ledger history with head `C6` and target `B2`: the oldest
revision is `(C1, B1)` and `get_commit` returns `C1`. -/
theorem C6_witness :
    get_commit ⟨⟨22⟩, none⟩ ledger_repo_C6 = (0, ⟨⟨22⟩, some (ledger_commit 1)⟩) :=
  C6_first_occurrence_is_oldest_revision.2 ledger_repo_C6 ⟨⟨22⟩, none⟩ (ledger_commit 6)
    ([5, 4, 3, 2, 1].map ledger_commit) "ledger/a.json"
    ⟨[(ledger_commit 3, some 22), (ledger_commit 1, some 11)].map revision_entry, none, none⟩
    (revision_entry (ledger_commit 1, some 11))
    rfl (by decide) rfl (by unfold absent_stays_absent; decide) (by decide) (by decide)

theorem get_commit_fails_of_no_path (repo : git_repository) (bmail : bank_mail)
    (h0 : bmail.commit = none)
    (h : repo.commits = [] ∨ ∃ head_commit rest, repo.commits = head_commit :: rest ∧
      find_blob head_commit.tree bmail.rec_.blobid = none) :
    (get_commit bmail repo).1 = -1 := by
  unfold get_commit find_versions
  rcases h with h | ⟨hd, rest, hc, hp⟩
  · simp [h0, h]
  · simp [h0, hc, hp]

/-- C7, as stated, fails.  In `changed_repo` the target content 11 is at head only
and the two older commits hold content 22 at the same path: `get_commit`
succeeds and returns commit number 1, where the path holds 22.  In `gap_repo`
it returns commit number 3 although the older commit number 1 holds the target. -/
theorem C7_counterexample :
    get_commit ⟨⟨11⟩, none⟩ changed_repo = (0, ⟨⟨11⟩, some (file_commit 1 (some 22))⟩) ∧
    (git_tree_entry_bypath (file_commit 1 (some 22)).tree "a.json").map (fun e => e.id) =
      some 22 ∧
    get_commit ⟨⟨11⟩, none⟩ gap_repo = (0, ⟨⟨11⟩, some (file_commit 3 (some 11))⟩) ∧
    (git_tree_entry_bypath (file_commit 1 (some 11)).tree "a.json").map (fun e => e.id) =
      some 11 := by
  refine ⟨by decide, by decide, by decide, by decide⟩

/-- C7 amended: whenever `get_commit` (starting without a cached commit) succeeds,
the commit it returns is a commit of the walk at which the recorded path exists
(with whatever content id), the path also exists at every newer commit of the
walk, and the next older commit of the walk, if there is one, does not have the
path. -/
theorem C7_first_occurrence_ends_leading_run (repo : git_repository) (bmail bmail2 : bank_mail)
    (h0 : bmail.commit = none) (hg : get_commit bmail repo = (0, bmail2)) :
    ∃ head_commit rest path c newer older,
      repo.commits = head_commit :: rest ∧
      find_blob head_commit.tree bmail.rec_.blobid = some path ∧
      bmail2 = { bmail with commit := some c } ∧
      repo.commits = newer ++ c :: older ∧
      path_present path c = true ∧
      (∀ y ∈ newer, path_present path y = true) ∧
      (∀ z, older.head? = some z → path_present path z = false) := by
  cases hc : repo.commits with
  | nil =>
    have := get_commit_fails_of_no_path repo bmail h0 (Or.inl hc)
    rw [hg] at this
    simp at this
  | cons head_commit rest =>
    cases hp : find_blob head_commit.tree bmail.rec_.blobid with
    | none =>
      have := get_commit_fails_of_no_path repo bmail h0 (Or.inr ⟨_, _, hc, hp⟩)
      rw [hg] at this
      simp at this
    | some path =>
      rw [get_commit_eq repo bmail head_commit rest path hc hp h0] at hg
      cases hl : (repo.commits.takeWhile (path_present path)).getLast? with
      | none =>
        rw [hl] at hg
        simp at hg
      | some c =>
        rw [hl] at hg
        simp only [Option.isNone_some, Bool.false_eq_true, if_false, Prod.mk.injEq,
          true_and] at hg
        obtain ⟨newer, hn⟩ := List.getLast?_eq_some_iff.1 hl
        have hmem : ∀ y ∈ repo.commits.takeWhile (path_present path),
            path_present path y = true := fun y hy => List.mem_takeWhile_imp hy
        have hsplit := List.takeWhile_append_dropWhile (path_present path) repo.commits
        refine ⟨head_commit, rest, path, c, newer,
          repo.commits.dropWhile (path_present path), rfl, hp, hg.symm, ?_, ?_, ?_, ?_⟩
        · conv_lhs => rw [← hc, ← hsplit, hn]
          simp
        · exact hmem c (by rw [hn]; simp)
        · intro y hy
          exact hmem y (by rw [hn]; simp [hy])
        · intro z hz
          have := List.head?_dropWhile_not (path_present path) repo.commits
          rw [hz] at this
          exact this

/-- C7 amended, at `changed_repo`: the returned commit number 1 is the oldest of
the leading commits that have `a.json`. -/
theorem C7_witness :
    ∃ head_commit rest path c newer older,
      changed_repo.commits = head_commit :: rest ∧
      find_blob head_commit.tree 11 = some path ∧
      (⟨⟨11⟩, some (file_commit 1 (some 22))⟩ : bank_mail) = { commit := some c, rec_ := ⟨11⟩ } ∧
      changed_repo.commits = newer ++ c :: older ∧
      path_present path c = true ∧
      (∀ y ∈ newer, path_present path y = true) ∧
      (∀ z, older.head? = some z → path_present path z = false) :=
  C7_first_occurrence_ends_leading_run changed_repo ⟨⟨11⟩, none⟩
    ⟨⟨11⟩, some (file_commit 1 (some 22))⟩ rfl (by decide)

/-! ## Size of the document and length of its stream -/

theorem part_header_size_eq : part_header_size = 77 := by decide

theorem body_size_loop_eq (l : List commit_and_blob) (i sum : Nat) :
    body_size_loop l i sum =
      sum + (parts_sum l - (if i = 0 ∧ l ≠ [] then 1 else 0)) := by
  induction l generalizing i sum with
  | nil => simp [body_size_loop, parts_sum]
  | cons r rest ih =>
    rw [body_size_loop, ih]
    have h77 := part_header_size_eq
    simp only [parts_sum, List.map_cons, List.sum_cons]
    by_cases hi : i = 0
    · simp [hi]
      omega
    · simp [hi]
      omega

theorem foldl_add_eq_sum (l : List Nat) (f : Nat → Nat) (sum : Nat) :
    l.foldl (fun acc i => acc + f i) sum = sum + (l.map f).sum := by
  induction l generalizing sum with
  | nil => simp
  | cons a rest ih => simp [ih, Nat.add_assoc]

theorem diff_sum_zero (b : commit_seq_body) :
    diff_sum b 0 b.n_revisions =
      ((List.range (b.n_revisions - 1)).map (fun i => (b.diff_at i).length)).sum := by
  unfold diff_sum
  rw [← List.range_eq_range']
  cases hn : b.n_revisions with
  | zero => simp
  | succ m =>
    rw [List.range_succ, List.map_append, List.sum_append]
    have h1 : (List.range m).map (fun i : Nat =>
        if (i : Int) < ((m + 1 : Nat) : Int) - 1 then (b.diff_at i).length else 0) =
        (List.range m).map (fun i => (b.diff_at i).length) := by
      apply List.map_congr_left
      intro i hi
      have : i < m := List.mem_range.1 hi
      rw [if_pos (by omega)]
    rw [h1]
    simp

theorem diff_sum_succ (b : commit_seq_body) (part len : Nat) :
    diff_sum b part (len + 1) =
      (if (part : Int) < (b.n_revisions : Int) - 1 then (b.diff_at part).length else 0) +
        diff_sum b (part + 1) len := by
  simp [diff_sum, List.range'_succ]

theorem i_stream_create_from_data_length (data : Bytes) (offset size : Nat)
    (h : offset + size ≤ data.length) :
    (i_stream_create_from_data data offset size).length = size := by
  simp [i_stream_create_from_data]
  omega

theorem payload_stream_length (r : commit_and_blob) :
    (if r.exists_ then i_stream_create_from_data (r.blob.getD []) 0 (r.blob.getD []).length
      else i_stream_create_from_data deleted_marker 0 (sizeof_deleted_marker - 1)).length =
      payload_size r := by
  unfold payload_size
  split
  · exact i_stream_create_from_data_length _ _ _ (by simp)
  · exact i_stream_create_from_data_length _ _ _ (by decide)

theorem body_stream_loop_length (b : commit_seq_body)
    (hh : ∀ i, i < b.n_revisions → part_header_size ≤ (b.part_header_at i).length) :
    ∀ (rest : List commit_and_blob) (part offset : Nat) (parts : List Bytes),
      part + rest.length = b.n_revisions → offset ≤ 1 →
      (body_stream_loop b rest part offset parts).flatten.length =
        parts.flatten.length + (parts_sum rest - (if rest ≠ [] then offset else 0)) +
          diff_sum b part rest.length := by
  intro rest
  induction rest with
  | nil =>
    intro part offset parts _ _
    simp [body_stream_loop, parts_sum, diff_sum]
  | cons r rest ih =>
    intro part offset parts hlen hoff
    have hlen2 : part + 1 + rest.length = b.n_revisions := by
      simp only [List.length_cons] at hlen
      omega
    have hp : part < b.n_revisions := by omega
    have h77 := part_header_size_eq
    have hhdr : (i_stream_create_from_data (b.part_header_at part) offset
        (part_header_size - offset)).length = part_header_size - offset :=
      i_stream_create_from_data_length _ _ _ (by have := hh part hp; omega)
    rw [body_stream_loop, ih (part + 1) 0 _ hlen2 (by omega), List.length_cons, diff_sum_succ]
    simp only [parts_sum, List.map_cons, List.sum_cons]
    by_cases hd : (part : Int) < (b.n_revisions : Int) - 1
    · simp only [hd, if_true, List.flatten_append, List.length_append, List.flatten_cons,
        List.flatten_nil, List.append_nil, hhdr, payload_stream_length]
      rw [i_stream_create_from_data_length _ _ _ (by simp)]
      split <;> simp <;> omega
    · simp only [hd, if_false, List.flatten_append, List.length_append, List.flatten_cons,
        List.flatten_nil, List.append_nil, hhdr, payload_stream_length]
      split <;> simp <;> omega

theorem fetch_blobs_loop_ret (repo : git_repository) (l : List commit_and_blob) :
    (fetch_blobs_loop repo l).1 = 0 ∨ (fetch_blobs_loop repo l).1 = -1 := by
  induction l with
  | nil => exact Or.inl rfl
  | cons r rest ih =>
    unfold fetch_blobs_loop
    split
    · exact ih
    · split
      · exact ih
      · split
        · exact Or.inr rfl
        · exact ih

theorem fetch_blobs_loop_length (repo : git_repository) (l : List commit_and_blob) :
    (fetch_blobs_loop repo l).2.length = l.length := by
  induction l with
  | nil => rfl
  | cons r rest ih =>
    unfold fetch_blobs_loop
    split
    · simp [ih]
    · split
      · simp [ih]
      · split
        · rfl
        · simp [ih]

theorem fetch_blobs_revisions_ne_nil (b : commit_seq_body) (repo : git_repository)
    (h : b.revisions ≠ []) : (fetch_blobs b repo).2.revisions ≠ [] := by
  intro hnil
  have hl : (fetch_blobs_loop repo b.revisions).2.length = 0 := by
    have : (fetch_blobs_loop repo b.revisions).2 = [] := hnil
    rw [this]; rfl
  rw [fetch_blobs_loop_length] at hl
  exact h (List.length_eq_zero.1 hl)

theorem fetch_blobs_loop_fetched (repo : git_repository) (l : List commit_and_blob)
    (h : (fetch_blobs_loop repo l).1 = 0) : fetched (fetch_blobs_loop repo l).2 := by
  induction l with
  | nil => intro r hr; simp [fetch_blobs_loop] at hr
  | cons r rest ih =>
    cases he : r.exists_ with
    | false =>
      have e1 : fetch_blobs_loop repo (r :: rest) =
          ((fetch_blobs_loop repo rest).1, r :: (fetch_blobs_loop repo rest).2) := by
        simp [fetch_blobs_loop, he]
      rw [e1] at h ⊢
      intro x hx
      rcases List.mem_cons.1 hx with h2 | h2
      · subst h2; intro hex; rw [he] at hex; exact absurd hex (by decide)
      · exact ih h x h2
    | true =>
      cases hb : r.blob with
      | some blob =>
        have e1 : fetch_blobs_loop repo (r :: rest) =
            ((fetch_blobs_loop repo rest).1, r :: (fetch_blobs_loop repo rest).2) := by
          simp [fetch_blobs_loop, he, hb]
        rw [e1] at h ⊢
        intro x hx
        rcases List.mem_cons.1 hx with h2 | h2
        · subst h2; intro _; rw [hb]; rfl
        · exact ih h x h2
      | none =>
        cases hl : git_blob_lookup repo r.blobid with
        | none =>
          have e1 : fetch_blobs_loop repo (r :: rest) = (-1, r :: rest) := by
            simp [fetch_blobs_loop, he, hb, hl]
          rw [e1] at h
          simp at h
        | some blob =>
          have e1 : fetch_blobs_loop repo (r :: rest) =
              ((fetch_blobs_loop repo rest).1,
                { r with blob := some blob } :: (fetch_blobs_loop repo rest).2) := by
            simp [fetch_blobs_loop, he, hb, hl]
          rw [e1] at h ⊢
          intro x hx
          rcases List.mem_cons.1 hx with h2 | h2
          · subst h2; intro _; rfl
          · exact ih h x h2

theorem fetch_blobs_loop_noop (repo : git_repository) (l : List commit_and_blob)
    (h : fetched l) : fetch_blobs_loop repo l = (0, l) := by
  induction l with
  | nil => rfl
  | cons r rest ih =>
    have hrest : fetched rest := fun x hx => h x (List.mem_cons_of_mem _ hx)
    unfold fetch_blobs_loop
    rw [ih hrest]
    cases he : r.exists_ with
    | false => simp
    | true =>
      have := h r (by simp) he
      cases hb : r.blob with
      | none => rw [hb] at this; simp at this
      | some blob => simp

theorem fetch_blobs_loop_total (repo : git_repository) (l : List commit_and_blob)
    (h : ∀ r ∈ l, r.exists_ = true → r.blob = none →
      (git_blob_lookup repo r.blobid).isSome = true) :
    (fetch_blobs_loop repo l).1 = 0 := by
  induction l with
  | nil => rfl
  | cons r rest ih =>
    have hrest := ih (fun x hx => h x (List.mem_cons_of_mem _ hx))
    unfold fetch_blobs_loop
    cases he : r.exists_ with
    | false => simpa using hrest
    | true =>
      cases hb : r.blob with
      | some blob => simpa using hrest
      | none =>
        have := h r (by simp) he hb
        cases hl : git_blob_lookup repo r.blobid with
        | none => rw [hl] at this; simp at this
        | some blob => simpa using hrest

theorem generate_diffs_revisions (differ : Option Bytes → Option Bytes → List diff_event)
    (b : commit_seq_body) : (generate_diffs differ b).revisions = b.revisions := by
  unfold generate_diffs
  split
  · rfl
  · split <;> rfl

theorem generate_diffs_part_headers (differ : Option Bytes → Option Bytes → List diff_event)
    (b : commit_seq_body) : (generate_diffs differ b).part_headers = b.part_headers := by
  unfold generate_diffs
  split
  · rfl
  · split <;> rfl

theorem generate_diffs_idem (differ : Option Bytes → Option Bytes → List diff_event)
    (b : commit_seq_body) :
    generate_diffs differ (generate_diffs differ b) = generate_diffs differ b := by
  by_cases h1 : b.diffs.isSome = true
  · simp [generate_diffs, h1]
  · by_cases h2 : b.n_revisions < 2
    · simp [generate_diffs, h1, h2]
    · have : generate_diffs differ b = { b with diffs := some ((List.range (b.n_revisions - 1)).map
          (fun i => git_diff_blobs differ (b.blob_at (i + 1)) (b.blob_at i) [])) } := by
        simp [generate_diffs, h1, h2]
      rw [this]
      simp [generate_diffs]

theorem generate_diffs_set_part_headers (differ : Option Bytes → Option Bytes → List diff_event)
    (b : commit_seq_body) (hs : Option (List Bytes)) :
    generate_diffs differ { b with part_headers := hs } =
      { generate_diffs differ b with part_headers := hs } := by
  unfold generate_diffs
  simp only [commit_seq_body.n_revisions, commit_seq_body.blob_at]
  split
  · rfl
  · split <;> rfl

theorem body_size_eq (differ : Option Bytes → Option Bytes → List diff_event)
    (b : commit_seq_body) (repo : git_repository) (h : (fetch_blobs b repo).1 = 0) :
    body_size differ b repo =
      ((document_size (generate_diffs differ (fetch_blobs b repo).2) : Int),
        generate_diffs differ (fetch_blobs b repo).2) := by
  unfold body_size
  simp only [h, lt_self_iff_false, if_false]
  rw [foldl_add_eq_sum]
  simp [document_size, generate_diffs_revisions]

theorem fetch_blobs_noop (b : commit_seq_body) (repo : git_repository)
    (h : fetched b.revisions) : fetch_blobs b repo = (0, b) := by
  unfold fetch_blobs
  rw [fetch_blobs_loop_noop repo _ h]

theorem commit_seq_body_of_walk_eq (seq : List Revision) :
    commit_seq_body_of_ctx (body_versions seq) =
      new_document ((strip_absent_oldest (run_length_compress seq)).map revision_entry) := by
  rw [body_versions_eq, commit_seq_body_of_ctx_eq]
  rfl

theorem revisions_empty_iff (seq : List Revision) :
    (commit_seq_body_of_ctx (body_versions seq)).revisions = [] ↔ ∀ x ∈ seq, x.2 = none := by
  rw [commit_seq_body_of_walk_eq]
  simp only [new_document, List.map_eq_nil_iff]
  rw [← List.getLast?_eq_none_iff, revisions_last_eq_last_present, List.getLast?_eq_none_iff,
    List.filter_eq_nil_iff]
  constructor
  · intro h x hx
    have := h x hx
    cases hs : x.2 with
    | none => rfl
    | some _ => exact absurd (by simp [present, hs]) this
  · intro h x hx
    simp [present, h x hx]

theorem find_blob_some (tree : git_tree) (blobid : git_oid) (path : String)
    (h : find_blob tree blobid = some path) : ∃ e ∈ tree, e.path = path ∧ e.id = blobid := by
  induction tree with
  | nil => simp [find_blob] at h
  | cons e rest ih =>
    by_cases he : e.id = blobid
    · simp only [find_blob, he, if_true, Option.some.injEq] at h
      exact ⟨e, by simp, h, he⟩
    · simp only [find_blob, he, if_false] at h
      obtain ⟨x, hx, hp, hid⟩ := ih h
      exact ⟨x, List.mem_cons_of_mem _ hx, hp, hid⟩

theorem commit_seq_body_new_ne_nil (repo : git_repository) (blobid : git_oid)
    (b : commit_seq_body) (hb : commit_seq_body_new repo blobid = some b) :
    b.revisions ≠ [] := by
  rw [commit_seq_body_new_eq] at hb
  cases hc : repo.commits with
  | nil => rw [hc] at hb; simp at hb
  | cons hd rest =>
    rw [hc] at hb
    simp only at hb
    cases hp : find_blob hd.tree blobid with
    | none => rw [hp] at hb; simp at hb
    | some path =>
      rw [hp] at hb
      simp only [Option.some.injEq] at hb
      subst hb
      obtain ⟨e, he, hpath, -⟩ := find_blob_some _ _ _ hp
      have hsome : (git_tree_entry_bypath hd.tree path).isSome = true := by
        unfold git_tree_entry_bypath
        rw [List.find?_isSome]
        exact ⟨e, he, by simp [hpath]⟩
      have hrev := commit_seq_body_of_walk_eq (walk_states path (hd :: rest))
      intro hnil
      have hall := (revisions_empty_iff (walk_states path (hd :: rest))).1
        (by rw [hrev]; exact hnil)
      have h1 := hall (hd, (git_tree_entry_bypath hd.tree path).map (fun e => e.id))
        (by simp [walk_states])
      simp only [Option.map_eq_none'] at h1
      rw [h1] at hsome
      simp at hsome

theorem generate_body_eq (differ : Option Bytes → Option Bytes → List diff_event)
    (b : commit_seq_body) (repo : git_repository) (hp : b.part_headers = none)
    (h : (fetch_blobs b repo).1 = 0) :
    generate_body differ b repo =
      match part_headers_loop (fetch_blobs b repo).2.revisions with
      | none => none
      | some buffers =>
        some (0, { generate_diffs differ (fetch_blobs b repo).2 with
                   part_headers := some buffers }) := by
  unfold generate_body
  simp only [hp, Option.isSome_none, Bool.false_eq_true, if_false, h, lt_self_iff_false]
  cases part_headers_loop (fetch_blobs b repo).2.revisions with
  | none => rfl
  | some buffers =>
    simp only
    rw [generate_diffs_set_part_headers]

theorem part_header_buffer_length (c : git_commit) (buffer : Bytes)
    (h : part_header_buffer c = some buffer) : buffer.length = part_header_size + 1 := by
  unfold part_header_buffer at h
  cases hr : render_part_header c with
  | none => rw [hr] at h; simp at h
  | some text =>
    rw [hr] at h
    simp only [Option.some.injEq] at h
    rw [← h]
    have h77 := part_header_size_eq
    simp only [List.length_take, List.length_append, List.length_replicate, h77]
    omega

theorem part_headers_loop_get (revs : List commit_and_blob) :
    ∀ (buffers : List Bytes), part_headers_loop revs = some buffers →
      buffers.length = revs.length ∧
      ∀ (i : Nat) (r : commit_and_blob), revs.get? i = some r →
        ∃ buffer, buffers.get? i = some buffer ∧
          part_header_buffer r.commit = some buffer := by
  induction revs with
  | nil =>
    intro buffers h
    simp only [part_headers_loop, Option.some.injEq] at h
    subst h
    simp
  | cons x rest ih =>
    intro buffers h
    cases hx : part_header_buffer x.commit with
    | none => simp [part_headers_loop, hx] at h
    | some buffer =>
      cases hrest : part_headers_loop rest with
      | none => simp [part_headers_loop, hx, hrest] at h
      | some tail =>
        simp only [part_headers_loop, hx, hrest, Option.some_bind, Option.map_some',
          Option.some.injEq] at h
        subst h
        obtain ⟨hlen, hget⟩ := ih tail hrest
        refine ⟨by simp [hlen], ?_⟩
        intro i r hr
        cases i with
        | zero =>
          simp only [List.get?_cons_zero, Option.some.injEq] at hr
          subst hr
          exact ⟨buffer, rfl, hx⟩
        | succ j =>
          simp only [List.get?_cons_succ] at hr
          obtain ⟨bf, h1, h2⟩ := hget j r hr
          exact ⟨bf, by simpa using h1, h2⟩

theorem part_headers_loop_of_commits (l : List commit_and_blob) :
    ∀ l2 : List commit_and_blob, l.map (fun r => r.commit) = l2.map (fun r => r.commit) →
      part_headers_loop l = part_headers_loop l2 := by
  induction l with
  | nil =>
    intro l2 h
    cases l2 with
    | nil => rfl
    | cons y t => simp at h
  | cons x rest ih =>
    intro l2 h
    cases l2 with
    | nil => simp at h
    | cons y t =>
      simp only [List.map_cons, List.cons.injEq] at h
      simp only [part_headers_loop, h.1, ih t h.2]

theorem fetch_blobs_loop_commits (repo : git_repository) (l : List commit_and_blob) :
    (fetch_blobs_loop repo l).2.map (fun r => r.commit) = l.map (fun r => r.commit) := by
  induction l with
  | nil => rfl
  | cons r rest ih =>
    unfold fetch_blobs_loop
    split
    · simp [ih]
    · split
      · simp [ih]
      · split
        · rfl
        · simp [ih]

theorem part_headers_loop_total (l : List commit_and_blob)
    (h : ∀ r ∈ l, (gmtime_r r.commit.time).isSome = true) :
    ∃ buffers, part_headers_loop l = some buffers := by
  induction l with
  | nil => exact ⟨[], rfl⟩
  | cons r rest ih =>
    obtain ⟨tail, ht⟩ := ih (fun x hx => h x (List.mem_cons_of_mem _ hx))
    obtain ⟨t, hg⟩ := Option.isSome_iff_exists.1 (h r (by simp))
    simp only [part_headers_loop, part_header_buffer, render_part_header, hg, ht,
      Option.some_bind, Option.map_some']
    exact ⟨_, rfl⟩

theorem headers_ok_at (b : commit_seq_body) (h : headers_ok b) (i : Nat) (r : commit_and_blob)
    (hr : b.revisions.get? i = some r) :
    part_header_buffer r.commit = some (b.part_header_at i) := by
  obtain ⟨h1, h2⟩ := h
  obtain ⟨buffers, hb⟩ := Option.isSome_iff_exists.1 h1
  rw [hb] at h2
  obtain ⟨-, hget⟩ := part_headers_loop_get b.revisions buffers h2.symm
  obtain ⟨buffer, hbuf, hpb⟩ := hget i r hr
  rw [hpb]
  unfold commit_seq_body.part_header_at
  rw [hb]
  simp only [Option.getD_some, Option.some.injEq]
  rw [List.getD_eq_getElem?_getD, ← List.get?_eq_getElem?, hbuf]
  rfl

theorem part_header_at_length (b : commit_seq_body) (h : headers_ok b) (i : Nat)
    (hi : i < b.n_revisions) : part_header_size ≤ (b.part_header_at i).length := by
  have hlt : i < b.revisions.length := hi
  have hr : b.revisions.get? i = some (b.revisions.get ⟨i, hlt⟩) := List.get?_eq_get hlt
  have := part_header_buffer_length _ _ (headers_ok_at b h i _ hr)
  omega

theorem body_stream_none_length (b : commit_seq_body) (h : headers_ok b) :
    (body_stream_bytes b none).length = document_size b := by
  unfold body_stream_bytes body_stream
  rw [body_stream_loop_length b (part_header_at_length b h) b.revisions 0 1 []
    (by simp [commit_seq_body.n_revisions]) (Nat.le_refl 1)]
  have := diff_sum_zero b
  unfold commit_seq_body.n_revisions at this
  rw [this]
  unfold document_size
  rw [body_size_loop_eq]
  simp [commit_seq_body.n_revisions]

theorem body_stream_some_length (b : commit_seq_body) (h : headers_ok b)
    (hne : b.revisions ≠ []) (hdr : Bytes) :
    (body_stream_bytes b (some hdr)).length = hdr.length + 1 + document_size b := by
  unfold body_stream_bytes body_stream
  rw [body_stream_loop_length b (part_header_at_length b h) b.revisions 0 0 [hdr]
    (by simp [commit_seq_body.n_revisions]) (Nat.zero_le 1)]
  have := diff_sum_zero b
  unfold commit_seq_body.n_revisions at this
  rw [this]
  unfold document_size
  rw [body_size_loop_eq]
  have hpos : 1 ≤ parts_sum b.revisions := by
    cases hb : b.revisions with
    | nil => exact absurd hb hne
    | cons r rest =>
      have h77 := part_header_size_eq
      simp only [parts_sum, List.map_cons, List.sum_cons]
      omega
  simp [commit_seq_body.n_revisions, hne]
  omega

theorem body_size_of_new (differ : Option Bytes → Option Bytes → List diff_event)
    (b : commit_seq_body) (repo : git_repository) (s : Int) (b1 : commit_seq_body)
    (hp : b.part_headers = none) (hs : body_size differ b repo = (s, b1)) (h0 : 0 ≤ s) :
    (fetch_blobs b repo).1 = 0 ∧ s = (document_size b1 : Int) ∧
      b1 = generate_diffs differ (fetch_blobs b repo).2 ∧ fetched b1.revisions ∧
      b1.part_headers = none := by
  have hf : (fetch_blobs b repo).1 = 0 := by
    rcases fetch_blobs_loop_ret repo b.revisions with h | h
    · exact h
    · have h1 : (fetch_blobs b repo).1 = -1 := h
      unfold body_size at hs
      simp only [h1] at hs
      rw [if_pos (by decide)] at hs
      have : s = -1 := (congrArg Prod.fst hs).symm
      omega
  rw [body_size_eq differ b repo hf] at hs
  have h1 := congrArg Prod.fst hs
  have h2 := congrArg Prod.snd hs
  simp only at h1 h2
  refine ⟨hf, ?_, h2.symm, ?_, ?_⟩
  · rw [← h1, h2]
  · rw [← h2, generate_diffs_revisions]
    exact fetch_blobs_loop_fetched repo b.revisions hf
  · rw [← h2, generate_diffs_part_headers]
    exact hp

theorem generate_body_after_size (differ : Option Bytes → Option Bytes → List diff_event)
    (b : commit_seq_body) (repo : git_repository) (b1 : commit_seq_body)
    (hb : b1 = generate_diffs differ b) (hf : fetched b1.revisions)
    (hp : b1.part_headers = none) :
    generate_body differ b1 repo =
      match part_headers_loop b1.revisions with
      | none => none
      | some buffers => some (0, { b1 with part_headers := some buffers }) := by
  have h0 : fetch_blobs b1 repo = (0, b1) := fetch_blobs_noop b1 repo hf
  rw [generate_body_eq differ b1 repo hp (by rw [h0]), h0]
  simp only
  have hi : generate_diffs differ b1 = b1 := by
    rw [hb, generate_diffs_idem]
  rw [hi]

theorem generate_body_of_new (differ : Option Bytes → Option Bytes → List diff_event)
    (b : commit_seq_body) (repo : git_repository) (b1 : commit_seq_body)
    (hp : b.part_headers = none) (hg : generate_body differ b repo = some (0, b1)) :
    (fetch_blobs b repo).1 = 0 ∧ b1.revisions = (fetch_blobs b repo).2.revisions ∧
      headers_ok b1 ∧ body_size differ b1 repo = ((document_size b1 : Int), b1) := by
  have hf : (fetch_blobs b repo).1 = 0 := by
    rcases fetch_blobs_loop_ret repo b.revisions with h | h
    · exact h
    · have h1 : (fetch_blobs b repo).1 = -1 := h
      unfold generate_body at hg
      simp only [hp, Option.isSome_none, Bool.false_eq_true, if_false, h1] at hg
      rw [if_pos (by decide)] at hg
      have := congrArg (Option.map Prod.fst) hg
      simp at this
  rw [generate_body_eq differ b repo hp hf] at hg
  cases hl : part_headers_loop (fetch_blobs b repo).2.revisions with
  | none => rw [hl] at hg; simp at hg
  | some buffers =>
    rw [hl] at hg
    simp only [Option.some.injEq, Prod.mk.injEq, true_and] at hg
    have hrev : b1.revisions = (fetch_blobs b repo).2.revisions := by
      rw [← hg]
      exact generate_diffs_revisions differ _
    have hok : headers_ok b1 := by
      unfold headers_ok
      rw [hrev, hl, ← hg]
      exact ⟨rfl, rfl⟩
    have hfe : fetched b1.revisions := by
      rw [hrev]
      exact fetch_blobs_loop_fetched repo b.revisions hf
    have hgd : generate_diffs differ b1 = b1 := by
      rw [← hg, generate_diffs_set_part_headers, generate_diffs_idem]
    have h0 : fetch_blobs b1 repo = (0, b1) := fetch_blobs_noop b1 repo hfe
    refine ⟨hf, hrev, hok, ?_⟩
    rw [body_size_eq differ b1 repo (by rw [h0]), h0]
    simp only
    rw [hgd]

theorem size_equals_stream_length
    (differ : Option Bytes → Option Bytes → List diff_event) (repo : git_repository)
    (revs : List commit_and_blob) (hne : revs ≠ []) :
    (∀ (s : Int) (b1 : commit_seq_body),
      body_size differ (new_document revs) repo = (s, b1) → 0 ≤ s →
      ∀ b2, generate_body differ b1 repo = some (0, b2) →
        ((body_stream_bytes b2 none).length : Int) = s ∧
        ∀ h : Bytes,
          ((body_stream_bytes b2 (some h)).length : Int) = (h.length : Int) + 1 + s ∧
          bank_mail_get_physical_size differ (new_document revs) repo h =
            some ((h.length : Int) + 1 + s)) ∧
    (∀ b1 : commit_seq_body, generate_body differ (new_document revs) repo = some (0, b1) →
      (body_size differ b1 repo).1 = ((body_stream_bytes b1 none).length : Int) ∧
      ∀ h : Bytes,
        bank_mail_get_physical_size differ b1 repo h =
          some ((body_stream_bytes b1 (some h)).length : Int)) ∧
    ((∀ r ∈ revs, r.exists_ = true → r.blob = none →
        (git_blob_lookup repo r.blobid).isSome = true) →
      (∀ r ∈ revs, (gmtime_r r.commit.time).isSome = true) →
      0 ≤ (body_size differ (new_document revs) repo).1 ∧
      (∃ b1, generate_body differ (new_document revs) repo = some (0, b1)) ∧
      ∃ b2, generate_body differ (body_size differ (new_document revs) repo).2 repo =
        some (0, b2)) := by
  refine ⟨?_, ?_, ?_⟩
  · intro s b1 hs h0 b2 hg2
    obtain ⟨hf, hsz, hb1, hfe, hp⟩ :=
      body_size_of_new differ (new_document revs) repo s b1 rfl hs h0
    rw [generate_body_after_size differ _ repo b1 hb1 hfe hp] at hg2
    cases hl : part_headers_loop b1.revisions with
    | none => rw [hl] at hg2; simp at hg2
    | some buffers =>
      rw [hl] at hg2
      simp only [Option.some.injEq, Prod.mk.injEq, true_and] at hg2
      have hok : headers_ok b2 := by
        unfold headers_ok
        rw [← hg2]
        exact ⟨rfl, hl.symm⟩
      have hds : document_size b2 = document_size b1 := by
        rw [← hg2]
        rfl
      have hrev : b2.revisions ≠ [] := by
        rw [← hg2]
        show b1.revisions ≠ []
        rw [hb1, generate_diffs_revisions]
        exact fetch_blobs_revisions_ne_nil (new_document revs) repo hne
      refine ⟨?_, ?_⟩
      · rw [body_stream_none_length b2 hok, hds, hsz]
      · intro h
        refine ⟨?_, ?_⟩
        · rw [body_stream_some_length b2 hok hrev h, hds, hsz]
          push_cast
          ring
        · unfold bank_mail_get_physical_size
          rw [hs]
          simp only
          rw [if_neg (by omega)]
  · intro b1 hg
    obtain ⟨hf, hrev1, hok, hbs⟩ :=
      generate_body_of_new differ (new_document revs) repo b1 rfl hg
    refine ⟨?_, ?_⟩
    · rw [hbs, body_stream_none_length b1 hok]
    · intro h
      have hrev : b1.revisions ≠ [] := by
        rw [hrev1]
        exact fetch_blobs_revisions_ne_nil (new_document revs) repo hne
      unfold bank_mail_get_physical_size
      rw [hbs, body_stream_some_length b1 hok hrev h]
      simp only
      rw [if_neg (by omega)]
      push_cast
      ring_nf
  · intro hall htime
    have hf : (fetch_blobs (new_document revs) repo).1 = 0 :=
      fetch_blobs_loop_total repo revs hall
    have hcommits : part_headers_loop (fetch_blobs (new_document revs) repo).2.revisions =
        part_headers_loop revs :=
      part_headers_loop_of_commits _ _ (fetch_blobs_loop_commits repo revs)
    obtain ⟨buffers, hbuf⟩ := part_headers_loop_total revs htime
    have hbs := body_size_eq differ (new_document revs) repo hf
    refine ⟨?_, ?_, ?_⟩
    · rw [hbs]
      exact Int.natCast_nonneg _
    · rw [generate_body_eq differ _ repo rfl hf, hcommits, hbuf]
      exact ⟨_, rfl⟩
    · obtain ⟨-, -, hb1, hfe, hp⟩ := body_size_of_new differ (new_document revs) repo _ _ rfl
        (Prod.mk.eta).symm (by rw [hbs]; exact Int.natCast_nonneg _)
      rw [generate_body_after_size differ _ repo _ hb1 hfe hp]
      have hr : (body_size differ (new_document revs) repo).2.revisions =
          (fetch_blobs (new_document revs) repo).2.revisions := by
        rw [hbs]
        exact generate_diffs_revisions differ _
      rw [hr, hcommits, hbuf]
      exact ⟨_, rfl⟩

/-- C8: for every document `commit_seq_body_new` hands out (any number of
revisions, any mix of existing and absent ones), the value returned by `body_size`
equals the number of bytes of the stream `body_stream` produces without external
header, whether the size is asked before or after `generate_body`; with an
external header `h` the stream has `len(h) + 1 + body_size` bytes, the value
`bank_mail_get_physical_size` reports.  `body_size` and `generate_body` succeed
when every blob that has to be loaded is in the object database and `gmtime_r`
accepts every commit time. -/
theorem C8_size_equals_stream_length
    (differ : Option Bytes → Option Bytes → List diff_event) (repo : git_repository)
    (blobid : git_oid) (b : commit_seq_body) (hb : commit_seq_body_new repo blobid = some b) :
    (∀ (s : Int) (b1 : commit_seq_body), body_size differ b repo = (s, b1) → 0 ≤ s →
      ∀ b2, generate_body differ b1 repo = some (0, b2) →
        ((body_stream_bytes b2 none).length : Int) = s ∧
        ∀ h : Bytes,
          ((body_stream_bytes b2 (some h)).length : Int) = (h.length : Int) + 1 + s ∧
          bank_mail_get_physical_size differ b repo h = some ((h.length : Int) + 1 + s)) ∧
    (∀ b1 : commit_seq_body, generate_body differ b repo = some (0, b1) →
      (body_size differ b1 repo).1 = ((body_stream_bytes b1 none).length : Int) ∧
      ∀ h : Bytes,
        bank_mail_get_physical_size differ b1 repo h =
          some ((body_stream_bytes b1 (some h)).length : Int)) ∧
    ((∀ r ∈ b.revisions, r.exists_ = true → r.blob = none →
        (git_blob_lookup repo r.blobid).isSome = true) →
      (∀ r ∈ b.revisions, (gmtime_r r.commit.time).isSome = true) →
      0 ≤ (body_size differ b repo).1 ∧
      (∃ b1, generate_body differ b repo = some (0, b1)) ∧
      ∃ b2, generate_body differ (body_size differ b repo).2 repo = some (0, b2)) := by
  have hne : b.revisions ≠ [] := commit_seq_body_new_ne_nil repo blobid b hb
  obtain ⟨revs, hdoc⟩ : ∃ revs, b = new_document revs := by
    unfold commit_seq_body_new at hb
    simp only at hb
    split at hb
    · simp at hb
    · simp only [Option.some.injEq] at hb
      exact ⟨_, hb.symm⟩
  subst hdoc
  exact size_equals_stream_length differ repo revs hne

/-- C8 at the document of content 22 in the ledger history with head `C6`: the
size is 209, and so is the length of the stream; two bytes more with the one-byte
external header `H`. -/
theorem C8_witness :
    commit_seq_body_new ledger_repo_C6 22 = some ledger_document ∧
    (body_size sample_differ ledger_document ledger_repo_C6).1 = 209 ∧
    ∃ b2, generate_body sample_differ
        (body_size sample_differ ledger_document ledger_repo_C6).2 ledger_repo_C6 =
          some (0, b2) ∧
      ((body_stream_bytes b2 none).length : Int) = 209 ∧
      ((body_stream_bytes b2 (some [72])).length : Int) = 211 := by
  have t := C8_size_equals_stream_length sample_differ ledger_repo_C6 22 ledger_document
    (by decide)
  have hs : (body_size sample_differ ledger_document ledger_repo_C6).1 = 209 := by decide
  obtain ⟨b2, h2⟩ := (t.2.2 (by decide) (by decide)).2.2
  obtain ⟨h3, h4⟩ := t.1 (body_size sample_differ ledger_document ledger_repo_C6).1
    (body_size sample_differ ledger_document ledger_repo_C6).2 rfl (by decide) b2 h2
  refine ⟨by decide, hs, b2, h2, h3.trans hs, ?_⟩
  have h5 := (h4 [72]).1
  rw [hs] at h5
  exact h5

/-! ## Order and number of the parts of the stream -/

theorem body_stream_loop_eq (b : commit_seq_body) :
    ∀ (rest pre : List commit_and_blob) (offset : Nat) (parts : List Bytes),
      b.revisions = pre ++ rest →
      body_stream_loop b rest pre.length offset parts =
        parts ++ (List.range' pre.length rest.length).flatMap (fun i =>
          [((b.part_header_at i).drop (if i = pre.length then offset else 0)).take
              (part_header_size - (if i = pre.length then offset else 0)),
            revision_content_part b i] ++
            (if i + 1 < b.n_revisions then [b.diff_at i] else [])) := by
  intro rest
  induction rest with
  | nil => intro pre offset parts _; simp [body_stream_loop]
  | cons r rest ih =>
    intro pre offset parts hb
    have hb2 : b.revisions = (pre ++ [r]) ++ rest := by rw [hb]; simp
    have hget : b.revisions.get? pre.length = some r := by
      rw [hb, List.get?_eq_getElem?, List.getElem?_append_right (Nat.le_refl _)]
      simp
    have hlen : (pre ++ [r]).length = pre.length + 1 := by simp
    have hcond : ((pre.length : Int) < (b.n_revisions : Int) - 1) ↔
        pre.length + 1 < b.n_revisions := by omega
    have hih := ih (pre ++ [r]) 0
    rw [hlen] at hih
    rw [body_stream_loop, hih _ hb2, List.length_cons, List.range'_succ, List.flatMap_cons]
    have htail : (List.range' (pre.length + 1) rest.length).flatMap (fun i =>
          [((b.part_header_at i).drop (if i = pre.length + 1 then 0 else 0)).take
              (part_header_size - (if i = pre.length + 1 then 0 else 0)),
            revision_content_part b i] ++
            (if i + 1 < b.n_revisions then [b.diff_at i] else [])) =
        (List.range' (pre.length + 1) rest.length).flatMap (fun i =>
          [((b.part_header_at i).drop (if i = pre.length then offset else 0)).take
              (part_header_size - (if i = pre.length then offset else 0)),
            revision_content_part b i] ++
            (if i + 1 < b.n_revisions then [b.diff_at i] else [])) := by
      unfold List.flatMap
      congr 1
      apply List.map_congr_left
      intro i hi
      have : pre.length + 1 ≤ i := (List.mem_range'_1.1 hi).1
      have h1 : ¬ i = pre.length := by omega
      simp [h1]
    rw [htail]
    have hcontent : revision_content_part b pre.length =
        (if r.exists_ then
          i_stream_create_from_data (r.blob.getD []) 0 (r.blob.getD []).length
        else i_stream_create_from_data deleted_marker 0 (sizeof_deleted_marker - 1)) := by
      unfold revision_content_part
      rw [hget]
      simp [i_stream_create_from_data]
    rw [hcontent]
    by_cases hc : pre.length + 1 < b.n_revisions
    · simp [hcond.2 hc, hc, i_stream_create_from_data]
    · have hc2 : ¬ ((pre.length : Int) < (b.n_revisions : Int) - 1) := fun h => hc (hcond.1 h)
      simp [hc2, hc, i_stream_create_from_data]

theorem body_stream_eq_document_parts (b : commit_seq_body) (header : Option Bytes) :
    body_stream b header = document_parts b header := by
  unfold body_stream document_parts
  rw [List.range_eq_range']
  cases header with
  | none =>
    have := body_stream_loop_eq b b.revisions [] 1 [] rfl
    simp only [List.length_nil] at this
    show body_stream_loop b b.revisions 0 1 [] = _
    rw [this]
    simp [revision_header_part, commit_seq_body.n_revisions]
  | some h =>
    have := body_stream_loop_eq b b.revisions [] 0 [h] rfl
    simp only [List.length_nil] at this
    show body_stream_loop b b.revisions 0 0 [h] = _
    rw [this]
    simp [revision_header_part, commit_seq_body.n_revisions]

theorem body_stream_loop_count (b : commit_seq_body) :
    ∀ (rest : List commit_and_blob) (part offset : Nat) (parts : List Bytes),
      part + rest.length = b.n_revisions →
      (body_stream_loop b rest part offset parts).length =
        parts.length + 2 * rest.length + (rest.length - 1) := by
  intro rest
  induction rest with
  | nil => intro part offset parts _; simp [body_stream_loop]
  | cons r rest ih =>
    intro part offset parts hlen
    simp only [List.length_cons] at hlen
    rw [body_stream_loop, ih (part + 1) 0 _ (by omega)]
    by_cases hd : (part : Int) < (b.n_revisions : Int) - 1
    · simp only [hd, if_true, List.length_append, List.length_cons, List.length_nil]
      omega
    · simp only [hd, if_false, List.length_append, List.length_cons, List.length_nil]
      omega

/-- C10: for every document with `n` revisions, `body_stream` stores its parts in
the order external header (if supplied), then for each revision from newest to
oldest its header, its content or placeholder and, only when it is not the
oldest, its diff; the number of parts is `(1 if header) + 2n + (n-1 if n > 0)`, so
the terminator goes into the last allocated slot. -/
theorem C10_parts_in_document_order (b : commit_seq_body) (header : Option Bytes) :
    body_stream b header = document_parts b header ∧
    (body_stream b header).length =
      (if header.isSome then 1 else 0) + 2 * b.n_revisions +
        (if 0 < b.n_revisions then b.n_revisions - 1 else 0) ∧
    (body_stream b header).length + 1 = body_stream_alloc b header := by
  have hcount : (body_stream b header).length =
      (if header.isSome then 1 else 0) + 2 * b.n_revisions + (b.n_revisions - 1) := by
    unfold body_stream
    cases header with
    | none =>
      show (body_stream_loop b b.revisions 0 1 []).length = _
      rw [body_stream_loop_count b b.revisions 0 1 [] (by simp [commit_seq_body.n_revisions])]
      simp [commit_seq_body.n_revisions]
    | some h =>
      show (body_stream_loop b b.revisions 0 0 [h]).length = _
      rw [body_stream_loop_count b b.revisions 0 0 [h] (by simp [commit_seq_body.n_revisions])]
      simp [commit_seq_body.n_revisions]
  refine ⟨body_stream_eq_document_parts b header, ?_, ?_⟩
  · rw [hcount]
    by_cases hn : 0 < b.n_revisions
    · rw [if_pos hn]
    · rw [if_neg hn]
      omega
  · rw [hcount]
    unfold body_stream_alloc
    by_cases hn : b.n_revisions = 0
    · cases header <;> simp [hn]
    · cases header <;> simp [hn] <;> omega

/-- C10 at the three sample revisions with an external header: 9 parts. -/
theorem C10_witness :
    (body_stream sample_document (some (bytes_of "Subject: x\n"))).length + 1 =
      body_stream_alloc sample_document (some (bytes_of "Subject: x\n")) :=
  (C10_parts_in_document_order _ _).2.2

/-! ## Width of the revision header -/

theorem gmtime_r_year_bounds (t : Int) (h1 : 0 ≤ t) (h2 : t < 253402300800) :
    ∃ r, gmtime_r t = some r ∧ 0 ≤ r.tm_year + 1900 ∧ r.tm_year + 1900 ≤ 9999 := by
  simp only [gmtime_r]
  split_ifs <;> first
    | (refine ⟨_, rfl, ?_, ?_⟩ <;> simp only <;> omega)
    | (exfalso; omega)

theorem decimal_length_le (n : Nat) (h : n < 10 ^ 4) : (decimal n).length ≤ 4 := by
  unfold decimal Nat.toDigits
  rw [List.length_map]
  exact Nat.toDigitsCore_length 10 (by decide) (n + 1) n 4 h (by decide)

theorem git_oid_fmt_length (id : git_oid) : (git_oid_fmt id).length = GIT_OID_HEXSZ := by
  simp [git_oid_fmt]

theorem render_part_header_length (c : git_commit) (text : Bytes)
    (h : render_part_header c = some text) :
    ∃ r, gmtime_r c.time = some r ∧
      text.length = 73 + (year_digits (r.tm_year + 1900)).length := by
  unfold render_part_header at h
  cases hg : gmtime_r c.time with
  | none => rw [hg] at h; simp at h
  | some r =>
    rw [hg] at h
    simp only [Option.some.injEq] at h
    refine ⟨r, rfl, ?_⟩
    rw [← h]
    unfold strftime_date
    simp only [List.length_append, git_oid_fmt_length, GIT_OID_HEXSZ, two_digits,
      List.length_cons, List.length_nil]
    have h1 : (bytes_of "\ncommit ").length = 8 := by decide
    have h2 : (bytes_of "\nDate: ").length = 7 := by decide
    have h3 : (bytes_of "\n\n").length = 2 := by decide
    rw [h1, h2, h3]
    omega

/-- For author timestamps from 1970-01-01 up to the end of year 9999 the header is
rendered and fits `part_header_size`. -/
theorem render_part_header_length_le (c : git_commit) (h1 : 0 ≤ c.time)
    (h2 : c.time < 253402300800) :
    ∃ text, render_part_header c = some text ∧ text.length ≤ part_header_size := by
  obtain ⟨r, hr, hy1, hy2⟩ := gmtime_r_year_bounds c.time h1 h2
  have hsome : ∃ text, render_part_header c = some text := by
    unfold render_part_header
    rw [hr]
    exact ⟨_, rfl⟩
  obtain ⟨text, ht⟩ := hsome
  obtain ⟨r2, hr2, hlen⟩ := render_part_header_length c text ht
  rw [hr] at hr2
  simp only [Option.some.injEq] at hr2
  subst hr2
  refine ⟨text, ht, ?_⟩
  rw [hlen, part_header_size_eq]
  have hd : (year_digits (r.tm_year + 1900)).length ≤ 4 := by
    unfold year_digits
    rw [if_neg (by omega)]
    apply decimal_length_le
    have : (r.tm_year + 1900).toNat ≤ 9999 := by omega
    omega
  omega

/-- C9: the claim that the rendered revision header never exceeds
`part_header_size` (77) fails in the code for an author timestamp in year 10000:
at `253402300800` (`10000-01-01 00:00:00Z`) `strftime` yields 21 characters and the
header has 78 bytes, one more than the buffer of `part_header_size + 1` bytes can
hold together with its NUL. -/
theorem C9_header_exceeds_part_header_size :
    part_header_size = 77 ∧
    (render_part_header ⟨1, 253402300800, []⟩).map List.length = some 78 ∧
    (render_part_header ⟨1, 253402300799, []⟩).map List.length = some 77 := by
  refine ⟨by decide, by decide, by decide⟩

/-! ## Separator newline of the first revision header -/

theorem part_header_buffer_shape (c : git_commit) (buffer : Bytes)
    (h : part_header_buffer c = some buffer) :
    ∃ tail, buffer = 10 :: (bytes_of "commit " ++ tail) ∧ tail.length = 70 := by
  have h1 : bytes_of "\ncommit " = 10 :: bytes_of "commit " := by decide
  have h7 : (bytes_of "commit ").length = 7 := by decide
  have h77 := part_header_size_eq
  unfold part_header_buffer render_part_header at h
  cases hg : gmtime_r c.time with
  | none => rw [hg] at h; simp at h
  | some r =>
    rw [hg] at h
    simp only [Option.some.injEq] at h
    refine ⟨((git_oid_fmt c.id ++ bytes_of "\nDate: " ++ strftime_date r ++
        bytes_of "\n\n") ++ List.replicate (part_header_size + 1) 0).take 70, ?_, ?_⟩
    · rw [← h, h1, h77]
      simp only [List.cons_append, List.append_assoc, List.take_succ_cons]
      rw [List.take_append_eq_append_take, h7]
      simp [h7]
    · simp only [List.length_take, List.length_append, List.length_replicate, h77]
      omega

theorem revision_header_part_first (b : commit_seq_body) (h : headers_ok b)
    (r : commit_and_blob) (hr : b.revisions.get? 0 = some r) :
    ∃ tail, revision_header_part b none 0 = bytes_of "commit " ++ tail ∧
      (bytes_of "commit " ++ tail).length = part_header_size - 1 := by
  obtain ⟨tail, hb, hl⟩ := part_header_buffer_shape r.commit _ (headers_ok_at b h 0 r hr)
  have h7 : (bytes_of "commit ").length = 7 := by decide
  have h77 := part_header_size_eq
  refine ⟨tail.take 69, ?_, ?_⟩
  · unfold revision_header_part
    rw [hb, h77]
    simp only [true_and, if_true, List.drop_succ_cons, List.drop_zero]
    rw [List.take_append_eq_append_take, h7]
    simp [h7]
  · simp [h7, h77, hl]

theorem revision_header_part_kept (b : commit_seq_body) (h : headers_ok b) (i : Nat)
    (header : Option Bytes) (r : commit_and_blob) (hr : b.revisions.get? i = some r)
    (hi : ¬ (i = 0 ∧ header = none)) :
    ∃ tail, revision_header_part b header i = 10 :: (bytes_of "commit " ++ tail) ∧
      (10 :: (bytes_of "commit " ++ tail)).length = part_header_size := by
  obtain ⟨tail, hb, hl⟩ := part_header_buffer_shape r.commit _ (headers_ok_at b h i r hr)
  have h7 : (bytes_of "commit ").length = 7 := by decide
  have h77 := part_header_size_eq
  refine ⟨tail.take 69, ?_, ?_⟩
  · unfold revision_header_part
    rw [hb, h77]
    simp only [hi, if_false, List.drop_zero, List.take_succ_cons]
    rw [List.take_append_eq_append_take, h7]
    simp [h7]
  · simp [h7, h77, hl]

theorem document_parts_flatten_first (b : commit_seq_body) (header : Option Bytes)
    (hne : b.revisions ≠ []) :
    ∃ tail, (document_parts b header).flatten =
      header.toList.flatten ++ (revision_header_part b header 0 ++ tail) := by
  have hn : b.n_revisions = (b.n_revisions - 1) + 1 := by
    have : 0 < b.revisions.length := List.length_pos.2 hne
    unfold commit_seq_body.n_revisions
    omega
  unfold document_parts
  rw [hn, List.range_succ_eq_map, List.flatMap_cons]
  simp only [List.flatten_append, List.cons_append, List.flatten_cons, List.append_assoc]
  exact ⟨_, rfl⟩

/-- C11: in a document with at least one revision whose part headers were
generated, the stream without external header starts with `commit ` (the first
header part lacks its leading newline), the stream with an external header `h`
continues after `h` with exactly one newline and then `commit `, every later
revision header part starts with that newline, and `body_size` counts
`part_header_size - 1` bytes for the first header and `part_header_size` for each
of the others. -/
theorem C11_first_header_omits_separator (b : commit_seq_body) (hok : headers_ok b)
    (r : commit_and_blob) (rest : List commit_and_blob) (hrev : b.revisions = r :: rest) :
    (∃ tail, body_stream_bytes b none = bytes_of "commit " ++ tail) ∧
    (∀ h : Bytes, ∃ tail,
      body_stream_bytes b (some h) = h ++ 10 :: (bytes_of "commit " ++ tail)) ∧
    (∀ (i : Nat) (header : Option Bytes), 0 < i → i < b.n_revisions →
      ∃ tail, revision_header_part b header i = 10 :: (bytes_of "commit " ++ tail)) ∧
    (revision_header_part b none 0).length = part_header_size - 1 ∧
    (∀ (i : Nat) (header : Option Bytes), i < b.n_revisions → ¬ (i = 0 ∧ header = none) →
      (revision_header_part b header i).length = part_header_size) ∧
    body_size_loop b.revisions 0 0 =
      (part_header_size - 1 + payload_size r) + parts_sum rest := by
  have hne : b.revisions ≠ [] := by rw [hrev]; simp
  have h0 : b.revisions.get? 0 = some r := by rw [hrev]; rfl
  have hget : ∀ i, i < b.n_revisions → ∃ x, b.revisions.get? i = some x := by
    intro i hi
    exact ⟨b.revisions.get ⟨i, hi⟩, List.get?_eq_get hi⟩
  refine ⟨?_, ?_, ?_, ?_, ?_, ?_⟩
  · obtain ⟨t1, ht1, -⟩ := revision_header_part_first b hok r h0
    obtain ⟨t2, ht2⟩ := document_parts_flatten_first b none hne
    refine ⟨t1 ++ t2, ?_⟩
    unfold body_stream_bytes
    rw [body_stream_eq_document_parts, ht2, ht1]
    simp
  · intro h
    obtain ⟨t1, ht1, -⟩ := revision_header_part_kept b hok 0 (some h) r h0 (by simp)
    obtain ⟨t2, ht2⟩ := document_parts_flatten_first b (some h) hne
    refine ⟨t1 ++ t2, ?_⟩
    unfold body_stream_bytes
    rw [body_stream_eq_document_parts, ht2, ht1]
    simp
  · intro i header hpos hi
    obtain ⟨x, hx⟩ := hget i hi
    obtain ⟨t1, ht1, -⟩ := revision_header_part_kept b hok i header x hx (by omega)
    exact ⟨t1, ht1⟩
  · obtain ⟨t1, ht1, hl⟩ := revision_header_part_first b hok r h0
    rw [ht1, hl]
  · intro i header hi hnot
    obtain ⟨x, hx⟩ := hget i hi
    obtain ⟨t1, ht1, hl⟩ := revision_header_part_kept b hok i header x hx hnot
    rw [ht1, hl]
  · rw [hrev, body_size_loop_eq]
    have h77 := part_header_size_eq
    simp only [parts_sum, List.map_cons, List.sum_cons]
    simp
    omega

/-- C11 at the sample document. -/
theorem C11_witness :
    ∃ tail, body_stream_bytes sample_document none = bytes_of "commit " ++ tail :=
  (C11_first_header_omits_separator sample_document (by unfold headers_ok; decide)
    (revision_entry (ledger_commit 7, none))
    [fetched_entry ledger_repo (ledger_commit 3, some 22),
     fetched_entry ledger_repo (ledger_commit 1, some 11)] (by decide)).1

/-! ## Diffs between adjacent revisions -/

/-- C13: an absent revision is not rendered as the complete marker `<deleted>\n` of
10 bytes: `sizeof(deleted_marker)` is the size of a pointer, so `body_stream`
emits only the first 7 bytes, `<delete`, and `body_size` counts 7; shown at
revision 0 of the sample document, which is absent. -/
theorem C13_placeholder_is_truncated :
    deleted_marker.length = 10 ∧
    (sample_document.revisions.get? 0).map commit_and_blob.exists_ = some false ∧
    revision_content_part sample_document 0 = bytes_of "<delete" ∧
    (body_stream sample_document none).get? 1 = some (bytes_of "<delete") ∧
    (sample_document.revisions.get? 0).map payload_size = some 7 := by
  refine ⟨by decide, by decide, by decide, by decide, by decide⟩

/-- C14: when no entry of the head snapshot carries the target content id (or there
is no head), `find_versions` returns `-1` and leaves the callback data as it was,
whatever the callback, and `commit_seq_body_new` returns no document. -/
theorem C14_not_found_propagates (repo : git_repository) (blobid : git_oid)
    (h : ∀ head_commit ∈ repo.commits.head?, ∀ e ∈ head_commit.tree, e.id ≠ blobid) :
    (∀ (σ : Type) (cb : git_commit → Option git_oid → σ → Int × σ) (data : σ),
      find_versions repo blobid cb data = (-1, data)) ∧
    commit_seq_body_new repo blobid = none := by
  have hfind : ∀ tree : git_tree, (∀ e ∈ tree, e.id ≠ blobid) → find_blob tree blobid = none := by
    intro tree
    induction tree with
    | nil => intro _; rfl
    | cons e rest ih =>
      intro hall
      have he : e.id ≠ blobid := hall e (by simp)
      simp only [find_blob, he, if_false]
      exact ih (fun x hx => hall x (List.mem_cons_of_mem _ hx))
  have key : ∀ (σ : Type) (cb : git_commit → Option git_oid → σ → Int × σ) (data : σ),
      find_versions repo blobid cb data = (-1, data) := by
    intro σ cb data
    unfold find_versions
    cases hc : repo.commits with
    | nil => rfl
    | cons hd rest =>
      have := hfind hd.tree (h hd (by simp [hc]))
      simp only [this]
  refine ⟨key, ?_⟩
  unfold commit_seq_body_new
  rw [key]
  rfl

/-- C14 at the ledger history with head `C7`, where the file is deleted: a callback
that counts its calls is left at 0. -/
theorem C14_witness :
    find_versions ledger_repo 22 (fun _ _ (n : Nat) => ((0 : Int), n + 1)) 0 = (-1, 0) :=
  (C14_not_found_propagates ledger_repo 22 (by decide)).1 Nat _ 0

/-! ## Walks that leave no revision -/

/-- The code of `commit_seq_body_new` that follows the walk holds no test for an
empty list: from a context filled by a walk that delivered no commit, or only
commits without the path, it builds a document with zero revisions. -/
theorem empty_context_gives_empty_document :
    commit_seq_body_of_ctx (body_versions []) = new_document [] ∧
    commit_seq_body_of_ctx
        (body_versions [(ledger_commit 7, none), (file_commit 2 none, none)]) =
      new_document [] := by
  refine ⟨by decide, by decide⟩

theorem find_versions_no_commit {σ : Type} (repo : git_repository) (blobid : git_oid)
    (cb : git_commit → Option git_oid → σ → Int × σ) (data : σ) (h : repo.commits = []) :
    find_versions repo blobid cb data = (-1, data) := by
  unfold find_versions
  rw [h]

/-- C15: whenever the revision list that `commit_seq_body_new` is left with after
`find_versions` and the removal of an absent oldest entry is empty,
`commit_seq_body_new` returns no document; a document it returns never has zero
revisions.  The list built from a walk is empty exactly when the walk delivered
no commit or only commits without the path; a repository without commits (a walk
that visits nothing) gives no document. -/
theorem C15_empty_revision_list_fails :
    (∀ (repo : git_repository) (blobid : git_oid),
      (commit_seq_body_of_ctx
        (find_versions repo blobid body_version { count := 0, entries := [] }).2).revisions = [] →
      commit_seq_body_new repo blobid = none) ∧
    (∀ (repo : git_repository) (blobid : git_oid) (b : commit_seq_body),
      commit_seq_body_new repo blobid = some b → b.revisions ≠ []) ∧
    (∀ seq : List Revision,
      (commit_seq_body_of_ctx (body_versions seq)).revisions = [] ↔ ∀ x ∈ seq, x.2 = none) ∧
    (∀ (repo : git_repository) (blobid : git_oid),
      repo.commits = [] → commit_seq_body_new repo blobid = none) := by
  refine ⟨?_, commit_seq_body_new_ne_nil, revisions_empty_iff, ?_⟩
  · intro repo blobid hempty
    cases hb : commit_seq_body_new repo blobid with
    | none => rfl
    | some b =>
      exfalso
      apply commit_seq_body_new_ne_nil repo blobid b hb
      unfold commit_seq_body_new at hb
      simp only at hb
      split at hb
      · simp at hb
      · simp only [Option.some.injEq] at hb
        rw [← hb]
        exact hempty
  · intro repo blobid h
    unfold commit_seq_body_new
    rw [find_versions_no_commit repo blobid body_version _ h]
    rfl

/-- C15 at a repository without commits, where the walk visits nothing. -/
theorem C15_witness :
    (commit_seq_body_of_ctx
      (find_versions { commits := [], odb := [] } 22 body_version
        { count := 0, entries := [] }).2).revisions = [] ∧
    commit_seq_body_new { commits := [], odb := [] } 22 = none :=
  ⟨by decide, C15_empty_revision_list_fails.1 { commits := [], odb := [] } 22 (by decide)⟩

/-! ## A content that comes back after being superseded -/

theorem run_length_compress_nil : run_length_compress [] = [] := by
  simp [run_length_compress, runs]

theorem run_length_compress_run (s : Option git_oid) (run : List Revision) (x : Revision)
    (rest : List Revision) (hrun : ∀ y ∈ run, y.2 = s) (hx : x.2 = s)
    (hrest : ∀ z ∈ rest.head?, z.2 ≠ s) :
    run_length_compress (run ++ x :: rest) = x :: run_length_compress rest := by
  induction run with
  | nil =>
    cases rest with
    | nil => simp [run_length_compress_singleton, run_length_compress_nil]
    | cons z tl =>
      have hz : x.2 ≠ z.2 := by
        rw [hx]
        exact fun h => hrest z (by simp) h.symm
      simp [run_length_compress_cons_cons, hz]
  | cons y run ih =>
    have hy : y.2 = s := hrun y (by simp)
    have ih2 := ih (fun w hw => hrun w (List.mem_cons_of_mem _ hw))
    cases run with
    | nil =>
      simp only [List.nil_append, List.cons_append] at ih2 ⊢
      rw [run_length_compress_cons_cons, if_pos (by rw [hy, hx]), ih2]
    | cons w run2 =>
      have hw : w.2 = s := hrun w (by simp)
      simp only [List.cons_append] at ih2 ⊢
      rw [run_length_compress_cons_cons, if_pos (by rw [hy, hw]), ih2]

theorem body_version_looks_at_latest (c : git_commit) (s : Option git_oid)
    (e : commit_and_blob) :
    ∃ (tail : List commit_and_blob) (k : Nat), ∀ (pre : List commit_and_blob) (n : Nat),
      (body_version c s { count := n, entries := pre ++ [e] }).2 =
        { count := n + k, entries := pre ++ tail } := by
  have hl : ∀ pre : List commit_and_blob, (pre ++ [e]).getLast? = some e := by
    intro pre
    simp
  cases s with
  | none =>
    by_cases he : e.exists_ = true
    · refine ⟨[e, { commit := c, blobid := 0, exists_ := false, blob := none }], 1, ?_⟩
      intro pre n
      simp only [body_version, body_versions_context.latest, hl, he, if_true,
        body_versions_context.link, List.append_assoc, List.singleton_append]
    · refine ⟨[{ e with commit := c }], 0, ?_⟩
      intro pre n
      simp only [body_version, body_versions_context.latest, hl, he, if_false,
        body_versions_context.set_commit, List.dropLast_concat, Nat.add_zero,
        Bool.false_eq_true]
  | some id =>
    by_cases he : (e.exists_ && e.blobid == id) = true
    · refine ⟨[{ e with commit := c }], 0, ?_⟩
      intro pre n
      simp only [body_version, body_versions_context.latest, hl, he, if_true,
        body_versions_context.set_commit, List.dropLast_concat, Nat.add_zero]
    · refine ⟨[e, { commit := c, blobid := id, exists_ := true, blob := none }], 1, ?_⟩
      intro pre n
      simp only [body_version, body_versions_context.latest, hl, he, if_false,
        body_versions_context.link, List.append_assoc, List.singleton_append,
        Bool.false_eq_true]

/-- C22: when the walk (newest first) delivers a run of commits with content `a`,
then a run with a different content `b`, then a run with content `a` again, the
fold of `body_version` followed by the boundary policy of `commit_seq_body_new`
yields exactly three revisions, with states `a`, `b`, `a`, each at the oldest
commit of its run: the returning content opens a revision of its own.
`body_version` consults only the latest entry: the entries before it are left as
they are and do not influence what is done with the new state. -/
theorem C22_reintroduced_content_is_new_revision (a b : git_oid) (hab : a ≠ b)
    (run1 run2 run3 : List Revision) (x1 x2 x3 : Revision)
    (h1 : ∀ x ∈ run1 ++ [x1], x.2 = some a) (h2 : ∀ x ∈ run2 ++ [x2], x.2 = some b)
    (h3 : ∀ x ∈ run3 ++ [x3], x.2 = some a) :
    (body_versions (run1 ++ x1 :: (run2 ++ x2 :: (run3 ++ [x3])))).count = 3 ∧
    (commit_seq_body_of_ctx
        (body_versions (run1 ++ x1 :: (run2 ++ x2 :: (run3 ++ [x3]))))).revisions =
      [revision_entry x1, revision_entry x2, revision_entry x3] ∧
    [revision_entry x1, revision_entry x2, revision_entry x3].map commit_and_blob.state =
      [some a, some b, some a] ∧
    (∀ (c : git_commit) (s : Option git_oid) (e : commit_and_blob),
      ∃ (tail : List commit_and_blob) (k : Nat), ∀ (pre : List commit_and_blob) (n : Nat),
        (body_version c s { count := n, entries := pre ++ [e] }).2 =
          { count := n + k, entries := pre ++ tail }) := by
  have e1 : x1.2 = some a := h1 x1 (by simp)
  have e2 : x2.2 = some b := h2 x2 (by simp)
  have e3 : x3.2 = some a := h3 x3 (by simp)
  have hhead : ∀ (s t : Option git_oid) (run : List Revision) (x : Revision)
      (rest : List Revision), (∀ y ∈ run ++ [x], y.2 = s) → s ≠ t →
      ∀ z ∈ (run ++ x :: rest).head?, z.2 ≠ t := by
    intro s t run x rest hall hst z hz
    cases run with
    | nil =>
      simp only [List.nil_append, List.head?_cons, Option.mem_def, Option.some.injEq] at hz
      rw [← hz, hall x (by simp)]
      exact hst
    | cons y run2 =>
      simp only [List.cons_append, List.head?_cons, Option.mem_def, Option.some.injEq] at hz
      rw [← hz, hall y (by simp)]
      exact hst
  have hab2 : (some a : Option git_oid) ≠ some b := by simpa using hab
  have hrlc : run_length_compress (run1 ++ x1 :: (run2 ++ x2 :: (run3 ++ [x3]))) =
      [x1, x2, x3] := by
    rw [run_length_compress_run (some a) run1 x1 _
        (fun y hy => h1 y (List.mem_append_left _ hy)) e1
        (hhead (some b) (some a) run2 x2 _ h2 hab2.symm),
      run_length_compress_run (some b) run2 x2 _
        (fun y hy => h2 y (List.mem_append_left _ hy)) e2
        (hhead (some a) (some b) run3 x3 [] h3 hab2),
      run_length_compress_run (some a) run3 x3 []
        (fun y hy => h3 y (List.mem_append_left _ hy)) e3 (by simp),
      run_length_compress_nil]
  refine ⟨?_, ?_, ?_, body_version_looks_at_latest⟩
  · rw [body_versions_eq, hrlc]
    rfl
  · rw [revisions_of_sequence, hrlc]
    have : strip_absent_oldest [x1, x2, x3] = [x1, x2, x3] := by
      obtain ⟨c3, s3⟩ := x3
      simp only at e3
      subst e3
      simp [strip_absent_oldest]
    rw [this]
    rfl
  · simp [commit_and_blob.state, revision_entry, e1, e2, e3]

/-- C22 at `reintroduced_repo`, asked for content 11: the walk delivers 11, 22, 11
and the document has the three revisions `(C3, 11)`, `(C2, 22)`, `(C1, 11)`. -/
theorem C22_witness :
    commit_seq_body_new reintroduced_repo 11 =
      some (new_document
        [revision_entry (file_commit 3 (some 11), some 11),
         revision_entry (file_commit 2 (some 22), some 22),
         revision_entry (file_commit 1 (some 11), some 11)]) ∧
    (commit_seq_body_of_ctx
        (body_versions ([] ++ (file_commit 3 (some 11), some 11) ::
          ([] ++ (file_commit 2 (some 22), some 22) ::
            ([] ++ [(file_commit 1 (some 11), some 11)]))))).revisions =
      [revision_entry (file_commit 3 (some 11), some 11),
       revision_entry (file_commit 2 (some 22), some 22),
       revision_entry (file_commit 1 (some 11), some 11)] :=
  ⟨by decide,
    (C22_reintroduced_content_is_new_revision 11 22 (by decide) [] [] []
      (file_commit 3 (some 11), some 11) (file_commit 2 (some 22), some 22)
      (file_commit 1 (some 11), some 11) (by decide) (by decide) (by decide)).2.1⟩

/-! ## repo.c: scanning the head directory and synchronising the index -/

theorem blob_cmp_eq_zero (a b : git_oid) : (blob_cmp a b == 0) = true ↔ a = b := by
  unfold blob_cmp
  simp only [beq_iff_eq]
  constructor
  · intro h
    by_cases h1 : a < b
    · simp [h1] at h
    · by_cases h2 : b < a
      · simp [h1, h2] at h
      · exact Nat.le_antisymm (Nat.le_of_not_lt h2) (Nat.le_of_not_lt h1)
  · intro h
    subst h
    simp

theorem hash_table_lookup_eq_none (files : hash_table) (key : git_oid) :
    hash_table_lookup files key = none ↔ key ∉ files.map (fun x => x.blobid) := by
  unfold hash_table_lookup
  rw [List.find?_eq_none]
  simp only [blob_cmp_eq_zero, List.mem_map, not_exists, not_and]

theorem hash_table_lookup_isSome (files : hash_table) (key : git_oid) :
    (∃ v, hash_table_lookup files key = some v) ↔ key ∈ files.map (fun x => x.blobid) := by
  constructor
  · rintro ⟨v, hv⟩
    by_contra hn
    rw [(hash_table_lookup_eq_none files key).2 hn] at hv
    exact Option.noConfusion hv
  · intro h
    cases hl : hash_table_lookup files key with
    | none => exact absurd h ((hash_table_lookup_eq_none files key).1 hl)
    | some v => exact ⟨v, rfl⟩

theorem hash_table_remove_eq (files : hash_table) (key : git_oid) :
    hash_table_remove files key = files.filter (fun x => decide (x.blobid ≠ key)) := by
  unfold hash_table_remove
  congr 1
  funext x
  by_cases h : x.blobid = key
  · simp [h, (blob_cmp_eq_zero key key).2 rfl]
  · have : ¬ (blob_cmp x.blobid key == 0) = true := fun hc => h ((blob_cmp_eq_zero _ _).1 hc)
    simp [h, this]

theorem hash_table_insert_ids (files : hash_table) (value : blob_and_time) :
    (hash_table_insert files value).map (fun x => x.blobid) =
      insert_id (files.map (fun x => x.blobid)) value.blobid := by
  unfold hash_table_insert insert_id
  cases hl : hash_table_lookup files value.blobid with
  | none =>
    have hnot := (hash_table_lookup_eq_none files value.blobid).1 hl
    simp only [if_neg hnot, List.map_append, List.map_singleton]
  | some v =>
    have hin := (hash_table_lookup_isSome files value.blobid).1 ⟨v, hl⟩
    simp only [if_pos hin, List.map_map]
    apply List.map_congr_left
    intro x _
    show (if (blob_cmp x.blobid value.blobid == 0) = true then value else x).blobid = x.blobid
    by_cases hc : (blob_cmp x.blobid value.blobid == 0) = true
    · rw [if_pos hc]
      exact ((blob_cmp_eq_zero _ _).1 hc).symm
    · rw [if_neg hc]

theorem hash_table_insert_zero (files : hash_table) (value : blob_and_time)
    (h0 : ∀ x ∈ files, x.timestamp = 0) (hv : value.timestamp = 0) :
    ∀ x ∈ hash_table_insert files value, x.timestamp = 0 := by
  intro x hx
  unfold hash_table_insert at hx
  cases hl : hash_table_lookup files value.blobid with
  | none =>
    rw [hl] at hx
    simp only [List.mem_append, List.mem_singleton] at hx
    rcases hx with hx | hx
    · exact h0 x hx
    · rw [hx]; exact hv
  | some v =>
    rw [hl] at hx
    simp only [List.mem_map] at hx
    obtain ⟨y, hy, hxy⟩ := hx
    split at hxy
    · rw [← hxy]; exact hv
    · rw [← hxy]; exact h0 y hy

theorem scan_insert_loop_ids (entries : List git_tree_entry) :
    ∀ files : hash_table, (scan_insert_loop entries files).map (fun x => x.blobid) =
      (directory_blob_ids entries).foldl insert_id (files.map (fun x => x.blobid)) := by
  induction entries with
  | nil =>
    intro files
    simp [scan_insert_loop, directory_blob_ids]
  | cons e rest ih =>
    intro files
    by_cases he : e.type = git_otype.GIT_OBJ_BLOB
    · have hids : directory_blob_ids (e :: rest) = e.id :: directory_blob_ids rest := by
        simp [directory_blob_ids, he]
      simp only [scan_insert_loop, he, ne_eq, not_true_eq_false, if_false]
      rw [ih, hids, hash_table_insert_ids]
      rfl
    · have hids : directory_blob_ids (e :: rest) = directory_blob_ids rest := by
        simp [directory_blob_ids, he]
      simp only [scan_insert_loop, he, ne_eq, not_false_eq_true, if_true]
      rw [ih, hids]

theorem scan_insert_loop_zero (entries : List git_tree_entry) :
    ∀ files : hash_table, (∀ x ∈ files, x.timestamp = 0) →
      ∀ x ∈ scan_insert_loop entries files, x.timestamp = 0 := by
  induction entries with
  | nil =>
    intro files h0
    simpa [scan_insert_loop] using h0
  | cons e rest ih =>
    intro files h0
    by_cases he : e.type = git_otype.GIT_OBJ_BLOB
    · simp only [scan_insert_loop, he, ne_eq, not_true_eq_false, if_false]
      exact ih _ (hash_table_insert_zero files _ h0 rfl)
    · simp only [scan_insert_loop, he, ne_eq, not_false_eq_true, if_true]
      exact ih files h0

theorem zero_timestamps_eq (files : hash_table) (h0 : ∀ x ∈ files, x.timestamp = 0) :
    (files.map (fun x => x.blobid)).map
      (fun id => ({ blobid := id, timestamp := 0 } : blob_and_time)) = files := by
  rw [List.map_map]
  conv_rhs => rw [← List.map_id files]
  apply List.map_congr_left
  intro x hx
  have := h0 x hx
  cases x
  simp only at this
  simp [Function.comp_def, this]

theorem scan_insert_loop_eq (entries : List git_tree_entry) :
    scan_insert_loop entries [] =
      (directory_contents entries).map
        (fun id => ({ blobid := id, timestamp := 0 } : blob_and_time)) := by
  have h1 := scan_insert_loop_ids entries []
  have h2 := zero_timestamps_eq (scan_insert_loop entries [])
    (scan_insert_loop_zero entries [] (by simp))
  rw [← h2, h1]
  rfl

theorem foldl_insert_id_nodup (ids : List git_oid) :
    ∀ seen : List git_oid, seen.Nodup → (ids.foldl insert_id seen).Nodup := by
  induction ids with
  | nil => intro seen h; exact h
  | cons id rest ih =>
    intro seen h
    rw [List.foldl_cons]
    apply ih
    unfold insert_id
    by_cases hm : id ∈ seen
    · rw [if_pos hm]; exact h
    · rw [if_neg hm]
      refine List.Nodup.append h (List.nodup_singleton _) ?_
      intro a ha hb
      rw [List.mem_singleton] at hb
      exact hm (hb ▸ ha)

theorem mem_foldl_insert_id (ids : List git_oid) :
    ∀ (seen : List git_oid) (id : git_oid),
      id ∈ ids.foldl insert_id seen ↔ id ∈ seen ∨ id ∈ ids := by
  induction ids with
  | nil => intro seen id; simp
  | cons x rest ih =>
    intro seen id
    rw [List.foldl_cons, ih]
    unfold insert_id
    by_cases hm : x ∈ seen
    · rw [if_pos hm]
      simp only [List.mem_cons]
      constructor
      · rintro (h | h)
        · exact Or.inl h
        · exact Or.inr (Or.inr h)
      · rintro (h | h | h)
        · exact Or.inl h
        · exact Or.inl (h ▸ hm)
        · exact Or.inr h
    · rw [if_neg hm]
      simp only [List.mem_append, List.mem_singleton, List.mem_cons]
      tauto

theorem distinct_ids_nodup (ids : List git_oid) : (distinct_ids ids).Nodup :=
  foldl_insert_id_nodup ids [] List.nodup_nil

theorem mem_distinct_ids (ids : List git_oid) (id : git_oid) :
    id ∈ distinct_ids ids ↔ id ∈ ids := by
  unfold distinct_ids
  rw [mem_foldl_insert_id]
  simp

theorem foldl_insert_id_of_nodup (ids : List git_oid) :
    ∀ seen : List git_oid, (seen ++ ids).Nodup → ids.foldl insert_id seen = seen ++ ids := by
  induction ids with
  | nil => intro seen _; simp
  | cons x rest ih =>
    intro seen h
    have hx : x ∉ seen := by
      intro hm
      exact (List.nodup_append.1 h).2.2 hm (by simp)
    have hi : insert_id seen x = seen ++ [x] := by
      unfold insert_id
      rw [if_neg hx]
    rw [List.foldl_cons, hi, ih _ (by simpa [List.append_assoc] using h)]
    simp

theorem distinct_ids_of_nodup (ids : List git_oid) (h : ids.Nodup) : distinct_ids ids = ids := by
  unfold distinct_ids
  rw [foldl_insert_id_of_nodup ids [] (by simpa using h)]
  simp

theorem directory_contents_nodup (entries : List git_tree_entry) :
    (directory_contents entries).Nodup := distinct_ids_nodup _

theorem mem_directory_contents (entries : List git_tree_entry) (id : git_oid) :
    id ∈ directory_contents entries ↔
      ∃ e ∈ entries, e.type = git_otype.GIT_OBJ_BLOB ∧ e.id = id := by
  unfold directory_contents
  rw [mem_distinct_ids]
  simp only [directory_blob_ids, List.mem_map, List.mem_filter, decide_eq_true_eq]
  constructor
  · rintro ⟨e, ⟨he, ht⟩, hid⟩
    exact ⟨e, he, ht, hid⟩
  · rintro ⟨e, he, ht, hid⟩
    exact ⟨e, ⟨he, ht⟩, hid⟩

theorem new_content_ids_nodup (entries : List git_tree_entry) (messages : List index_message) :
    (new_content_ids entries messages).Nodup :=
  (directory_contents_nodup entries).filter _

theorem scan_messages_loop_eq (messages : List index_message) (mseq : Nat)
    (files : hash_table) (trans : mail_index_transaction)
    (hnd : (message_ids messages).Nodup) :
    scan_messages_loop messages mseq files trans =
      (files.filter (fun x => decide (x.blobid ∉ message_ids messages)),
        { uid_validity := trans.uid_validity,
          expunges := trans.expunges ++
            stale_sequences messages mseq (files.map (fun x => x.blobid)),
          appends := trans.appends, hdr_ext := trans.hdr_ext }) := by
  induction messages generalizing mseq files trans with
  | nil => simp [scan_messages_loop, message_ids, stale_sequences]
  | cons m rest ih =>
    have hnd2 : (message_ids rest).Nodup := (List.nodup_cons.1 hnd).2
    have hm : m.ext.blobid ∉ message_ids rest := (List.nodup_cons.1 hnd).1
    cases hl : hash_table_lookup files m.ext.blobid with
    | none =>
      have hnot := (hash_table_lookup_eq_none files m.ext.blobid).1 hl
      rw [scan_messages_loop, hl]
      simp only
      rw [ih _ _ _ hnd2]
      have hf : files.filter (fun x => decide (x.blobid ∉ message_ids rest)) =
          files.filter (fun x => decide (x.blobid ∉ message_ids (m :: rest))) := by
        apply List.filter_congr
        intro x hx
        have hxm : x.blobid ≠ m.ext.blobid := by
          intro h
          exact hnot (by rw [← h]; exact List.mem_map_of_mem _ hx)
        simp [message_ids, hxm]
      rw [hf]
      have hs : stale_sequences (m :: rest) mseq (files.map (fun x => x.blobid)) =
          mseq :: stale_sequences rest (mseq + 1) (files.map (fun x => x.blobid)) := by
        unfold stale_sequences
        rw [List.enumFrom_cons, List.filter_cons_of_pos (by simpa using hnot)]
        rfl
      rw [hs]
      simp [List.append_assoc]
    | some v =>
      have hin := (hash_table_lookup_isSome files m.ext.blobid).1 ⟨v, hl⟩
      rw [scan_messages_loop, hl]
      simp only
      rw [ih _ _ _ hnd2, hash_table_remove_eq, List.filter_filter]
      have hf : files.filter (fun x => decide (x.blobid ∉ message_ids rest) &&
            decide (x.blobid ≠ m.ext.blobid)) =
          files.filter (fun x => decide (x.blobid ∉ message_ids (m :: rest))) := by
        apply List.filter_congr
        intro x _
        by_cases h1 : x.blobid = m.ext.blobid <;>
          by_cases h2 : x.blobid ∈ message_ids rest <;> simp [message_ids, h1, h2]
      rw [hf]
      have hs : stale_sequences rest (mseq + 1)
            ((files.filter (fun x => decide (x.blobid ≠ m.ext.blobid))).map
              (fun x => x.blobid)) =
          stale_sequences (m :: rest) mseq (files.map (fun x => x.blobid)) := by
        unfold stale_sequences
        rw [List.enumFrom_cons, List.filter_cons_of_neg (by simpa using hin)]
        congr 1
        apply List.filter_congr
        intro p hp
        have hp2 : p.2 ∈ rest := List.snd_mem_of_mem_enumFrom hp
        have hne : p.2.ext.blobid ≠ m.ext.blobid := by
          intro h
          exact hm (by rw [← h]; exact List.mem_map_of_mem _ hp2)
        simp only [List.mem_map, List.mem_filter, decide_eq_true_eq, decide_eq_decide]
        constructor
        · intro h ⟨x, hx, hxe⟩
          exact h ⟨x, ⟨hx, by rw [hxe]; exact hne⟩, hxe⟩
        · intro h ⟨x, ⟨hx, _⟩, hxe⟩
          exact h ⟨x, hx, hxe⟩
      rw [hs]

theorem mem_stale_sequences (messages : List index_message) (keys : List git_oid)
    (k : Nat) (m : index_message) (hk : messages.get? k = some m) :
    k + 1 ∈ stale_sequences messages 1 keys ↔ m.ext.blobid ∉ keys := by
  unfold stale_sequences
  simp only [List.mem_map, List.mem_filter, decide_eq_true_eq]
  constructor
  · rintro ⟨⟨i, x⟩, ⟨hmem, hx⟩, hi⟩
    simp only at hi hx
    subst hi
    rw [Nat.add_comm] at hmem
    have := List.mk_add_mem_enumFrom_iff_getElem?.1 hmem
    rw [List.get?_eq_getElem?] at hk
    rw [hk] at this
    cases this
    exact hx
  · intro h
    refine ⟨(k + 1, m), ⟨?_, h⟩, rfl⟩
    rw [Nat.add_comm]
    rw [List.get?_eq_getElem?] at hk
    exact List.mk_add_mem_enumFrom_iff_getElem?.2 hk

theorem scan_messages_loop_files (messages : List index_message) (mseq : Nat)
    (files : hash_table) (trans : mail_index_transaction) :
    (scan_messages_loop messages mseq files trans).1 =
        files.filter (fun x => decide (x.blobid ∉ message_ids messages)) ∧
      (scan_messages_loop messages mseq files trans).2.uid_validity = trans.uid_validity ∧
      (scan_messages_loop messages mseq files trans).2.appends = trans.appends ∧
      (scan_messages_loop messages mseq files trans).2.hdr_ext = trans.hdr_ext := by
  induction messages generalizing mseq files trans with
  | nil => simp [scan_messages_loop, message_ids]
  | cons m rest ih =>
    cases hl : hash_table_lookup files m.ext.blobid with
    | none =>
      have hnot := (hash_table_lookup_eq_none files m.ext.blobid).1 hl
      rw [scan_messages_loop, hl]
      simp only
      obtain ⟨h1, h2, h3, h4⟩ := ih (mseq + 1) files
        { uid_validity := trans.uid_validity, expunges := trans.expunges ++ [mseq],
          appends := trans.appends, hdr_ext := trans.hdr_ext }
      refine ⟨?_, h2, h3, h4⟩
      rw [h1]
      apply List.filter_congr
      intro x hx
      have hxm : x.blobid ≠ m.ext.blobid := by
        intro h
        exact hnot (by rw [← h]; exact List.mem_map_of_mem _ hx)
      simp [message_ids, hxm]
    | some v =>
      rw [scan_messages_loop, hl]
      simp only
      obtain ⟨h1, h2, h3, h4⟩ := ih (mseq + 1) (hash_table_remove files m.ext.blobid) trans
      refine ⟨?_, h2, h3, h4⟩
      rw [h1, hash_table_remove_eq, List.filter_filter]
      apply List.filter_congr
      intro x _
      by_cases h1 : x.blobid = m.ext.blobid <;>
        by_cases h2 : x.blobid ∈ message_ids rest <;> simp [message_ids, h1, h2]

theorem scan_append_loop_eq (l : List blob_and_time) (uid : Nat)
    (trans : mail_index_transaction) (h : uid + l.length ≤ 2 ^ 32) :
    scan_append_loop l uid trans =
      { uid_validity := trans.uid_validity, expunges := trans.expunges,
        appends := trans.appends ++ appended_messages uid l, hdr_ext := trans.hdr_ext } := by
  induction l generalizing uid trans with
  | nil => simp [scan_append_loop, appended_messages]
  | cons e rest ih =>
    rw [scan_append_loop]
    cases rest with
    | nil => simp [scan_append_loop, appended_messages]
    | cons e2 rest2 =>
      have hlt : uid + 1 < 2 ^ 32 := by
        simp only [List.length_cons] at h
        omega
      rw [Nat.mod_eq_of_lt hlt, ih (uid + 1) _ (by simp only [List.length_cons] at h ⊢; omega)]
      simp [appended_messages, List.range'_succ, List.append_assoc]

theorem scan_append_loop_fields (l : List blob_and_time) (uid : Nat)
    (trans : mail_index_transaction) :
    (scan_append_loop l uid trans).uid_validity = trans.uid_validity ∧
      (scan_append_loop l uid trans).expunges = trans.expunges ∧
      (scan_append_loop l uid trans).hdr_ext = trans.hdr_ext := by
  induction l generalizing uid trans with
  | nil => exact ⟨rfl, rfl, rfl⟩
  | cons e rest ih =>
    rw [scan_append_loop]
    exact ih _ _

theorem scan_append_loop_ids (l : List blob_and_time) (uid : Nat)
    (trans : mail_index_transaction) :
    message_ids (scan_append_loop l uid trans).appends =
      message_ids trans.appends ++ l.map (fun x => x.blobid) := by
  induction l generalizing uid trans with
  | nil => simp [scan_append_loop]
  | cons e rest ih =>
    rw [scan_append_loop, ih]
    simp [message_ids]

theorem scan_append_loop_length (l : List blob_and_time) (uid : Nat)
    (trans : mail_index_transaction) :
    (scan_append_loop l uid trans).appends.length = trans.appends.length + l.length := by
  have := congrArg List.length (scan_append_loop_ids l uid trans)
  simpa [message_ids] using this

theorem repo_scan_of_directory (env : scan_env) (mbox : bank_mailbox) (head_commitid : git_oid)
    (trans : mail_index_transaction) (sync_view : mail_index) (next_uid : Nat)
    (entries : List git_tree_entry) (hd : head_directory mbox head_commitid = some entries) :
    repo_scan env mbox head_commitid trans sync_view next_uid =
      if (scan_messages_loop sync_view.messages 1 (scan_insert_loop entries []) trans).1.length
          = 0 then
        (0, (scan_messages_loop sync_view.messages 1 (scan_insert_loop entries []) trans).2)
      else
        (0, scan_append_loop
          (env.qsort ((env.iterate (scan_messages_loop sync_view.messages 1
            (scan_insert_loop entries []) trans).1).map (scan_timestamp env mbox.repo)))
          next_uid
          (scan_messages_loop sync_view.messages 1 (scan_insert_loop entries []) trans).2) := by
  unfold head_directory at hd
  unfold repo_scan
  cases hc : mbox.repo.commits.find? (fun c => c.id == head_commitid) with
  | none => rw [hc] at hd; simp at hd
  | some head_commit =>
    rw [hc] at hd
    simp only at hd ⊢
    cases he : git_tree_entry_bypath head_commit.tree mbox.dirpath with
    | none => rw [he] at hd; simp at hd
    | some entry =>
      rw [he] at hd
      simp only at hd ⊢
      by_cases ht : entry.type = git_otype.GIT_OBJ_TREE
      · simp only [ht, ne_eq, not_true_eq_false, if_false, Option.some.injEq] at hd ⊢
        rw [hd]
      · simp [ht] at hd

theorem repo_scan_of_no_directory (env : scan_env) (mbox : bank_mailbox)
    (head_commitid : git_oid) (trans : mail_index_transaction) (sync_view : mail_index)
    (next_uid : Nat) (hd : head_directory mbox head_commitid = none) :
    repo_scan env mbox head_commitid trans sync_view next_uid = (-1, trans) := by
  unfold head_directory at hd
  unfold repo_scan
  cases hc : mbox.repo.commits.find? (fun c => c.id == head_commitid) with
  | none => rfl
  | some head_commit =>
    rw [hc] at hd
    simp only at hd ⊢
    cases he : git_tree_entry_bypath head_commit.tree mbox.dirpath with
    | none => rfl
    | some entry =>
      rw [he] at hd
      simp only at hd ⊢
      by_cases ht : entry.type = git_otype.GIT_OBJ_TREE
      · simp [ht] at hd
      · simp [ht]


theorem appended_messages_cons (u : Nat) (e : blob_and_time) (rest : List blob_and_time) :
    appended_messages u (e :: rest) =
      { uid := u, ext := { blobid := e.blobid } } :: appended_messages (u + 1) rest := by
  simp [appended_messages, List.range'_succ]

theorem appended_messages_uids (u : Nat) (sorted : List blob_and_time) :
    (appended_messages u sorted).map (fun m => m.uid) = List.range' u sorted.length := by
  induction sorted generalizing u with
  | nil => rfl
  | cons e rest ih =>
    rw [appended_messages_cons, List.map_cons, ih, List.length_cons, List.range'_succ]

theorem appended_messages_ids (u : Nat) (sorted : List blob_and_time) :
    message_ids (appended_messages u sorted) = sorted.map (fun x => x.blobid) := by
  induction sorted generalizing u with
  | nil => rfl
  | cons e rest ih =>
    have := ih (u + 1)
    unfold message_ids at this ⊢
    rw [appended_messages_cons, List.map_cons, this]
    rfl

theorem appended_messages_length (u : Nat) (sorted : List blob_and_time) :
    (appended_messages u sorted).length = sorted.length := by
  have := congrArg List.length (appended_messages_uids u sorted)
  simpa using this

theorem scan_timestamp_blobid (env : scan_env) (repo : git_repository) (e : blob_and_time) :
    (scan_timestamp env repo e).blobid = e.blobid := by
  unfold scan_timestamp
  split <;> rfl

theorem scan_timestamp_new (env : scan_env) (repo : git_repository) (id : git_oid) :
    (scan_timestamp env repo { blobid := id, timestamp := 0 }).timestamp =
      sort_key env repo id := by
  unfold scan_timestamp sort_key
  cases (git_blob_lookup repo id).bind env.payload_date <;> rfl

theorem scan_sorted_perm (env : scan_env) (hl : env.lawful) (mbox : bank_mailbox)
    (ids : List git_oid) :
    ((scan_sorted env mbox ids).map (fun x => x.blobid)).Perm ids := by
  unfold scan_sorted
  have h1 := (hl.2.1 ((env.iterate (ids.map (fun id =>
    ({ blobid := id, timestamp := 0 } : blob_and_time)))).map
      (scan_timestamp env mbox.repo))).map (fun x => x.blobid)
  have h2 := (hl.1 (ids.map (fun id =>
    ({ blobid := id, timestamp := 0 } : blob_and_time)))).map (fun x => x.blobid)
  refine h1.trans ?_
  rw [List.map_map]
  have hf : ((fun x : blob_and_time => x.blobid) ∘ scan_timestamp env mbox.repo) =
      (fun x => x.blobid) := by
    funext x
    exact scan_timestamp_blobid env mbox.repo x
  rw [hf]
  refine h2.trans ?_
  rw [List.map_map]
  simp [Function.comp_def]

theorem scan_sorted_timestamp (env : scan_env) (hl : env.lawful) (mbox : bank_mailbox)
    (ids : List git_oid) (x : blob_and_time) (hx : x ∈ scan_sorted env mbox ids) :
    x.timestamp = sort_key env mbox.repo x.blobid := by
  unfold scan_sorted at hx
  have h1 := (hl.2.1 _).mem_iff.1 hx
  obtain ⟨y, hy, hxy⟩ := List.mem_map.1 h1
  have h2 := (hl.1 _).mem_iff.1 hy
  obtain ⟨id, -, hid⟩ := List.mem_map.1 h2
  subst hid
  subst hxy
  rw [scan_timestamp_new, scan_timestamp_blobid]

theorem bytime_le_zero (a b : blob_and_time) : bytime a b ≤ 0 ↔ a.timestamp ≤ b.timestamp := by
  unfold bytime
  by_cases h1 : a.timestamp < b.timestamp
  · simp [h1]
    omega
  · by_cases h2 : a.timestamp > b.timestamp
    · simp [h1, h2]
    · simp [h1, h2]
      omega

theorem scan_sorted_keys (env : scan_env) (hl : env.lawful) (mbox : bank_mailbox)
    (ids : List git_oid) :
    ((scan_sorted env mbox ids).map (fun x => sort_key env mbox.repo x.blobid)).Pairwise
      (fun a b => a ≤ b) := by
  rw [List.pairwise_map]
  have hp : (scan_sorted env mbox ids).Pairwise (fun a b => bytime a b ≤ 0) := hl.2.2 _
  have hmem : ∀ x ∈ scan_sorted env mbox ids, x.timestamp = sort_key env mbox.repo x.blobid :=
    scan_sorted_timestamp env hl mbox ids
  refine List.Pairwise.imp_of_mem ?_ hp
  intro a b ha hb hab
  rw [← hmem a ha, ← hmem b hb]
  exact (bytime_le_zero a b).1 hab

theorem scan_sorted_length (env : scan_env) (hl : env.lawful) (mbox : bank_mailbox)
    (ids : List git_oid) : (scan_sorted env mbox ids).length = ids.length := by
  have := (scan_sorted_perm env hl mbox ids).length_eq
  simpa using this

theorem scan_sorted_nil (env : scan_env) (hl : env.lawful) (mbox : bank_mailbox) :
    scan_sorted env mbox [] = [] :=
  List.length_eq_zero.1 (scan_sorted_length env hl mbox [])

theorem repo_scan_eq_loop (env : scan_env) (hl : env.lawful) (mbox : bank_mailbox)
    (head_commitid : git_oid) (trans : mail_index_transaction) (sync_view : mail_index)
    (next_uid : Nat) (entries : List git_tree_entry)
    (hd : head_directory mbox head_commitid = some entries) :
    repo_scan env mbox head_commitid trans sync_view next_uid =
      (0, scan_append_loop (scan_sorted env mbox (new_content_ids entries sync_view.messages))
        next_uid
        (scan_messages_loop sync_view.messages 1
          ((directory_contents entries).map
            (fun id => ({ blobid := id, timestamp := 0 } : blob_and_time))) trans).2) := by
  rw [repo_scan_of_directory env mbox head_commitid trans sync_view next_uid entries hd,
    scan_insert_loop_eq entries]
  obtain ⟨h1, -⟩ := scan_messages_loop_files sync_view.messages 1
    ((directory_contents entries).map
      (fun id => ({ blobid := id, timestamp := 0 } : blob_and_time))) trans
  have hfiles : (scan_messages_loop sync_view.messages 1
      ((directory_contents entries).map
        (fun id => ({ blobid := id, timestamp := 0 } : blob_and_time))) trans).1 =
      (new_content_ids entries sync_view.messages).map
        (fun id => ({ blobid := id, timestamp := 0 } : blob_and_time)) := by
    rw [h1, new_content_ids, List.filter_map]
    rfl
  rw [hfiles]
  by_cases hz : ((new_content_ids entries sync_view.messages).map
      (fun id => ({ blobid := id, timestamp := 0 } : blob_and_time))).length = 0
  · rw [if_pos hz]
    have hnil : new_content_ids entries sync_view.messages = [] := by
      simpa using hz
    rw [hnil, scan_sorted_nil env hl mbox]
    rfl
  · rw [if_neg hz]
    rfl

theorem repo_scan_eq (env : scan_env) (hl : env.lawful) (mbox : bank_mailbox)
    (head_commitid : git_oid) (trans : mail_index_transaction) (sync_view : mail_index)
    (next_uid : Nat) (entries : List git_tree_entry)
    (hd : head_directory mbox head_commitid = some entries)
    (hfit : next_uid + (new_content_ids entries sync_view.messages).length ≤ 2 ^ 32) :
    repo_scan env mbox head_commitid trans sync_view next_uid =
      (0,
        { uid_validity := trans.uid_validity,
          expunges := (scan_messages_loop sync_view.messages 1
            ((directory_contents entries).map
              (fun id => ({ blobid := id, timestamp := 0 } : blob_and_time))) trans).2.expunges,
          appends := trans.appends ++ appended_messages next_uid
            (scan_sorted env mbox (new_content_ids entries sync_view.messages)),
          hdr_ext := trans.hdr_ext }) := by
  rw [repo_scan_eq_loop env hl mbox head_commitid trans sync_view next_uid entries hd]
  obtain ⟨-, h2, h3, h4⟩ := scan_messages_loop_files sync_view.messages 1
    ((directory_contents entries).map
      (fun id => ({ blobid := id, timestamp := 0 } : blob_and_time))) trans
  have hlen := scan_sorted_length env hl mbox (new_content_ids entries sync_view.messages)
  rw [scan_append_loop_eq _ next_uid _ (by rw [hlen]; exact hfit), h2, h3, h4]

theorem sample_scan_env_lawful : sample_scan_env.lawful := by
  haveI : IsTotal blob_and_time (fun a b => a.timestamp ≤ b.timestamp) :=
    ⟨fun a b => Int.le_total a.timestamp b.timestamp⟩
  haveI : IsTrans blob_and_time (fun a b => a.timestamp ≤ b.timestamp) :=
    ⟨fun a b c h1 h2 => Int.le_trans h1 h2⟩
  refine ⟨fun files => List.reverse_perm files, fun l => List.perm_insertionSort _ l, ?_⟩
  intro l
  have hs : (l.insertionSort (fun a b : blob_and_time => a.timestamp ≤ b.timestamp)).Sorted
      (fun a b => a.timestamp ≤ b.timestamp) := List.sorted_insertionSort _ l
  exact List.Pairwise.imp (fun {a b} h => (bytime_le_zero a b).2 h) hs

theorem repo_scan_expunges (env : scan_env) (hl : env.lawful) (mbox : bank_mailbox)
    (head_commitid : git_oid) (trans : mail_index_transaction) (sync_view : mail_index)
    (next_uid : Nat) (entries : List git_tree_entry)
    (hd : head_directory mbox head_commitid = some entries)
    (hR : (message_ids sync_view.messages).Nodup) :
    (repo_scan env mbox head_commitid trans sync_view next_uid).2.expunges =
      trans.expunges ++ stale_sequences sync_view.messages 1 (directory_contents entries) := by
  rw [repo_scan_eq_loop env hl mbox head_commitid trans sync_view next_uid entries hd]
  simp only
  rw [(scan_append_loop_fields _ _ _).2.1, scan_messages_loop_eq _ _ _ _ hR]
  simp [List.map_map, Function.comp_def]

theorem repo_scan_appends (env : scan_env) (hl : env.lawful) (mbox : bank_mailbox)
    (head_commitid : git_oid) (trans : mail_index_transaction) (sync_view : mail_index)
    (next_uid : Nat) (entries : List git_tree_entry)
    (hd : head_directory mbox head_commitid = some entries) :
    (repo_scan env mbox head_commitid trans sync_view next_uid).1 = 0 ∧
    (repo_scan env mbox head_commitid trans sync_view next_uid).2.uid_validity =
      trans.uid_validity ∧
    (repo_scan env mbox head_commitid trans sync_view next_uid).2.hdr_ext = trans.hdr_ext ∧
    message_ids (repo_scan env mbox head_commitid trans sync_view next_uid).2.appends =
      message_ids trans.appends ++
        (scan_sorted env mbox (new_content_ids entries sync_view.messages)).map
          (fun x => x.blobid) := by
  rw [repo_scan_eq_loop env hl mbox head_commitid trans sync_view next_uid entries hd]
  obtain ⟨-, h2, h3, h4⟩ := scan_messages_loop_files sync_view.messages 1
    ((directory_contents entries).map
      (fun id => ({ blobid := id, timestamp := 0 } : blob_and_time))) trans
  obtain ⟨g1, -, g3⟩ := scan_append_loop_fields
    (scan_sorted env mbox (new_content_ids entries sync_view.messages)) next_uid
    (scan_messages_loop sync_view.messages 1
      ((directory_contents entries).map
        (fun id => ({ blobid := id, timestamp := 0 } : blob_and_time))) trans).2
  refine ⟨rfl, g1.trans h2, g3.trans h4, ?_⟩
  simp only
  rw [scan_append_loop_ids, h3]

theorem repo_scan_new_ids (env : scan_env) (hl : env.lawful) (mbox : bank_mailbox)
    (head_commitid : git_oid) (uid_validity : Option Nat)
    (hdr_ext : Option bank_mail_index_header) (index : mail_index) (next_uid : Nat)
    (entries : List git_tree_entry)
    (hd : head_directory mbox head_commitid = some entries) :
    (message_ids (repo_scan env mbox head_commitid
      { uid_validity := uid_validity, expunges := [], appends := [], hdr_ext := hdr_ext }
      index next_uid).2.appends).Perm (new_content_ids entries index.messages) := by
  rw [(repo_scan_appends env hl mbox head_commitid _ index next_uid entries hd).2.2.2]
  simp only [message_ids, List.map_nil, List.nil_append]
  exact scan_sorted_perm env hl mbox _

theorem mem_new_content_ids (entries : List git_tree_entry) (messages : List index_message)
    (id : git_oid) :
    id ∈ new_content_ids entries messages ↔
      (∃ e ∈ entries, e.type = git_otype.GIT_OBJ_BLOB ∧ e.id = id) ∧
        id ∉ message_ids messages := by
  unfold new_content_ids
  rw [List.mem_filter, mem_directory_contents]
  simp

/-- C18: for an index whose messages have pairwise-distinct content ids and every
listing of the head directory, `repo_scan` returns 0 and expunges the message at
sequence number `k + 1` if and only if no file (blob) entry of the listing has
its content id; an entry of another type, such as a sub-directory, does not keep
a message from being expunged, and every appended message has the content id of
a file entry. -/
theorem C18_scan_expunges_missing_contents (env : scan_env) (hl : env.lawful)
    (mbox : bank_mailbox) (head_commitid : git_oid) (index : mail_index) (next_uid : Nat)
    (entries : List git_tree_entry)
    (hd : head_directory mbox head_commitid = some entries)
    (hR : (message_ids index.messages).Nodup) :
    (repo_scan env mbox head_commitid empty_transaction index next_uid).1 = 0 ∧
    (∀ (k : Nat) (m : index_message), index.messages.get? k = some m →
      (k + 1 ∈ (repo_scan env mbox head_commitid empty_transaction index next_uid).2.expunges ↔
        ¬ ∃ e ∈ entries, e.type = git_otype.GIT_OBJ_BLOB ∧ e.id = m.ext.blobid)) ∧
    (∀ a ∈ (repo_scan env mbox head_commitid empty_transaction index next_uid).2.appends,
      ∃ e ∈ entries, e.type = git_otype.GIT_OBJ_BLOB ∧ e.id = a.ext.blobid) := by
  refine ⟨(repo_scan_appends env hl mbox head_commitid _ index next_uid entries hd).1, ?_, ?_⟩
  · intro k m hk
    rw [repo_scan_expunges env hl mbox head_commitid empty_transaction index next_uid entries
      hd hR]
    simp only [empty_transaction, List.nil_append]
    rw [mem_stale_sequences index.messages _ k m hk, mem_directory_contents]
  · intro a ha
    have hperm := repo_scan_new_ids env hl mbox head_commitid none none index next_uid entries hd
    have hmem : a.ext.blobid ∈ new_content_ids entries index.messages :=
      hperm.subset (List.mem_map_of_mem (fun m => m.ext.blobid) ha)
    exact ((mem_new_content_ids entries index.messages a.ext.blobid).1 hmem).1

/-- C18 at `directory_mbox` with messages for content 11 (a file), 99 (nowhere) and
601 (the sub-directory): sequence numbers 2 and 3 are expunged; and at
`duplicate_mbox`, whose two files have the one content 22, the message for
content 11 is expunged and content 22 is appended once. -/
theorem C18_witness :
    (repo_scan sample_scan_env directory_mbox 9 empty_transaction mixed_index 4).2.expunges =
      [2, 3] ∧
    repo_scan sample_scan_env duplicate_mbox 9 empty_transaction one_message_index 2 =
      (0, { uid_validity := none, expunges := [1], appends := [⟨2, ⟨22⟩⟩], hdr_ext := none }) ∧
    (2 + 1 ∈ (repo_scan sample_scan_env directory_mbox 9 empty_transaction mixed_index
        4).2.expunges ↔
      ¬ ∃ e ∈ directory_entries, e.type = git_otype.GIT_OBJ_BLOB ∧ e.id = 601) :=
  ⟨by decide, by decide,
    (C18_scan_expunges_missing_contents sample_scan_env sample_scan_env_lawful directory_mbox 9
      mixed_index 4 directory_entries (by decide) (by decide)).2.1 2 ⟨3, ⟨601⟩⟩ (by decide)⟩

/-- C19, counterexample: with the index at next uid 4294967295 holding one message
that matches the head, and two further contents in the directory, the second
new message gets uid 0 (the 32-bit counter wraps), which is not greater than the
uid 1 present before. -/
theorem C19_counterexample :
    head_directory directory_mbox 9 = some directory_entries ∧
    (message_ids last_uid_index.messages).Nodup ∧
    (∀ id ∈ message_ids last_uid_index.messages, id ∈ directory_blob_ids directory_entries) ∧
    (∀ m ∈ last_uid_index.messages, m.uid < last_uid_index.next_uid) ∧
    new_content_ids directory_entries last_uid_index.messages = [22, 33] ∧
    (repo_scan sample_scan_env directory_mbox 9 empty_transaction last_uid_index
      last_uid_index.next_uid).2.appends = [⟨4294967295, ⟨33⟩⟩, ⟨0, ⟨22⟩⟩] ∧
    ¬ (∀ a ∈ (repo_scan sample_scan_env directory_mbox 9 empty_transaction last_uid_index
        last_uid_index.next_uid).2.appends,
      ∀ m ∈ last_uid_index.messages, m.uid < a.uid) := by
  refine ⟨by decide, by decide, by decide, by decide, by decide, by decide, by decide⟩

/-- C19 amended: for an index whose `N` messages carry pairwise-distinct content ids
that are all files of the head directory, and a directory holding `M` further
distinct contents, `repo_scan` returns 0, expunges nothing and appends exactly
one message for each of the `M` new contents, whatever the date extraction
yields; the index then holds `N + M` messages; and when `next_uid + M` does not
exceed `2 ^ 32`, every appended uid is greater than every uid present before. -/
theorem C19_scan_appends_new_contents (env : scan_env) (hl : env.lawful) (mbox : bank_mailbox)
    (head_commitid : git_oid) (index : mail_index) (entries : List git_tree_entry)
    (hd : head_directory mbox head_commitid = some entries)
    (hR : (message_ids index.messages).Nodup)
    (hmatch : ∀ id ∈ message_ids index.messages, id ∈ directory_blob_ids entries)
    (huid : ∀ m ∈ index.messages, m.uid < index.next_uid) :
    ∃ trans, repo_scan env mbox head_commitid empty_transaction index index.next_uid =
        (0, trans) ∧
      trans.expunges = [] ∧
      (message_ids trans.appends).Perm (new_content_ids entries index.messages) ∧
      (new_content_ids entries index.messages).Nodup ∧
      (directory_contents entries).length =
        index.messages.length + (new_content_ids entries index.messages).length ∧
      (mail_index_commit index trans).messages =
        index.messages ++ trans.appends ∧
      (mail_index_commit index trans).messages.length =
        index.messages.length + (new_content_ids entries index.messages).length ∧
      (index.next_uid + (new_content_ids entries index.messages).length ≤ 2 ^ 32 →
        ∀ a ∈ trans.appends, ∀ m ∈ index.messages, m.uid < a.uid) := by
  have hmatch2 : ∀ id ∈ message_ids index.messages, id ∈ directory_contents entries := by
    intro id h
    unfold directory_contents
    rw [mem_distinct_ids]
    exact hmatch id h
  have hstale : stale_sequences index.messages 1 (directory_contents entries) = [] := by
    unfold stale_sequences
    rw [List.map_eq_nil_iff, List.filter_eq_nil_iff]
    intro p hp
    have := hmatch2 p.2.ext.blobid
      (List.mem_map_of_mem (fun m => m.ext.blobid) (List.snd_mem_of_mem_enumFrom hp))
    simpa using this
  have hD := directory_contents_nodup entries
  have hperm := repo_scan_new_ids env hl mbox head_commitid none none index index.next_uid
    entries hd
  have hexp : (repo_scan env mbox head_commitid empty_transaction index
      index.next_uid).2.expunges = [] := by
    rw [repo_scan_expunges env hl mbox head_commitid empty_transaction index index.next_uid
      entries hd hR, hstale]
    rfl
  have happlen : (repo_scan env mbox head_commitid empty_transaction index
      index.next_uid).2.appends.length = (new_content_ids entries index.messages).length := by
    have := hperm.length_eq
    simpa [message_ids] using this
  refine ⟨(repo_scan env mbox head_commitid empty_transaction index index.next_uid).2,
    ?_, hexp, hperm, new_content_ids_nodup entries index.messages, ?_, ?_, ?_, ?_⟩
  · exact Prod.ext
      (repo_scan_appends env hl mbox head_commitid _ index index.next_uid entries hd).1 rfl
  · have hcount : ((directory_contents entries).filter
        (fun id => decide (id ∈ message_ids index.messages))).length =
        (message_ids index.messages).length := by
      have hp : ((directory_contents entries).filter
          (fun id => decide (id ∈ message_ids index.messages))).Perm
          (message_ids index.messages) := by
        apply (List.perm_ext_iff_of_nodup (hD.filter _) hR).2
        intro a
        simp only [List.mem_filter, decide_eq_true_eq]
        exact ⟨fun h => h.2, fun h => ⟨hmatch2 a h, h⟩⟩
      exact hp.length_eq
    have hsplit := List.length_eq_length_filter_add
      (l := directory_contents entries) (fun id => decide (id ∈ message_ids index.messages))
    have hneg : (fun id => decide (id ∉ message_ids index.messages)) =
        (fun id => !decide (id ∈ message_ids index.messages)) := by
      funext id
      simp
    have hml : (message_ids index.messages).length = index.messages.length := by
      simp [message_ids]
    unfold new_content_ids
    rw [hneg, ← hml, ← hcount]
    exact hsplit
  · simp [mail_index_commit, hexp, List.enum]
  · simp [mail_index_commit, hexp, List.enum, happlen]
  · intro hfit a ha m hm
    rw [repo_scan_eq env hl mbox head_commitid empty_transaction index index.next_uid entries hd
      hfit] at ha
    simp only [empty_transaction, List.nil_append] at ha
    have hu : a.uid ∈ (appended_messages index.next_uid
        (scan_sorted env mbox (new_content_ids entries index.messages))).map (fun m => m.uid) :=
      List.mem_map_of_mem _ ha
    rw [appended_messages_uids, List.mem_range'_1] at hu
    have := huid m hm
    omega

/-- C19 amended, at `directory_mbox` with one message for content 11: contents 22
and 33 are new, the index grows from 1 to 3 messages. -/
theorem C19_witness :
    ∃ trans, repo_scan sample_scan_env directory_mbox 9 empty_transaction one_message_index
        one_message_index.next_uid = (0, trans) ∧
      trans.expunges = [] ∧
      (message_ids trans.appends).Perm
        (new_content_ids directory_entries one_message_index.messages) ∧
      (new_content_ids directory_entries one_message_index.messages).Nodup ∧
      (directory_contents directory_entries).length =
        one_message_index.messages.length +
          (new_content_ids directory_entries one_message_index.messages).length ∧
      (mail_index_commit one_message_index trans).messages =
        one_message_index.messages ++ trans.appends ∧
      (mail_index_commit one_message_index trans).messages.length =
        one_message_index.messages.length +
          (new_content_ids directory_entries one_message_index.messages).length ∧
      (one_message_index.next_uid +
          (new_content_ids directory_entries one_message_index.messages).length ≤ 2 ^ 32 →
        ∀ a ∈ trans.appends, ∀ m ∈ one_message_index.messages, m.uid < a.uid) :=
  C19_scan_appends_new_contents sample_scan_env sample_scan_env_lawful directory_mbox 9
    one_message_index directory_entries (by decide) (by decide) (by decide) (by decide)

/-- C20, counterexample: three new contents appended from next uid 4294967295 get
the uids 4294967295, 0, 1 (the 32-bit counter wraps), not three consecutive
numbers counted up from `next_uid`. -/
theorem C20_counterexample :
    head_directory directory_mbox 9 = some directory_entries ∧
    new_content_ids directory_entries fresh_index.messages = [22, 11, 33] ∧
    (repo_scan sample_scan_env directory_mbox 9 empty_transaction fresh_index
      4294967295).2.appends.map (fun m => m.uid) = [4294967295, 0, 1] ∧
    List.range' 4294967295 3 = [4294967295, 4294967296, 4294967297] := by
  refine ⟨by decide, by decide, by decide, by decide⟩

/-- C20 amended: for every set of `M` new contents with `next_uid + M` not above
`2 ^ 32`, `repo_scan` returns 0 and appends one message per new content with the
consecutive uids `next_uid`, `next_uid + 1`, ..., `next_uid + M - 1`, in an order
in which the sort keys (the extracted timestamp, 0 when none could be extracted)
never decrease, all in the one transaction it was given. -/
theorem C20_new_contents_get_consecutive_uids (env : scan_env) (hl : env.lawful)
    (mbox : bank_mailbox) (head_commitid : git_oid) (trans : mail_index_transaction)
    (index : mail_index) (next_uid : Nat) (entries : List git_tree_entry)
    (hd : head_directory mbox head_commitid = some entries)
    (hfit : next_uid + (new_content_ids entries index.messages).length ≤ 2 ^ 32) :
    ∃ result new_messages,
      repo_scan env mbox head_commitid trans index next_uid = (0, result) ∧
      result.appends = trans.appends ++ new_messages ∧
      new_messages.map (fun m => m.uid) =
        List.range' next_uid (new_content_ids entries index.messages).length ∧
      (message_ids new_messages).Perm (new_content_ids entries index.messages) ∧
      (new_messages.map (fun m => sort_key env mbox.repo m.ext.blobid)).Pairwise
        (fun a b => a ≤ b) := by
  have hlen := scan_sorted_length env hl mbox (new_content_ids entries index.messages)
  refine ⟨_, appended_messages next_uid
      (scan_sorted env mbox (new_content_ids entries index.messages)),
    repo_scan_eq env hl mbox head_commitid trans index next_uid entries hd hfit, rfl, ?_, ?_, ?_⟩
  · rw [appended_messages_uids, hlen]
  · rw [appended_messages_ids]
    exact scan_sorted_perm env hl mbox _
  · have h1 : (appended_messages next_uid
        (scan_sorted env mbox (new_content_ids entries index.messages))).map
          (fun m => sort_key env mbox.repo m.ext.blobid) =
        (message_ids (appended_messages next_uid
          (scan_sorted env mbox (new_content_ids entries index.messages)))).map
            (sort_key env mbox.repo) := by
      simp [message_ids, List.map_map, Function.comp_def]
    rw [h1, appended_messages_ids, List.map_map]
    exact scan_sorted_keys env hl mbox _

/-- C20 amended, at `directory_mbox` with an empty index and next uid 1: the three
files get uids 1, 2, 3 in the order of their keys 0 (content 33, no date), 49
(content 11) and 50 (content 22). -/
theorem C20_witness :
    repo_scan sample_scan_env directory_mbox 9 empty_transaction fresh_index 1 =
      (0, { uid_validity := none, expunges := [],
            appends := [⟨1, ⟨33⟩⟩, ⟨2, ⟨11⟩⟩, ⟨3, ⟨22⟩⟩], hdr_ext := none }) ∧
    ∃ result new_messages,
      repo_scan sample_scan_env directory_mbox 9 empty_transaction fresh_index 1 =
        (0, result) ∧
      result.appends = empty_transaction.appends ++ new_messages ∧
      new_messages.map (fun m => m.uid) =
        List.range' 1 (new_content_ids directory_entries fresh_index.messages).length ∧
      (message_ids new_messages).Perm (new_content_ids directory_entries fresh_index.messages) ∧
      (new_messages.map (fun m => sort_key sample_scan_env directory_mbox.repo m.ext.blobid)).Pairwise
        (fun a b => a ≤ b) :=
  ⟨by decide,
    C20_new_contents_get_consecutive_uids sample_scan_env sample_scan_env_lawful directory_mbox 9
      empty_transaction fresh_index 1 directory_entries (by decide) (by decide)⟩

/-- C21: when two file entries of the head directory carry the same content id (so
that the id stands at least twice among the file entries of the listing) and the
index is empty, `repo_scan` returns 0, expunges nothing, and among the appended
messages exactly one has that content id; the appended content ids are pairwise
distinct and are the contents of the directory. -/
theorem C21_same_content_gives_one_record (env : scan_env) (hl : env.lawful)
    (mbox : bank_mailbox) (head_commitid : git_oid) (index : mail_index) (next_uid : Nat)
    (e1 e2 : git_tree_entry) (pre mid post : List git_tree_entry)
    (hd : head_directory mbox head_commitid = some (pre ++ e1 :: (mid ++ e2 :: post)))
    (h1 : e1.type = git_otype.GIT_OBJ_BLOB) (h2 : e2.type = git_otype.GIT_OBJ_BLOB)
    (hid : e1.id = e2.id) (hempty : index.messages = []) :
    (repo_scan env mbox head_commitid empty_transaction index next_uid).1 = 0 ∧
    (repo_scan env mbox head_commitid empty_transaction index next_uid).2.expunges = [] ∧
    2 ≤ (directory_blob_ids (pre ++ e1 :: (mid ++ e2 :: post))).count e1.id ∧
    (message_ids
      (repo_scan env mbox head_commitid empty_transaction index next_uid).2.appends).count
        e1.id = 1 ∧
    (message_ids
      (repo_scan env mbox head_commitid empty_transaction index next_uid).2.appends).Nodup ∧
    (message_ids
      (repo_scan env mbox head_commitid empty_transaction index next_uid).2.appends).Perm
        (directory_contents (pre ++ e1 :: (mid ++ e2 :: post))) := by
  have hperm := repo_scan_new_ids env hl mbox head_commitid none none index next_uid _ hd
  have hnew : new_content_ids (pre ++ e1 :: (mid ++ e2 :: post)) index.messages =
      directory_contents (pre ++ e1 :: (mid ++ e2 :: post)) := by
    unfold new_content_ids
    rw [hempty]
    simp [message_ids]
  rw [hnew] at hperm
  have hnd : (message_ids (repo_scan env mbox head_commitid empty_transaction index
      next_uid).2.appends).Nodup :=
    hperm.nodup_iff.2 (directory_contents_nodup _)
  have hmem : e1.id ∈ message_ids (repo_scan env mbox head_commitid empty_transaction index
      next_uid).2.appends := by
    apply hperm.mem_iff.2
    rw [mem_directory_contents]
    exact ⟨e1, by simp, h1, rfl⟩
  refine ⟨(repo_scan_appends env hl mbox head_commitid _ index next_uid _ hd).1, ?_, ?_,
    List.count_eq_one_of_mem hnd hmem, hnd, hperm⟩
  · rw [repo_scan_expunges env hl mbox head_commitid empty_transaction index next_uid _ hd
      (by rw [hempty]; exact List.nodup_nil), hempty]
    rfl
  · have hids : directory_blob_ids (pre ++ e1 :: (mid ++ e2 :: post)) =
        directory_blob_ids pre ++ e1.id :: (directory_blob_ids mid ++
          e2.id :: directory_blob_ids post) := by
      simp [directory_blob_ids, h1, h2]
    rw [hids, ← hid]
    simp only [List.count_append, List.count_cons_self]
    omega

/-- C21 at `twin_mbox` with the empty index: `x.json` and `y.json` both have
content 55, and the scan appends one message for 55 and one for 66. -/
theorem C21_witness :
    repo_scan sample_scan_env twin_mbox 4 empty_transaction fresh_index 1 =
      (0, { uid_validity := none, expunges := [],
            appends := [⟨1, ⟨55⟩⟩, ⟨2, ⟨66⟩⟩], hdr_ext := none }) ∧
    (message_ids
      (repo_scan sample_scan_env twin_mbox 4 empty_transaction fresh_index 1).2.appends).count
        55 = 1 :=
  ⟨by decide,
    (C21_same_content_gives_one_record sample_scan_env sample_scan_env_lawful twin_mbox 4
      fresh_index 1
      ⟨"ledger/", "x.json", 55, git_otype.GIT_OBJ_BLOB⟩
      ⟨"ledger/", "y.json", 55, git_otype.GIT_OBJ_BLOB⟩
      [] [] [⟨"ledger/", "z.json", 66, git_otype.GIT_OBJ_BLOB⟩]
      (by decide) (by decide) (by decide) (by decide) (by decide)).2.2.2.1⟩

/-! ## Content ids of the messages stay pairwise distinct -/

theorem mail_index_commit_messages (index : mail_index) (trans : mail_index_transaction) :
    ∃ kept, kept.Sublist index.messages ∧
      (mail_index_commit index trans).messages = kept ++ trans.appends := by
  refine ⟨(index.messages.enum.filter
    (fun p : Nat × index_message => !trans.expunges.contains (p.1 + 1))).map Prod.snd, ?_, rfl⟩
  have h := (List.filter_sublist (p := fun p : Nat × index_message =>
    !trans.expunges.contains (p.1 + 1)) index.messages.enum).map Prod.snd
  rwa [List.enum_map_snd] at h

theorem repo_scan_appends_ids (env : scan_env) (hl : env.lawful) (mbox : bank_mailbox)
    (head_commitid : git_oid) (uid_validity : Option Nat)
    (hdr_ext : Option bank_mail_index_header) (index : mail_index) (next_uid : Nat) :
    (message_ids (repo_scan env mbox head_commitid
      { uid_validity := uid_validity, expunges := [], appends := [], hdr_ext := hdr_ext }
      index next_uid).2.appends).Nodup ∧
      ∀ id ∈ message_ids (repo_scan env mbox head_commitid
        { uid_validity := uid_validity, expunges := [], appends := [], hdr_ext := hdr_ext }
        index next_uid).2.appends, id ∉ message_ids index.messages := by
  cases hd : head_directory mbox head_commitid with
  | none =>
    rw [repo_scan_of_no_directory env mbox head_commitid _ index next_uid hd]
    simp [message_ids]
  | some entries =>
    have hperm := repo_scan_new_ids env hl mbox head_commitid uid_validity hdr_ext index
      next_uid entries hd
    refine ⟨hperm.nodup_iff.2 (new_content_ids_nodup entries index.messages), ?_⟩
    intro id hid
    exact ((mem_new_content_ids entries index.messages id).1 (hperm.subset hid)).2

/-- C23: for an index whose messages have pairwise-distinct content ids, `repo_scan`
(started, as `repo_sync` does, on a transaction without expunges or appends)
leads, for every listing of the head directory, to committed messages, the kept
ones followed by the appended ones, that again have pairwise-distinct content
ids, and no appended message has the content id of a kept one. -/
theorem C23_content_ids_stay_unique (env : scan_env) (hl : env.lawful) (mbox : bank_mailbox)
    (head_commitid : git_oid) (uid_validity : Option Nat)
    (hdr_ext : Option bank_mail_index_header) (index : mail_index) (next_uid : Nat)
    (hR : (message_ids index.messages).Nodup) :
    ∃ kept, kept.Sublist index.messages ∧
      (mail_index_commit index (repo_scan env mbox head_commitid
        { uid_validity := uid_validity, expunges := [], appends := [], hdr_ext := hdr_ext }
        index next_uid).2).messages =
        kept ++ (repo_scan env mbox head_commitid
          { uid_validity := uid_validity, expunges := [], appends := [], hdr_ext := hdr_ext }
          index next_uid).2.appends ∧
      (message_ids (mail_index_commit index (repo_scan env mbox head_commitid
        { uid_validity := uid_validity, expunges := [], appends := [], hdr_ext := hdr_ext }
        index next_uid).2).messages).Nodup ∧
      ∀ a ∈ (repo_scan env mbox head_commitid
          { uid_validity := uid_validity, expunges := [], appends := [], hdr_ext := hdr_ext }
          index next_uid).2.appends,
        ∀ k ∈ kept, a.ext.blobid ≠ k.ext.blobid := by
  obtain ⟨hnd, hnew⟩ := repo_scan_appends_ids env hl mbox head_commitid uid_validity hdr_ext
    index next_uid
  obtain ⟨kept, hsub, hmsg⟩ := mail_index_commit_messages index (repo_scan env mbox
    head_commitid
    { uid_validity := uid_validity, expunges := [], appends := [], hdr_ext := hdr_ext }
    index next_uid).2
  have hkept : (message_ids kept).Sublist (message_ids index.messages) := hsub.map _
  refine ⟨kept, hsub, hmsg, ?_, ?_⟩
  · rw [hmsg]
    unfold message_ids at hnd hnew hkept hR ⊢
    rw [List.map_append]
    refine List.Nodup.append (hkept.nodup hR) hnd ?_
    intro id h1 h2
    exact hnew id h2 (hkept.subset h1)
  · intro a ha k hk heq
    apply hnew a.ext.blobid
    · exact List.mem_map.2 ⟨a, ha, rfl⟩
    · rw [heq]
      exact hsub.subset hk |> fun hm => List.mem_map.2 ⟨k, hm, rfl⟩

/-- C23 at `directory_mbox` with the index holding one message of content 11:
contents 33 and 22 are appended behind the kept message. -/
theorem C23_witness :
    (message_ids one_message_index.messages).Nodup ∧
    repo_scan sample_scan_env directory_mbox 9
        { uid_validity := none, expunges := [], appends := [], hdr_ext := none }
        one_message_index 2 =
      (0, { uid_validity := none, expunges := [],
            appends := [{ uid := 2, ext := { blobid := 33 } },
              { uid := 3, ext := { blobid := 22 } }],
            hdr_ext := none }) ∧
    ∃ kept, kept.Sublist one_message_index.messages ∧
      (mail_index_commit one_message_index (repo_scan sample_scan_env directory_mbox 9
        { uid_validity := none, expunges := [], appends := [], hdr_ext := none }
        one_message_index 2).2).messages =
        kept ++ (repo_scan sample_scan_env directory_mbox 9
          { uid_validity := none, expunges := [], appends := [], hdr_ext := none }
          one_message_index 2).2.appends ∧
      (message_ids (mail_index_commit one_message_index (repo_scan sample_scan_env
        directory_mbox 9
        { uid_validity := none, expunges := [], appends := [], hdr_ext := none }
        one_message_index 2).2).messages).Nodup ∧
      ∀ a ∈ (repo_scan sample_scan_env directory_mbox 9
          { uid_validity := none, expunges := [], appends := [], hdr_ext := none }
          one_message_index 2).2.appends,
        ∀ k ∈ kept, a.ext.blobid ≠ k.ext.blobid :=
  ⟨by decide, by decide,
    C23_content_ids_stay_unique sample_scan_env sample_scan_env_lawful directory_mbox 9 none
      none one_message_index 2 (by decide)⟩

/-! ## repo.c: synchronisation -/

theorem repo_scan_keeps_header_fields (env : scan_env) (mbox : bank_mailbox)
    (head_commitid : git_oid) (trans : mail_index_transaction) (sync_view : mail_index)
    (next_uid : Nat) :
    (repo_scan env mbox head_commitid trans sync_view next_uid).2.uid_validity =
        trans.uid_validity ∧
      (repo_scan env mbox head_commitid trans sync_view next_uid).2.hdr_ext =
        trans.hdr_ext := by
  cases hd : head_directory mbox head_commitid with
  | none =>
    rw [repo_scan_of_no_directory env mbox head_commitid trans sync_view next_uid hd]
    exact ⟨rfl, rfl⟩
  | some entries =>
    rw [repo_scan_of_directory env mbox head_commitid trans sync_view next_uid entries hd]
    obtain ⟨-, h2, -, h4⟩ := scan_messages_loop_files sync_view.messages 1
      (scan_insert_loop entries []) trans
    split
    · exact ⟨h2, h4⟩
    · obtain ⟨g1, -, g3⟩ := scan_append_loop_fields
        (env.qsort ((env.iterate (scan_messages_loop sync_view.messages 1
          (scan_insert_loop entries []) trans).1).map (scan_timestamp env mbox.repo)))
        next_uid (scan_messages_loop sync_view.messages 1 (scan_insert_loop entries []) trans).2
      exact ⟨g1.trans h2, g3.trans h4⟩

theorem mail_index_commit_empty (index : mail_index) :
    mail_index_commit index empty_transaction = index := by
  cases index
  simp [mail_index_commit, empty_transaction, List.enum]

theorem repo_sync_fast_path (env : sync_env) (mbox : bank_mailbox) (index : mail_index)
    (head_commitid : git_oid) (hh : repo_get_head mbox = some head_commitid)
    (hv : index.uid_validity ≠ 0) (hs : index.hdr_ext_size = sizeof_bank_mail_index_header)
    (hc : index.hdr_ext.sync_commitid = head_commitid) :
    (repo_sync env mbox index).need_scan = false ∧
      (repo_sync env mbox index).trans = empty_transaction ∧
      (repo_sync env mbox index).index = index := by
  unfold repo_sync
  by_cases hb : env.sync_begin_ret ≤ 0
  · rw [if_pos hb]
    exact ⟨rfl, rfl, rfl⟩
  · rw [if_neg hb, hh]
    simp only [hv, if_false, hs, hc, bne_self_eq_false, Bool.or_self, Bool.false_eq_true]
    unfold sync_commit
    split
    · exact ⟨rfl, rfl, rfl⟩
    · exact ⟨rfl, rfl, mail_index_commit_empty index⟩

theorem sync_commit_need_scan (env : sync_env) (index : mail_index) (b : Bool)
    (trans : mail_index_transaction) : (sync_commit env index b trans).need_scan = b := by
  unfold sync_commit
  split <;> rfl

theorem sync_commit_ret_zero (env : sync_env) (index : mail_index) (b : Bool)
    (trans : mail_index_transaction) (h : (sync_commit env index b trans).ret = 0) :
    (sync_commit env index b trans).index = mail_index_commit index trans := by
  unfold sync_commit at h ⊢
  split
  · rename_i hc
    rw [if_pos hc] at h
    simp at h
  · rfl

theorem repo_sync_scan_path (env : sync_env) (mbox : bank_mailbox) (index : mail_index)
    (head_commitid : git_oid) (hb : 0 < env.sync_begin_ret)
    (hh : repo_get_head mbox = some head_commitid)
    (hn : index.uid_validity = 0 ∨ index.hdr_ext_size ≠ sizeof_bank_mail_index_header ∨
      index.hdr_ext.sync_commitid ≠ head_commitid) :
    repo_sync env mbox index =
      sync_commit env index true
        { uid_validity := (repo_scan env.scan mbox head_commitid
            (if index.uid_validity = 0 then
              { uid_validity := some (env.ioloop_time % 2 ^ 32).toNat, expunges := [],
                appends := [], hdr_ext := none }
            else empty_transaction) index index.next_uid).2.uid_validity,
          expunges := (repo_scan env.scan mbox head_commitid
            (if index.uid_validity = 0 then
              { uid_validity := some (env.ioloop_time % 2 ^ 32).toNat, expunges := [],
                appends := [], hdr_ext := none }
            else empty_transaction) index index.next_uid).2.expunges,
          appends := (repo_scan env.scan mbox head_commitid
            (if index.uid_validity = 0 then
              { uid_validity := some (env.ioloop_time % 2 ^ 32).toNat, expunges := [],
                appends := [], hdr_ext := none }
            else empty_transaction) index index.next_uid).2.appends,
          hdr_ext := some { sync_commitid := head_commitid } } := by
  unfold repo_sync
  rw [if_neg (by omega), hh]
  by_cases hz : index.uid_validity = 0
  · simp [hz]
  · have h2 : ((index.hdr_ext_size != sizeof_bank_mail_index_header) ||
        (index.hdr_ext.sync_commitid != head_commitid)) = true := by
      rcases hn with h | h | h
      · exact absurd h hz
      · simp [h]
      · simp [h]
    simp [hz, h2]

theorem repo_sync_no_scan_path (env : sync_env) (mbox : bank_mailbox) (index : mail_index)
    (head_commitid : git_oid) (hb : 0 < env.sync_begin_ret)
    (hh : repo_get_head mbox = some head_commitid)
    (hv : index.uid_validity ≠ 0) (hs : index.hdr_ext_size = sizeof_bank_mail_index_header)
    (hc : index.hdr_ext.sync_commitid = head_commitid) :
    repo_sync env mbox index = sync_commit env index false empty_transaction := by
  unfold repo_sync
  rw [if_neg (by omega), hh]
  simp [hv, hs, hc]

/-- C16, counterexample: a first `repo_sync` of a never synchronised index at a clock
value of `2 ^ 32` seconds returns 0 but stores `uid_validity` 0 (the low 32 bits of
the clock), so a second `repo_sync` at the same head sets `need_scan` again and
writes the header extension once more. -/
theorem C16_counterexample :
    (repo_sync wrapped_clock_env directory_mbox fresh_index).ret = 0 ∧
    (repo_sync wrapped_clock_env directory_mbox fresh_index).index.uid_validity = 0 ∧
    (repo_sync wrapped_clock_env directory_mbox fresh_index).index.hdr_ext.sync_commitid = 9 ∧
    (repo_sync sample_sync_env directory_mbox
      (repo_sync wrapped_clock_env directory_mbox fresh_index).index).need_scan = true ∧
    (repo_sync sample_sync_env directory_mbox
      (repo_sync wrapped_clock_env directory_mbox fresh_index).index).trans.hdr_ext =
        some { sync_commitid := 9 } := by
  refine ⟨by decide, by decide, by decide, by decide, by decide⟩

/-- C16 amended: after a `repo_sync` that ran to a successful commit and, when
`uid_validity` had to be initialised, did so at a clock value whose low 32 bits
are not zero, any further `repo_sync` at the same head sets no `need_scan`,
builds the empty transaction (no expunge, no append, no header written) and
leaves the index as it is.  In a `repo_sync` that got as far as reading the head,
`need_scan` is set exactly when `uid_validity` is 0, the stored extension header
has the wrong size, or the stored sync commit id differs from the head. -/
theorem C16_second_sync_takes_fast_path (env1 env2 : sync_env) (mbox : bank_mailbox)
    (index : mail_index) (hbegin : 0 < env1.sync_begin_ret)
    (hret : (repo_sync env1 mbox index).ret = 0)
    (htime : index.uid_validity = 0 → (env1.ioloop_time % 2 ^ 32).toNat ≠ 0) :
    ((repo_sync env2 mbox (repo_sync env1 mbox index).index).need_scan = false ∧
      (repo_sync env2 mbox (repo_sync env1 mbox index).index).trans = empty_transaction ∧
      (repo_sync env2 mbox (repo_sync env1 mbox index).index).index =
        (repo_sync env1 mbox index).index) ∧
    (∀ (env : sync_env) (index2 : mail_index) (head_commitid : git_oid),
      0 < env.sync_begin_ret → repo_get_head mbox = some head_commitid →
      ((repo_sync env mbox index2).need_scan = true ↔
        index2.uid_validity = 0 ∨ index2.hdr_ext_size ≠ sizeof_bank_mail_index_header ∨
          index2.hdr_ext.sync_commitid ≠ head_commitid)) := by
  constructor
  · cases hh : repo_get_head mbox with
    | none =>
      unfold repo_sync at hret
      rw [if_neg (by omega), hh] at hret
      simp at hret
    | some head_commitid =>
      by_cases hn : index.uid_validity = 0 ∨
          index.hdr_ext_size ≠ sizeof_bank_mail_index_header ∨
          index.hdr_ext.sync_commitid ≠ head_commitid
      · have hpath := repo_sync_scan_path env1 mbox index head_commitid hbegin hh hn
        rw [hpath] at hret
        have hidx := sync_commit_ret_zero _ _ _ _ hret
        rw [← hpath] at hidx
        obtain ⟨hu, -⟩ := repo_scan_keeps_header_fields env1.scan mbox head_commitid
          (if index.uid_validity = 0 then
            { uid_validity := some (env1.ioloop_time % 2 ^ 32).toNat, expunges := [],
              appends := [], hdr_ext := none }
          else empty_transaction) index index.next_uid
        apply repo_sync_fast_path env2 mbox _ head_commitid hh
        · rw [hidx]
          simp only [mail_index_commit, hu]
          by_cases hz : index.uid_validity = 0
          · simp only [hz, if_true, Option.getD_some]
            exact htime hz
          · simp only [hz, if_false, empty_transaction, Option.getD_none]
            exact hz
        · rw [hidx]
          simp [mail_index_commit]
        · rw [hidx]
          simp [mail_index_commit]
      · simp only [not_or, not_not] at hn
        have hpath := repo_sync_no_scan_path env1 mbox index head_commitid hbegin hh hn.1
          hn.2.1 hn.2.2
        rw [hpath] at hret
        have hidx := sync_commit_ret_zero _ _ _ _ hret
        rw [← hpath, mail_index_commit_empty] at hidx
        rw [hidx]
        exact repo_sync_fast_path env2 mbox index head_commitid hh hn.1 hn.2.1 hn.2.2
  · intro env index2 head_commitid hb hh
    by_cases hn : index2.uid_validity = 0 ∨
        index2.hdr_ext_size ≠ sizeof_bank_mail_index_header ∨
        index2.hdr_ext.sync_commitid ≠ head_commitid
    · rw [repo_sync_scan_path env mbox index2 head_commitid hb hh hn, sync_commit_need_scan]
      simp only [true_iff]
      exact hn
    · have hn2 := hn
      simp only [not_or, not_not] at hn2
      rw [repo_sync_no_scan_path env mbox index2 head_commitid hb hh hn2.1 hn2.2.1 hn2.2.2,
        sync_commit_need_scan]
      simp only [Bool.false_eq_true, false_iff]
      exact hn

/-- C16 amended, at `directory_mbox`: the first synchronisation of the fresh index
appends three messages and stores head 9; the second one changes nothing. -/
theorem C16_witness :
    repo_sync sample_sync_env directory_mbox fresh_index =
      { ret := 0, need_scan := true,
        trans :=
          { uid_validity := some 1700000000, expunges := [],
            appends := [{ uid := 1, ext := { blobid := 33 } },
              { uid := 2, ext := { blobid := 11 } }, { uid := 3, ext := { blobid := 22 } }],
            hdr_ext := some { sync_commitid := 9 } },
        index :=
          { uid_validity := 1700000000, next_uid := 4,
            messages := [{ uid := 1, ext := { blobid := 33 } },
              { uid := 2, ext := { blobid := 11 } }, { uid := 3, ext := { blobid := 22 } }],
            hdr_ext_size := 20, hdr_ext := { sync_commitid := 9 } } } ∧
    (repo_sync sample_sync_env directory_mbox
        (repo_sync sample_sync_env directory_mbox fresh_index).index).need_scan = false ∧
    (repo_sync sample_sync_env directory_mbox
        (repo_sync sample_sync_env directory_mbox fresh_index).index).trans =
      empty_transaction ∧
    (repo_sync sample_sync_env directory_mbox
        (repo_sync sample_sync_env directory_mbox fresh_index).index).index =
      (repo_sync sample_sync_env directory_mbox fresh_index).index :=
  ⟨by decide,
    (C16_second_sync_takes_fast_path sample_sync_env sample_sync_env directory_mbox fresh_index
      (by decide) (by decide) (by decide)).1⟩

/-- C17: when the head has no target directory `repo_scan` returns -1 with the
transaction untouched, yet `repo_sync` (begun and committed without error, on an
index whose stored sync commit id is not the head) still returns 0 and writes the
header extension: the persisted sync commit id becomes the head, so the persisted
state is changed.  No message is expunged or appended. -/
theorem C17_failed_scan_still_advances_sync_id (env : sync_env) (mbox : bank_mailbox)
    (index : mail_index) (head_commitid : git_oid)
    (hb : 0 < env.sync_begin_ret) (hcm : 0 ≤ env.sync_commit_ret)
    (hh : repo_get_head mbox = some head_commitid)
    (hd : head_directory mbox head_commitid = none)
    (hn : index.hdr_ext.sync_commitid ≠ head_commitid) :
    (∀ trans, repo_scan env.scan mbox head_commitid trans index index.next_uid =
      (-1, trans)) ∧
    (repo_sync env mbox index).ret = 0 ∧ (repo_sync env mbox index).need_scan = true ∧
    (repo_sync env mbox index).trans.expunges = [] ∧
    (repo_sync env mbox index).trans.appends = [] ∧
    (repo_sync env mbox index).trans.hdr_ext = some { sync_commitid := head_commitid } ∧
    (repo_sync env mbox index).index.messages = index.messages ∧
    (repo_sync env mbox index).index.hdr_ext.sync_commitid = head_commitid ∧
    (repo_sync env mbox index).index ≠ index := by
  refine ⟨fun trans => repo_scan_of_no_directory env.scan mbox head_commitid trans index
    index.next_uid hd, ?_⟩
  rw [repo_sync_scan_path env mbox index head_commitid hb hh (Or.inr (Or.inr hn)),
    repo_scan_of_no_directory env.scan mbox head_commitid _ index index.next_uid hd]
  have hc : ¬ env.sync_commit_ret < 0 := by omega
  refine ⟨?_, ?_, ?_, ?_, ?_, ?_, ?_, ?_⟩
  · simp [sync_commit, hc]
  · simp [sync_commit, hc]
  · simp only [sync_commit, if_neg hc]
    split <;> rfl
  · simp only [sync_commit, if_neg hc]
    split <;> rfl
  · simp [sync_commit, hc]
  · simp only [sync_commit, if_neg hc, mail_index_commit]
    split <;> simp [empty_transaction, List.enum]
  · simp [sync_commit, hc, mail_index_commit]
  · intro he
    apply hn
    rw [← he]
    simp [sync_commit, hc, mail_index_commit]

/-- C17 at `stale_mbox`, whose head `C7` has no directory `ledger`, with an index
synchronised at `C6`. -/
theorem C17_witness :
    (∀ trans, repo_scan sample_sync_env.scan stale_mbox 7 trans stale_index
      stale_index.next_uid = (-1, trans)) ∧
    (repo_sync sample_sync_env stale_mbox stale_index).ret = 0 ∧
    (repo_sync sample_sync_env stale_mbox stale_index).need_scan = true ∧
    (repo_sync sample_sync_env stale_mbox stale_index).trans.expunges = [] ∧
    (repo_sync sample_sync_env stale_mbox stale_index).trans.appends = [] ∧
    (repo_sync sample_sync_env stale_mbox stale_index).trans.hdr_ext =
      some { sync_commitid := 7 } ∧
    (repo_sync sample_sync_env stale_mbox stale_index).index.messages =
      stale_index.messages ∧
    (repo_sync sample_sync_env stale_mbox stale_index).index.hdr_ext.sync_commitid = 7 ∧
    (repo_sync sample_sync_env stale_mbox stale_index).index ≠ stale_index :=
  C17_failed_scan_still_advances_sync_id sample_sync_env stale_mbox stale_index 7
    (by decide) (by decide) (by decide) (by decide) (by decide)

end Banks
